import Mathlib

/-!
# json-c-parser: a shallow embedding of `src/json.c`

Conventions of the embedding.

* A C `char` is a `Nat` (its code, `'a'` is 97).  A NUL-terminated buffer is a
  `List Nat`; the terminating NUL is the end of the list, and a `0` inside the
  list is read as a terminator exactly like the C code would read it.
* The cursor `const char** input` is the list of characters that remain; every
  function that moves the cursor returns the new remainder.
* A pointer into the buffer (`token.start`) is the suffix it points at; the C
  null pointer is `none`.
* `int`, `int32_t` are `Int`; the embedding covers buffers shorter than `2^31`
  bytes, so the counters never wrap.
* `malloc`/`realloc` always succeed.  In the first embedding `free` is not
  represented (a released tree is simply not returned); a second embedding of
  the parser (`parseValueT` and its companions) tracks every block handed out
  and every `free`.  Diagnostic `puts`/`printf` calls inside the parser are not
  represented; the text written by `print_json` is its result.
* `double`, `strtod` and the `%lf` conversion of `printf` belong to the C
  library, not to this repository; they are modelled from the C standard.
* The recursion of the parser and the rounds of its loops are counted by a
  natural number that decreases; the C call stack is taken to be deep enough.
-/

namespace JsonC

/-! ## Characters -/

/-- The bytes of an ASCII text (used to write buffers readably). -/
def bytes (s : String) : List Nat := s.toList.map Char.toNat

/-- The character under a pointer: the head of the remainder, NUL at the end. -/
def peek (input : List Nat) : Nat := input.headD 0

/-- `isWhitespace` of the source. -/
def isWhitespace (c : Nat) : Bool := c == 32 || c == 9 || c == 10 || c == 13

/-- The test `c >= '0' && c <= '9'` of the source. -/
def isDigitC (c : Nat) : Bool := 48 ≤ c && c ≤ 57

/-! ## The data model -/

/-- `JsonTokenType` of the source. -/
inductive JsonTokenType
  | TOKEN_STRING
  | TOKEN_TRUE
  | TOKEN_FALSE
  | TOKEN_NULL
  | TOKEN_OBJECT_START
  | TOKEN_OBJECT_END
  | TOKEN_ARRAY_START
  | TOKEN_ARRAY_END
  | TOKEN_COLON
  | TOKEN_COMMA
  | TOKEN_NUMBER
  | TOKEN_ERROR
  | TOKEN_EOF
  deriving DecidableEq, Repr

open JsonTokenType

/-- `JsonToken` of the source; `start` is the suffix of the buffer the token
begins at (`none` is the null pointer). -/
structure JsonToken where
  type : JsonTokenType
  start : Option (List Nat)
  length : Int
  line : Int
  column : Int
  deriving DecidableEq, Repr

/-! ## The tokenizer -/

/-- The whitespace loop at the head of `nextToken`: returns the remainder and
the updated `line` and `column`. -/
def skipWhitespace : List Nat → Int → Int → List Nat × Int × Int
  | [], line, column => ([], line, column)
  | c :: rest, line, column =>
    if c != 0 && isWhitespace c then
      if c == 10 then skipWhitespace rest (line + 1) 1
      else skipWhitespace rest line (column + 1)
    else (c :: rest, line, column)

/-- The loop of the string case, `while(**input && **input != '"')`: a
backslash moves the cursor over itself and, unless the terminator follows, over
the next character, counting one; any other character counts one. -/
def scanString : List Nat → Int → List Nat × Int
  | [], length => ([], length)
  | c :: rest, length =>
    if c == 0 || c == 34 then (c :: rest, length)
    else if c == 92 then
      match rest with
      | [] => ([], length)
      | d :: rest2 =>
        if d != 0 then scanString rest2 (length + 1)
        else (d :: rest2, length)
    else scanString rest (length + 1)

/-- The digit loops of the number case. -/
def scanDigits : List Nat → Int → List Nat × Int
  | [], length => ([], length)
  | c :: rest, length =>
    if c != 0 && isDigitC c then scanDigits rest (length + 1)
    else (c :: rest, length)

/-- The keyword cases: the first letter is consumed, then `strncmp` compares
the next `tail.length` characters with `tail`.  The result is `token.type`,
`token.length` and the cursor at the `break`. -/
def scanKeyword (ty : JsonTokenType) (tail : List Nat) (start : List Nat) :
    JsonTokenType × Int × List Nat :=
  if start.tail.take tail.length == tail then
    (ty, 1 + tail.length, start.tail.drop tail.length)
  else
    (TOKEN_ERROR, 1, start.tail)

/-- The optional fraction of the number case: a point and the digits after it. -/
def scanFraction (input : List Nat) (length : Int) : List Nat × Int :=
  if peek input == 46 then scanDigits input.tail (length + 1) else (input, length)

/-- The optional exponent of the number case: the marker, an optional sign and
the digits after them. -/
def scanExponent (input : List Nat) (length : Int) : List Nat × Int :=
  if peek input == 101 || peek input == 69 then
    if peek input.tail == 43 || peek input.tail == 45 then
      scanDigits input.tail.tail (length + 1 + 1)
    else scanDigits input.tail (length + 1)
  else (input, length)

/-- The scan of the number case of `nextToken`: the cursor and `token.length`
at the `break`.  A leading minus moves the cursor and is not counted. -/
def scanNumberBody (c : Nat) (start : List Nat) : List Nat × Int :=
  scanExponent
    (scanFraction (scanDigits (if c == 45 then start.tail else start) 0).1
      (scanDigits (if c == 45 then start.tail else start) 0).2).1
    (scanFraction (scanDigits (if c == 45 then start.tail else start) 0).1
      (scanDigits (if c == 45 then start.tail else start) 0).2).2

/-- The string case of `nextToken`: `token.type`, `token.length` and the cursor
at the `break`. -/
def scanStringToken (start : List Nat) : JsonTokenType × Int × List Nat :=
  if peek (scanString start.tail 1).1 == 34 then
    (TOKEN_STRING, (scanString start.tail 1).2 + 1, (scanString start.tail 1).1.tail)
  else
    (TOKEN_ERROR, (scanString start.tail 1).2, (scanString start.tail 1).1)

/-- The `switch` of `nextToken` on the character `c` under the cursor (not
NUL): `token.type`, `token.length` and the cursor at the `break`. -/
def scanToken (c : Nat) (input : List Nat) : JsonTokenType × Int × List Nat :=
  if c == 123 then (TOKEN_OBJECT_START, 1, input.tail)
  else if c == 125 then (TOKEN_OBJECT_END, 1, input.tail)
  else if c == 91 then (TOKEN_ARRAY_START, 1, input.tail)
  else if c == 93 then (TOKEN_ARRAY_END, 1, input.tail)
  else if c == 58 then (TOKEN_COLON, 1, input.tail)
  else if c == 44 then (TOKEN_COMMA, 1, input.tail)
  else if c == 34 then scanStringToken input
  else if c == 116 then scanKeyword TOKEN_TRUE [114, 117, 101] input
  else if c == 84 then scanKeyword TOKEN_TRUE [82, 85, 69] input
  else if c == 102 then scanKeyword TOKEN_FALSE [97, 108, 115, 101] input
  else if c == 70 then scanKeyword TOKEN_FALSE [65, 76, 83, 69] input
  else if c == 110 then scanKeyword TOKEN_NULL [117, 108, 108] input
  else if c == 78 then scanKeyword TOKEN_NULL [85, 76, 76] input
  else if isDigitC c || c == 45 then
    (TOKEN_NUMBER, (scanNumberBody c input).2, (scanNumberBody c input).1)
  else (TOKEN_ERROR, 1, input.tail)

/-- `nextToken` of the source, entered after the whitespace loop with the
cursor `input` and the position counted so far. -/
def tokenAt (input : List Nat) (line column : Int) : JsonToken × List Nat :=
  if peek input == 0 then (⟨TOKEN_EOF, none, 0, line, column⟩, input)
  else
    (⟨(scanToken (peek input) input).1, some input, (scanToken (peek input) input).2.1,
        line, column⟩,
      (scanToken (peek input) input).2.2)

/-- `nextToken` of the source: the token and the cursor after it. -/
def nextToken (input : List Nat) : JsonToken × List Nat :=
  tokenAt (skipWhitespace input 1 1).1 (skipWhitespace input 1 1).2.1
    (skipWhitespace input 1 1).2.2

/-! ## The C library: `double`, `strtod`, `%lf` (modelled from the C standard) -/

/-- Modelled from the C standard: an IEEE 754 binary64 value.  `finite neg m e`
is `(-1)^neg * m * 2^e`, kept canonical (`m` odd, or `m = 0` and `e = 0`), so
that equal numbers are equal terms. -/
inductive Double
  | finite (neg : Bool) (m : Nat) (e : Int)
  | inf (neg : Bool)
  | nan (neg : Bool)
  deriving DecidableEq, Repr

/-- Removes the factors of two of a significand. -/
def stripTwos : Nat → Nat → Int → Nat × Int
  | 0, m, e => (m, e)
  | fuel + 1, m, e =>
    if m != 0 && m % 2 == 0 then stripTwos fuel (m / 2) (e + 1) else (m, e)

/-- The position of the leading binary digit, `⌊log₂ n⌋` (`0` for `0`). -/
def ilog2 : Nat → Nat → Nat
  | 0, _ => 0
  | fuel + 1, n => if n < 2 then 0 else 1 + ilog2 fuel (n / 2)

/-- The quotient `n / d` rounded to the nearest integer, ties to even. -/
def roundHalfEven (n d : Nat) : Nat :=
  let q := n / d
  let r := n % d
  if 2 * r > d || (2 * r == d && q % 2 == 1) then q + 1 else q

/-- Modelled from the C standard: the binary64 value nearest to `num / den`
(ties to even, gradual underflow, overflow to infinity). -/
def roundToDouble (neg : Bool) (num den : Nat) : Double :=
  if num == 0 then .finite neg 0 0
  else
    let scale := fun (e : Int) =>
      if e ≤ 0 then (num * 2 ^ (-e).toNat, den) else (num, den * 2 ^ e.toNat)
    let e0 : Int := (ilog2 num num : Int) - (ilog2 den den : Int) - 52
    let e1 := if (scale e0).1 / (scale e0).2 < 2 ^ 52 then e0 - 1 else e0
    let e := if e1 < -1074 then -1074 else e1
    let q := roundHalfEven (scale e).1 (scale e).2
    if (ilog2 q q : Int) + e ≥ 1024 then .inf neg
    else if q == 0 then .finite neg 0 0
    else .finite neg (stripTwos 64 q e).1 (stripTwos 64 q e).2

/-- The value of a digit string in a base. -/
def digitsVal (base : Nat) (ds : List Nat) : Nat :=
  ds.foldl (fun a d => a * base + d) 0

/-- The value of a hexadecimal digit. -/
def hexVal (c : Nat) : Nat :=
  if 48 ≤ c && c ≤ 57 then c - 48
  else if 97 ≤ c && c ≤ 102 then c - 87
  else c - 55

/-- The hexadecimal digits. -/
def isHexDigitC (c : Nat) : Bool :=
  (48 ≤ c && c ≤ 57) || (97 ≤ c && c ≤ 102) || (65 ≤ c && c ≤ 70)

/-- ASCII lower case. -/
def toLowerC (c : Nat) : Nat := if 65 ≤ c && c ≤ 90 then c + 32 else c

/-- An optional exponent part: marker, optional sign, at least one digit;
`0` when the part is absent or has no digit. -/
def strtodExponent (lo up : Nat) (s : List Nat) : Int :=
  if peek s == lo || peek s == up then
    let s1 := s.tail
    let s2 := if peek s1 == 45 || peek s1 == 43 then s1.tail else s1
    let ds := s2.takeWhile isDigitC
    if ds.isEmpty then 0
    else if peek s1 == 45 then -(digitsVal 10 (ds.map (· - 48)) : Int)
    else (digitsVal 10 (ds.map (· - 48)) : Int)
  else 0

/-- Modelled from the C standard: the significand `mant`, scaled by
`base ^ k`, as a binary64. -/
def scaleToDouble (neg : Bool) (mant base : Nat) (k : Int) : Double :=
  if k ≥ 0 then roundToDouble neg (mant * base ^ k.toNat) 1
  else roundToDouble neg mant (base ^ (-k).toNat)

/-- Modelled from the C standard: the decimal form of `strtod`'s subject
sequence, after the sign; `none` when there is no digit. -/
def strtodDecimal (neg : Bool) (s : List Nat) : Option Double :=
  let ip := s.takeWhile isDigitC
  let s1 := s.dropWhile isDigitC
  let fp := if peek s1 == 46 then s1.tail.takeWhile isDigitC else []
  let s2 := if peek s1 == 46 then s1.tail.dropWhile isDigitC else s1
  if ip.isEmpty && fp.isEmpty then none
  else
    some (scaleToDouble neg (digitsVal 10 ((ip ++ fp).map (· - 48))) 10
      (strtodExponent 101 69 s2 - fp.length))

/-- Modelled from the C standard: the hexadecimal form (`0x` or `0X`, hex
digits with an optional point, optional binary exponent); `none` when no hex
digit follows the prefix. -/
def strtodHex (neg : Bool) (s : List Nat) : Option Double :=
  if peek s == 48 && toLowerC (peek s.tail) == 120 then
    let s0 := s.tail.tail
    let ip := s0.takeWhile isHexDigitC
    let s1 := s0.dropWhile isHexDigitC
    let fp := if peek s1 == 46 then s1.tail.takeWhile isHexDigitC else []
    let s2 := if peek s1 == 46 then s1.tail.dropWhile isHexDigitC else s1
    if ip.isEmpty && fp.isEmpty then none
    else
      some (scaleToDouble neg (digitsVal 16 ((ip ++ fp).map hexVal)) 2
        (strtodExponent 112 80 s2 - 4 * fp.length))
  else none

/-- The white-space characters of `isspace` in the C locale. -/
def isspaceC (c : Nat) : Bool :=
  c == 32 || c == 9 || c == 10 || c == 11 || c == 12 || c == 13

/-- Modelled from the C standard: `strtod(s, NULL)`.  Leading white space, an
optional sign, then `inf`/`infinity`/`nan` in any case, a hexadecimal or a
decimal floating constant; positive zero when no conversion can be made. -/
def strtod (s : List Nat) : Double :=
  let s := (s.takeWhile (· != 0)).dropWhile isspaceC
  let neg := peek s == 45
  let s := if peek s == 45 || peek s == 43 then s.tail else s
  if (s.take 3).map toLowerC == [105, 110, 102] then .inf neg
  else if (s.take 3).map toLowerC == [110, 97, 110] then .nan neg
  else
    match strtodHex neg s with
    | some d => d
    | none =>
      match strtodDecimal neg s with
      | some d => d
      | none => .finite false 0 0

/-- The decimal digits of a number, most significant first; the first argument
bounds their count. -/
def decDigits : Nat → Nat → List Nat
  | 0, _ => []
  | fuel + 1, n => if n < 10 then [48 + n] else decDigits fuel (n / 10) ++ [48 + n % 10]

/-- The exact value `m * 2^e` in millionths, rounded to the nearest integer,
ties to even. -/
def millionths (m : Nat) (e : Int) : Nat :=
  if e ≥ 0 then m * 2 ^ e.toNat * 10 ^ 6
  else roundHalfEven (m * 10 ^ 6) (2 ^ (-e).toNat)

/-- The six digits `%lf` writes after the point. -/
def fractionDigits (q : Nat) : List Nat :=
  [48 + q % 10 ^ 6 / 100000 % 10, 48 + q % 10 ^ 6 / 10000 % 10, 48 + q % 10 ^ 6 / 1000 % 10,
   48 + q % 10 ^ 6 / 100 % 10, 48 + q % 10 ^ 6 / 10 % 10, 48 + q % 10 ^ 6 % 10]

/-- The digits `%lf` writes before the point. -/
def integerDigits (q : Nat) : List Nat := decDigits (q / 10 ^ 6 + 1) (q / 10 ^ 6)

/-- Modelled from the C standard: the text `printf("%lf", d)` writes (six
digits after the point, the exact value rounded to nearest, ties to even). -/
def printf_lf : Double → List Nat
  | .inf neg => (if neg then [45] else []) ++ [105, 110, 102]
  | .nan neg => (if neg then [45] else []) ++ [110, 97, 110]
  | .finite neg m e =>
    (if neg then [45] else []) ++
      (integerDigits (millionths m e) ++ 46 :: fractionDigits (millionths m e))

/-! ## The value tree -/

/-- `JsonValue` of the source: the tag and the active member of the union.
A string carries its `data` and `length`; a boolean is the C `int`; an object
is the sequence of its `keys[i]`, `values[i]` (a key is a `char*`, `none` when
it is the null pointer); an array is the sequence of its `items`. -/
inductive JsonValue
  | string (data : List Nat) (length : Int)
  | number (number : Double)
  | boolean (boolean : Int)
  | null
  | error
  | object (pairs : List (Option (List Nat) × JsonValue))
  | array (items : List JsonValue)
  deriving Repr

/-- `copy_string` of the source: `length` characters from `data`. -/
def copy_string (data : Option (List Nat)) (length : Int) : Option (List Nat) :=
  match data with
  | none => none
  | some d =>
    if length ≤ 0 then none
    else if length > 2147483647 - 1 then none
    else some (d.take length.toNat)

/-- `create_object` of the source. -/
def create_object : JsonValue := .object []

/-- `create_array` of the source. -/
def create_array : JsonValue := .array []

/-- `create_string` of the source. -/
def create_string (data : Option (List Nat)) (length : Int) : Option JsonValue :=
  match copy_string data length with
  | none => none
  | some d => some (.string d length)

/-- `create_number` of the source. -/
def create_number (num : Double) : JsonValue := .number num

/-- `create_boolean` of the source. -/
def create_boolean (value : Int) : JsonValue := .boolean value

/-- `create_null` of the source. -/
def create_null : JsonValue := .null

/-- `add_to_object` of the source. -/
def add_to_object (object : JsonValue) (key : Option (List Nat)) (value : JsonValue) :
    JsonValue :=
  match object with
  | .object pairs => .object (pairs ++ [(key, value)])
  | other => other

/-- `add_to_array` of the source. -/
def add_to_array (array : JsonValue) (value : JsonValue) : JsonValue :=
  match array with
  | .array items => .array (items ++ [value])
  | other => other

/-! ## The parser -/

/-- `parseString` of the source. -/
def parseString (token : JsonToken) : Option JsonValue :=
  if token.type ≠ TOKEN_STRING then none
  else create_string (token.start.map List.tail) (token.length - 2)

/-- `parseNumber` of the source: `strtod` reads from `token.start`, whatever
`token.length` is. -/
def parseNumber (token : JsonToken) : Option JsonValue :=
  if token.type ≠ TOKEN_NUMBER then none
  else some (create_number (strtod (token.start.getD [])))

/-- `parseLiteral` of the source. -/
def parseLiteral (token : JsonToken) : Option JsonValue :=
  if token.type = TOKEN_TRUE then some (create_boolean 1)
  else if token.type = TOKEN_FALSE then some (create_boolean 0)
  else if token.type = TOKEN_NULL then some create_null
  else none

mutual

/-- `parseValue` of the source.  The first argument bounds the number of nested
calls and loop rounds; the outer `none` means the bound was reached, the inner
`none` is the null pointer the source returns on failure.  The second component
is the cursor on return. -/
def parseValue : Nat → List Nat → Option (Option JsonValue × List Nat)
  | 0, _ => none
  | fuel + 1, input =>
    match (nextToken input).1.type with
    | TOKEN_STRING => some (parseString (nextToken input).1, (nextToken input).2)
    | TOKEN_NUMBER => some (parseNumber (nextToken input).1, (nextToken input).2)
    | TOKEN_TRUE => some (parseLiteral (nextToken input).1, (nextToken input).2)
    | TOKEN_FALSE => some (parseLiteral (nextToken input).1, (nextToken input).2)
    | TOKEN_NULL => some (parseLiteral (nextToken input).1, (nextToken input).2)
    | TOKEN_OBJECT_START => parseObject fuel (nextToken input).2
    | TOKEN_ARRAY_START => parseArray fuel (nextToken input).2
    | _ => some (none, (nextToken input).2)

/-- `parseObject` of the source, up to the `while` loop. -/
def parseObject : Nat → List Nat → Option (Option JsonValue × List Nat)
  | 0, _ => none
  | fuel + 1, input =>
    if (nextToken input).1.type = TOKEN_OBJECT_END then
      some (some create_object, (nextToken input).2)
    else parseObjectLoop fuel create_object (nextToken input).1 (nextToken input).2

/-- The `while(1)` loop of `parseObject`, entered with the object built so far
and the token read last. -/
def parseObjectLoop :
    Nat → JsonValue → JsonToken → List Nat → Option (Option JsonValue × List Nat)
  | 0, _, _, _ => none
  | fuel + 1, object, token, input =>
    if token.type ≠ TOKEN_STRING then some (none, input)
    else if (nextToken input).1.type ≠ TOKEN_COLON then some (none, (nextToken input).2)
    else
      match parseValue fuel (nextToken input).2 with
      | none => none
      | some (none, input3) => some (none, input3)
      | some (some value, input3) =>
        if (nextToken input3).1.type = TOKEN_OBJECT_END then
          some (some (add_to_object object
            (copy_string (token.start.map List.tail) (token.length - 2)) value),
            (nextToken input3).2)
        else if (nextToken input3).1.type ≠ TOKEN_COMMA then
          some (none, (nextToken input3).2)
        else
          parseObjectLoop fuel
            (add_to_object object
              (copy_string (token.start.map List.tail) (token.length - 2)) value)
            (nextToken (nextToken input3).2).1 (nextToken (nextToken input3).2).2

/-- `parseArray` of the source, up to the `while` loop. -/
def parseArray : Nat → List Nat → Option (Option JsonValue × List Nat)
  | 0, _ => none
  | fuel + 1, input => parseArrayLoop fuel create_array input

/-- The `while(1)` loop of `parseArray`, entered with the array built so far. -/
def parseArrayLoop :
    Nat → JsonValue → List Nat → Option (Option JsonValue × List Nat)
  | 0, _, _ => none
  | fuel + 1, array, input =>
    match parseValue fuel input with
    | none => none
    | some (none, input1) => some (none, input1)
    | some (some value, input1) =>
      if (nextToken input1).1.type = TOKEN_ARRAY_END then
        some (some (add_to_array array value), (nextToken input1).2)
      else if (nextToken input1).1.type ≠ TOKEN_COMMA then
        some (none, (nextToken input1).2)
      else parseArrayLoop fuel (add_to_array array value) (nextToken input1).2

end

/-- A bound on nested calls and loop rounds that no buffer reaches: three per
character and three more. -/
def fuelFor (input : List Nat) : Nat := 3 * input.length + 3

/-- The call `parseValue(&input)` on a whole buffer: the returned pointer (the
inner `none` is null).  The outer `none`, the bound reached, never occurs
(`parse_total`), and no other bound gives another result
(`parse_of_parseValue`). -/
def parse (input : List Nat) : Option (Option JsonValue) :=
  (parseValue (fuelFor input) input).map Prod.fst

/-! ## The serializer and the lookup helper -/

/-- The characters of a C string: up to the first NUL. -/
def cstr (s : List Nat) : List Nat := s.takeWhile (· != 0)

/-- The local buffer `char indent[128]` of `print_json` after the `strcat`
loop: `indent_level` tabs; `none` when they do not fit with their terminator
(the behaviour is then undefined). -/
def indentOf (indent_level : Int) : Option (List Nat) :=
  if indent_level > 127 then none else some (List.replicate indent_level.toNat 9)

mutual

/-- `print_json` of the source, as the text it writes to the standard output;
`none` when the behaviour is undefined (the indent buffer overflows, or `%s` is
given a null key). -/
def print_json : JsonValue → Int → Option (List Nat)
  | .null, indent_level =>
    (indentOf indent_level).map fun _ => [110, 117, 108, 108]
  | .boolean b, indent_level =>
    (indentOf indent_level).map fun _ =>
      if b != 0 then [116, 114, 117, 101] else [102, 97, 108, 115, 101]
  | .number d, indent_level =>
    (indentOf indent_level).map fun _ => printf_lf d
  | .string data _, indent_level =>
    (indentOf indent_level).map fun _ => [34] ++ cstr data ++ [34]
  | .object pairs, indent_level =>
    match indentOf indent_level, print_pairs pairs indent_level with
    | some indent, some body => some ([123, 10] ++ body ++ [10] ++ indent ++ [125])
    | _, _ => none
  | .array items, indent_level =>
    match indentOf indent_level, print_items items indent_level with
    | some indent, some body => some ([91, 10] ++ indent ++ body ++ [10] ++ indent ++ [93])
    | _, _ => none
  | .error, indent_level =>
    (indentOf indent_level).map fun _ =>
      [69, 114, 114, 111, 114, 32, 112, 97, 114, 115, 105, 110, 103, 32, 74, 83, 79, 78, 10]

/-- The `for` loop of the object case of `print_json`, from pair `i` on. -/
def print_pairs : List (Option (List Nat) × JsonValue) → Int → Option (List Nat)
  | [], _ => some []
  | (key, value) :: rest, indent_level =>
    match indentOf indent_level with
    | none => none
    | some indent =>
      match key with
      | none => none
      | some k =>
        match print_json value (indent_level + 1) with
        | none => none
        | some v =>
          match print_pairs rest indent_level with
          | none => none
          | some more =>
            some (indent ++ [34] ++ cstr k ++ [34, 58, 32] ++ v
              ++ (if rest.isEmpty then [] else [44, 10]) ++ more)

/-- The `for` loop of the array case of `print_json`, from item `i` on. -/
def print_items : List JsonValue → Int → Option (List Nat)
  | [], _ => some []
  | value :: rest, indent_level =>
    match print_json value (indent_level + 1), print_items rest indent_level with
    | some v, some more => some (v ++ (if rest.isEmpty then [] else [44]) ++ more)
    | _, _ => none

end

/-- The loop of `find_value` over the pairs; the outer `none` is the undefined
behaviour of `strcmp` on a null key. -/
def find_loop : List (Option (List Nat) × JsonValue) → List Nat → Option (Option JsonValue)
  | [], _ => some none
  | (none, _) :: _, _ => none
  | (some k, value) :: rest, key =>
    if cstr k == cstr key then some (some value) else find_loop rest key

/-- `find_value` of the source: the pointer it returns (`some none` is null);
the outer `none` is the undefined behaviour of `strcmp` on a null key. -/
def find_value (json : JsonValue) (key : List Nat) : Option (Option JsonValue) :=
  match json with
  | .object pairs => find_loop pairs key
  | _ => some none

/-! ## Vocabulary of the specification -/

/-- The spec's rule for the end of a string token, on the text after the
opening quote: a backslash escapes the next character, and the string ends at
the first quote that is not escaped.  `true` when there is such a quote before
the end of the text. -/
def hasClosingQuote : List Nat → Bool
  | [] => false
  | c :: rest =>
    if c == 0 then false
    else if c == 34 then true
    else if c == 92 then
      match rest with
      | [] => false
      | d :: rest2 => if d == 0 then false else hasClosingQuote rest2
    else hasClosingQuote rest

/-- The value `v` wrapped in `n` one-element arrays. -/
def nestArray : Nat → JsonValue → JsonValue
  | 0, v => v
  | n + 1, v => .array [nestArray n v]

/-- The pair's key is present and equals `key` as a C string. -/
def keyMatches (p : Option (List Nat) × JsonValue) (key : List Nat) : Prop :=
  ∃ k, p.1 = some k ∧ cstr k = cstr key

mutual

/-- `P` holds of the value and of every value below it, and `K` of every key
of every object in it. -/
def JsonValue.All (P : JsonValue → Prop) (K : Option (List Nat) → Prop) : JsonValue → Prop
  | .string data length => P (.string data length)
  | .number d => P (.number d)
  | .boolean b => P (.boolean b)
  | .null => P .null
  | .error => P .error
  | .object pairs => P (.object pairs) ∧ AllPairs P K pairs
  | .array items => P (.array items) ∧ AllItems P K items

/-- `JsonValue.All` over the pairs of an object. -/
def AllPairs (P : JsonValue → Prop) (K : Option (List Nat) → Prop) :
    List (Option (List Nat) × JsonValue) → Prop
  | [] => True
  | (key, value) :: rest => K key ∧ JsonValue.All P K value ∧ AllPairs P K rest

/-- `JsonValue.All` over the items of an array. -/
def AllItems (P : JsonValue → Prop) (K : Option (List Nat) → Prop) : List JsonValue → Prop
  | [] => True
  | value :: rest => JsonValue.All P K value ∧ AllItems P K rest

end

/-- The node is not a String with a backslash in its text. -/
def noBackslashNode : JsonValue → Prop
  | .string data _ => 92 ∉ data
  | _ => True

/-- The key, when present, has no backslash. -/
def noBackslashKey : Option (List Nat) → Prop
  | some k => 92 ∉ k
  | none => True

/-- No String and no key of the tree contains a backslash. -/
def NoBackslash (v : JsonValue) : Prop := v.All noBackslashNode noBackslashKey

/-- The number is finite and `strtod` reads it back from what `%lf` writes. -/
def survivesPrint : Double → Bool
  | .finite neg m e => strtod (printf_lf (.finite neg m e)) == .finite neg m e
  | _ => false

/-- The node is not a Number that `%lf` alters. -/
def survivesPrintNode : JsonValue → Prop
  | .number d => survivesPrint d = true
  | _ => True

/-- Every Number of the tree is finite and is read back by `strtod` from the
six-decimal text `%lf` writes for it. -/
def NumbersSurvive (v : JsonValue) : Prop := v.All survivesPrintNode (fun _ => True)

/-- What the parser guarantees of a copied text: not empty, within the bound
of `copy_string`, without NUL, and without a quote unless it has a backslash. -/
def copiedText (s : List Nat) : Prop :=
  s ≠ [] ∧ (s.length : Int) ≤ 2147483646 ∧ 0 ∉ s ∧ (92 ∉ s → 34 ∉ s)

/-- What the parser guarantees of a node it builds. -/
def parsedNode : JsonValue → Prop
  | .string data length => copiedText data ∧ length = data.length
  | .boolean b => b = 0 ∨ b = 1
  | .error => False
  | .array items => items ≠ []
  | _ => True

/-- What the parser guarantees of a key it stores. -/
def parsedKey : Option (List Nat) → Prop
  | some k => copiedText k
  | none => True

/-- The text that may follow a value in what `print_json` writes: nothing, a
comma or a newline. -/
def delim : List Nat → Bool
  | [] => true
  | c :: _ => c == 44 || c == 10

/-- The next character, if there is one, fails the test. -/
def stopsAt (p : Nat → Bool) : List Nat → Prop
  | [] => True
  | c :: _ => p c = false

/-- The line of the character that follows `pre` in a text: one more than the
number of newlines in `pre`. -/
def sourceLine (pre : List Nat) : Int := 1 + pre.count 10

/-- The column of the character that follows `pre` in a text: one more than the
number of characters after the last newline of `pre` (after the start of the
text when `pre` has no newline). -/
def sourceColumn (pre : List Nat) : Int := 1 + (pre.reverse.takeWhile (· != 10)).length

/-- The cursor `cur` is reached from `input` by moving over characters none of
which is the terminating NUL. -/
def advancesTo (input cur : List Nat) : Prop := ∃ pre, input = pre ++ cur ∧ 0 ∉ pre

/-- A character that can continue a number, for `nextToken` or for `strtod`: a
digit, a letter, a point or a sign. -/
def numberChar (c : Nat) : Bool :=
  isDigitC c || (65 ≤ c && c ≤ 90) || (97 ≤ c && c ≤ 122) || c == 46 || c == 43 || c == 45

/-- `parseValue` accepts the text, consumes it entirely and returns `x`. -/
def accepts (text : List Nat) (x : JsonValue) : Prop :=
  ∃ fuel, parseValue fuel text = some (some x, [])

/-- The texts with a comma between each two of them. -/
def commaSeparated : List (List Nat) → List Nat
  | [] => []
  | [x] => x
  | x :: y :: more => x ++ 44 :: commaSeparated (y :: more)

/-- An element of an array text: the text of a value, the value `parseValue`
returns for it, and what is written before and after it. -/
structure Element where
  before : List Nat
  text : List Nat
  value : JsonValue
  after : List Nat

/-- The element as it is written. -/
def Element.source (e : Element) : List Nat := e.before ++ e.text ++ e.after

/-- Whitespace only around the text, and `parseValue` accepts the text entirely
with the value. -/
def Element.ok (e : Element) : Prop :=
  (∀ c ∈ e.before, isWhitespace c = true) ∧ (∀ c ∈ e.after, isWhitespace c = true) ∧
    accepts e.text e.value

/-- The element stands in front of the text `u`: whitespace only around its
text, and `parseValue`, reading the text with what follows it, returns the
value and stops right after the text. -/
def Element.okBefore (e : Element) (u : List Nat) : Prop :=
  (∀ c ∈ e.before, isWhitespace c = true) ∧ (∀ c ∈ e.after, isWhitespace c = true) ∧
    ∃ fuel, parseValue fuel (e.text ++ (e.after ++ u)) = some (some e.value, e.after ++ u)

/-- The text between the brackets of an array. -/
def arrayBody (elems : List Element) : List Nat := commaSeparated (elems.map Element.source)

/-- A member of an object text: the key written between quotes, the colon and
the value, and what is written before the key and before the colon. -/
structure Member where
  before : List Nat
  key : List Nat
  gap : List Nat
  item : Element

/-- The member as it is written. -/
def Member.source (m : Member) : List Nat :=
  m.before ++ 34 :: (m.key ++ 34 :: (m.gap ++ 58 :: m.item.source))

/-- Whitespace only before the key and before the colon; the key is not empty,
has no quote, backslash or NUL and fits the `int32_t` counters with its quotes;
the value is an element that is `ok`. -/
def Member.ok (m : Member) : Prop :=
  (∀ c ∈ m.before, isWhitespace c = true) ∧ (∀ c ∈ m.gap, isWhitespace c = true) ∧
    m.key ≠ [] ∧ (∀ c ∈ m.key, c ≠ 34 ∧ c ≠ 92 ∧ c ≠ 0) ∧
    (m.key.length : Int) + 2 < 2147483648 ∧ m.item.ok

/-- The member stands in front of the text `u`: as `Member.ok`, with the value
read in front of `u` (`Element.okBefore`). -/
def Member.okBefore (m : Member) (u : List Nat) : Prop :=
  (∀ c ∈ m.before, isWhitespace c = true) ∧ (∀ c ∈ m.gap, isWhitespace c = true) ∧
    m.key ≠ [] ∧ (∀ c ∈ m.key, c ≠ 34 ∧ c ≠ 92 ∧ c ≠ 0) ∧
    (m.key.length : Int) + 2 < 2147483648 ∧ m.item.okBefore u

/-- The pair `parseObject` stores for the member. -/
def Member.pair (m : Member) : Option (List Nat) × JsonValue := (some m.key, m.item.value)

/-- The text between the braces of an object. -/
def objectBody (members : List Member) : List Nat :=
  commaSeparated (members.map Member.source)

/-! ## The allocations: a second embedding that tracks `malloc`, `realloc`, `free`

The functions below are the same source functions once more, now with the heap
they work on: each `malloc` and `realloc` hands out a block, each `free` is
recorded, and a value is kept together with the blocks it occupies.  The names
are the source names with a `T` added. -/

/-- The allocation tracker.  Blocks are numbered in the order `malloc` and
`realloc` hand them out: `next` is the number of the next block, `freed` lists
the blocks `free` was called on, the latest first, a block as often as it was
released. -/
structure Heap where
  next : Nat
  freed : List Nat

/-- Modelled from the C standard: `malloc` returns a block that was never
handed out before (it does not fail here). -/
def Heap.malloc (h : Heap) : Nat × Heap := (h.next, ⟨h.next + 1, h.freed⟩)

/-- Modelled from the C standard: `free` does nothing for the null pointer; any
other block is recorded as released. -/
def Heap.free (h : Heap) (p : Option Nat) : Heap :=
  match p with
  | none => h
  | some a => ⟨h.next, a :: h.freed⟩

/-- Modelled from the C standard: `realloc` releases the old block, when there
is one, and hands out a new block (for the null pointer it is `malloc`). -/
def Heap.realloc (h : Heap) (p : Option Nat) : Nat × Heap := (h.free p).malloc

/-- A `JsonValue` in the heap: the value together with the block of its node
(`addr`) and the blocks of the buffers it points to: the `data` of a string,
the `keys` and `values` arrays of an object (null before the first
`add_to_object`), the `items` array of an array, and with each key its block
(a key is `none` when it is the null pointer). -/
inductive Node
  | string (addr : Nat) (data : Nat) (text : List Nat) (length : Int)
  | number (addr : Nat) (number : Double)
  | boolean (addr : Nat) (boolean : Int)
  | null (addr : Nat)
  | object (addr : Nat) (keys values : Option Nat)
      (pairs : List (Option (Nat × List Nat) × Node))
  | array (addr : Nat) (items : Option Nat) (elems : List Node)

mutual

/-- The value a node holds, its blocks forgotten. -/
def Node.value : Node → JsonValue
  | .string _ _ text length => .string text length
  | .number _ d => .number d
  | .boolean _ b => .boolean b
  | .null _ => .null
  | .object _ _ _ pairs => .object (valuePairs pairs)
  | .array _ _ elems => .array (valueItems elems)

/-- `Node.value` over the pairs of an object. -/
def valuePairs : List (Option (Nat × List Nat) × Node) → List (Option (List Nat) × JsonValue)
  | [] => []
  | (key, value) :: rest => (key.map Prod.snd, value.value) :: valuePairs rest

/-- `Node.value` over the items of an array. -/
def valueItems : List Node → List JsonValue
  | [] => []
  | value :: rest => value.value :: valueItems rest

end

mutual

/-- The blocks that belong to a node: its own, those of its buffers and keys,
and those of the nodes below it. -/
def Node.owned : Node → List Nat
  | .string addr data _ _ => [addr, data]
  | .number addr _ => [addr]
  | .boolean addr _ => [addr]
  | .null addr => [addr]
  | .object addr keys values pairs => addr :: (keys.toList ++ (values.toList ++ ownedPairs pairs))
  | .array addr items elems => addr :: (items.toList ++ ownedItems elems)

/-- `Node.owned` over the pairs of an object. -/
def ownedPairs : List (Option (Nat × List Nat) × Node) → List Nat
  | [] => []
  | (key, value) :: rest => (key.map Prod.fst).toList ++ (value.owned ++ ownedPairs rest)

/-- `Node.owned` over the items of an array. -/
def ownedItems : List Node → List Nat
  | [] => []
  | value :: rest => value.owned ++ ownedItems rest

end

/-- `copy_string` of the source with its allocation: the block and the text of
the copy. -/
def copy_stringT (data : Option (List Nat)) (length : Int) (h : Heap) :
    Option (Nat × List Nat) × Heap :=
  match data with
  | none => (none, h)
  | some d =>
    if length ≤ 0 then (none, h)
    else if length > 2147483647 - 1 then (none, h)
    else (some (h.malloc.1, d.take length.toNat), h.malloc.2)

/-- `create_object` of the source with its allocation. -/
def create_objectT (h : Heap) : Node × Heap := (.object h.malloc.1 none none [], h.malloc.2)

/-- `create_array` of the source with its allocation. -/
def create_arrayT (h : Heap) : Node × Heap := (.array h.malloc.1 none [], h.malloc.2)

/-- `create_string` of the source with its allocations: the node is allocated
first and released again when `copy_string` returns null. -/
def create_stringT (data : Option (List Nat)) (length : Int) (h : Heap) : Option Node × Heap :=
  match (copy_stringT data length h.malloc.2).1 with
  | none => (none, (copy_stringT data length h.malloc.2).2.free (some h.malloc.1))
  | some d => (some (.string h.malloc.1 d.1 d.2 length), (copy_stringT data length h.malloc.2).2)

/-- `create_number` of the source with its allocation. -/
def create_numberT (num : Double) (h : Heap) : Node × Heap := (.number h.malloc.1 num, h.malloc.2)

/-- `create_boolean` of the source with its allocation. -/
def create_booleanT (value : Int) (h : Heap) : Node × Heap :=
  (.boolean h.malloc.1 value, h.malloc.2)

/-- `create_null` of the source with its allocation. -/
def create_nullT (h : Heap) : Node × Heap := (.null h.malloc.1, h.malloc.2)

/-- `add_to_object` of the source with its two `realloc` calls. -/
def add_to_objectT (object : Node) (key : Option (Nat × List Nat)) (value : Node) (h : Heap) :
    Node × Heap :=
  match object with
  | .object addr keys values pairs =>
    (.object addr (some (h.realloc keys).1) (some ((h.realloc keys).2.realloc values).1)
        (pairs ++ [(key, value)]),
      ((h.realloc keys).2.realloc values).2)
  | other => (other, h)

/-- `add_to_array` of the source with its `realloc` call. -/
def add_to_arrayT (array : Node) (value : Node) (h : Heap) : Node × Heap :=
  match array with
  | .array addr items elems =>
    (.array addr (some (h.realloc items).1) (elems ++ [value]), (h.realloc items).2)
  | other => (other, h)

mutual

/-- `free_json_value` of the source: the heap after the call. -/
def free_json_valueT : Node → Heap → Heap
  | .object addr keys values pairs, h =>
    (((free_pairsT pairs h).free keys).free values).free (some addr)
  | .array addr items elems, h => ((free_itemsT elems h).free items).free (some addr)
  | .string addr data _ _, h => (h.free (some data)).free (some addr)
  | .number addr _, h => h.free (some addr)
  | .boolean addr _, h => h.free (some addr)
  | .null addr, h => h.free (some addr)

/-- The `for` loop of the object case of `free_json_value`. -/
def free_pairsT : List (Option (Nat × List Nat) × Node) → Heap → Heap
  | [], h => h
  | (key, value) :: rest, h =>
    free_pairsT rest (free_json_valueT value (h.free (key.map Prod.fst)))

/-- The `for` loop of the array case of `free_json_value`. -/
def free_itemsT : List Node → Heap → Heap
  | [], h => h
  | value :: rest, h => free_itemsT rest (free_json_valueT value h)

end

/-- `parseString` of the source with its allocations. -/
def parseStringT (token : JsonToken) (h : Heap) : Option Node × Heap :=
  if token.type ≠ TOKEN_STRING then (none, h)
  else create_stringT (token.start.map List.tail) (token.length - 2) h

/-- `parseNumber` of the source with its allocation. -/
def parseNumberT (token : JsonToken) (h : Heap) : Option Node × Heap :=
  if token.type ≠ TOKEN_NUMBER then (none, h)
  else (some (create_numberT (strtod (token.start.getD [])) h).1,
    (create_numberT (strtod (token.start.getD [])) h).2)

/-- `parseLiteral` of the source with its allocation. -/
def parseLiteralT (token : JsonToken) (h : Heap) : Option Node × Heap :=
  if token.type = TOKEN_TRUE then (some (create_booleanT 1 h).1, (create_booleanT 1 h).2)
  else if token.type = TOKEN_FALSE then (some (create_booleanT 0 h).1, (create_booleanT 0 h).2)
  else if token.type = TOKEN_NULL then (some (create_nullT h).1, (create_nullT h).2)
  else (none, h)

mutual

/-- `parseValue` of the source with its allocations: the node, the cursor and
the heap on return. -/
def parseValueT : Nat → List Nat → Heap → Option (Option Node × List Nat × Heap)
  | 0, _, _ => none
  | fuel + 1, input, h =>
    match (nextToken input).1.type with
    | TOKEN_STRING =>
      some ((parseStringT (nextToken input).1 h).1, (nextToken input).2,
        (parseStringT (nextToken input).1 h).2)
    | TOKEN_NUMBER =>
      some ((parseNumberT (nextToken input).1 h).1, (nextToken input).2,
        (parseNumberT (nextToken input).1 h).2)
    | TOKEN_TRUE =>
      some ((parseLiteralT (nextToken input).1 h).1, (nextToken input).2,
        (parseLiteralT (nextToken input).1 h).2)
    | TOKEN_FALSE =>
      some ((parseLiteralT (nextToken input).1 h).1, (nextToken input).2,
        (parseLiteralT (nextToken input).1 h).2)
    | TOKEN_NULL =>
      some ((parseLiteralT (nextToken input).1 h).1, (nextToken input).2,
        (parseLiteralT (nextToken input).1 h).2)
    | TOKEN_OBJECT_START => parseObjectT fuel (nextToken input).2 h
    | TOKEN_ARRAY_START => parseArrayT fuel (nextToken input).2 h
    | _ => some (none, (nextToken input).2, h)

/-- `parseObject` of the source with its allocations, up to the `while` loop. -/
def parseObjectT : Nat → List Nat → Heap → Option (Option Node × List Nat × Heap)
  | 0, _, _ => none
  | fuel + 1, input, h =>
    if (nextToken input).1.type = TOKEN_OBJECT_END then
      some (some (create_objectT h).1, (nextToken input).2, (create_objectT h).2)
    else
      parseObjectLoopT fuel (create_objectT h).1 (nextToken input).1 (nextToken input).2
        (create_objectT h).2

/-- The `while(1)` loop of `parseObject` with its allocations and releases:
the key is copied before the colon is looked for, and every `return null`
releases what the source releases there. -/
def parseObjectLoopT :
    Nat → Node → JsonToken → List Nat → Heap → Option (Option Node × List Nat × Heap)
  | 0, _, _, _, _ => none
  | fuel + 1, object, token, input, h =>
    if token.type ≠ TOKEN_STRING then some (none, input, free_json_valueT object h)
    else if (nextToken input).1.type ≠ TOKEN_COLON then
      some (none, (nextToken input).2,
        free_json_valueT object
          ((copy_stringT (token.start.map List.tail) (token.length - 2) h).2.free
            ((copy_stringT (token.start.map List.tail) (token.length - 2) h).1.map Prod.fst)))
    else
      match parseValueT fuel (nextToken input).2
          (copy_stringT (token.start.map List.tail) (token.length - 2) h).2 with
      | none => none
      | some (none, input3, h2) =>
        some (none, input3,
          free_json_valueT object
            (h2.free
              ((copy_stringT (token.start.map List.tail) (token.length - 2) h).1.map Prod.fst)))
      | some (some value, input3, h2) =>
        if (nextToken input3).1.type = TOKEN_OBJECT_END then
          some (some (add_to_objectT object
              (copy_stringT (token.start.map List.tail) (token.length - 2) h).1 value h2).1,
            (nextToken input3).2,
            (add_to_objectT object
              (copy_stringT (token.start.map List.tail) (token.length - 2) h).1 value h2).2)
        else if (nextToken input3).1.type ≠ TOKEN_COMMA then
          some (none, (nextToken input3).2,
            free_json_valueT
              (add_to_objectT object
                (copy_stringT (token.start.map List.tail) (token.length - 2) h).1 value h2).1
              (add_to_objectT object
                (copy_stringT (token.start.map List.tail) (token.length - 2) h).1 value h2).2)
        else
          parseObjectLoopT fuel
            (add_to_objectT object
              (copy_stringT (token.start.map List.tail) (token.length - 2) h).1 value h2).1
            (nextToken (nextToken input3).2).1 (nextToken (nextToken input3).2).2
            (add_to_objectT object
              (copy_stringT (token.start.map List.tail) (token.length - 2) h).1 value h2).2

/-- `parseArray` of the source with its allocations, up to the `while` loop. -/
def parseArrayT : Nat → List Nat → Heap → Option (Option Node × List Nat × Heap)
  | 0, _, _ => none
  | fuel + 1, input, h => parseArrayLoopT fuel (create_arrayT h).1 input (create_arrayT h).2

/-- The `while(1)` loop of `parseArray` with its allocations and releases. -/
def parseArrayLoopT :
    Nat → Node → List Nat → Heap → Option (Option Node × List Nat × Heap)
  | 0, _, _, _ => none
  | fuel + 1, array, input, h =>
    match parseValueT fuel input h with
    | none => none
    | some (none, input1, h1) => some (none, input1, free_json_valueT array h1)
    | some (some value, input1, h1) =>
      if (nextToken input1).1.type = TOKEN_ARRAY_END then
        some (some (add_to_arrayT array value h1).1, (nextToken input1).2,
          (add_to_arrayT array value h1).2)
      else if (nextToken input1).1.type ≠ TOKEN_COMMA then
        some (none, (nextToken input1).2,
          free_json_valueT (add_to_arrayT array value h1).1 (add_to_arrayT array value h1).2)
      else
        parseArrayLoopT fuel (add_to_arrayT array value h1).1 (nextToken input1).2
          (add_to_arrayT array value h1).2

end

/-- The blocks of the node a function returned, none for the null pointer. -/
def ownedBy (r : Option Node) : List Nat := (r.map Node.owned).getD []

/-- The block `a` was handed out between the heaps `h` and `h2`: `1` if so,
`0` if not. -/
def allocatedIn (h h2 : Heap) (a : Nat) : Nat := if h.next ≤ a ∧ a < h2.next then 1 else 0

/-! ## The tokenizer: whitespace and one-character tokens -/

theorem isWhitespace_ne_zero {c : Nat} (h : isWhitespace c = true) : (c != 0) = true := by
  rcases Nat.eq_zero_or_pos c with h0 | h0
  · subst h0; simp [isWhitespace] at h
  · simp; omega

theorem skipWhitespace_fst (input : List Nat) :
    ∀ line column line2 column2 : Int,
      (skipWhitespace input line column).1 = (skipWhitespace input line2 column2).1 := by
  induction input with
  | nil => intros; rfl
  | cons c rest ih =>
    intro line column line2 column2
    simp only [skipWhitespace]
    split_ifs
    · exact ih _ _ _ _
    · exact ih _ _ _ _
    · rfl

theorem skipWhitespace_append (ws l : List Nat) (h : ∀ c ∈ ws, isWhitespace c = true) :
    ∀ line column : Int,
      (skipWhitespace (ws ++ l) line column).1 = (skipWhitespace l 1 1).1 := by
  induction ws with
  | nil => intro line column; exact skipWhitespace_fst _ _ _ _ _
  | cons c rest ih =>
    intro line column
    have hc : isWhitespace c = true := h c (List.mem_cons_self _ _)
    have hr : ∀ d ∈ rest, isWhitespace d = true := fun d hd => h d (List.mem_cons_of_mem _ hd)
    show (skipWhitespace (c :: (rest ++ l)) line column).1 = _
    rw [skipWhitespace]
    simp only [isWhitespace_ne_zero hc, hc, Bool.and_self, if_true]
    split <;> exact ih hr _ _

theorem tokenAt_position (input : List Nat) (line column line2 column2 : Int) :
    (tokenAt input line column).1.type = (tokenAt input line2 column2).1.type ∧
    (tokenAt input line column).1.start = (tokenAt input line2 column2).1.start ∧
    (tokenAt input line column).1.length = (tokenAt input line2 column2).1.length ∧
    (tokenAt input line column).2 = (tokenAt input line2 column2).2 := by
  simp only [tokenAt]
  split_ifs <;> exact ⟨rfl, rfl, rfl, rfl⟩

/-- Leading whitespace changes nothing of the next token but its position. -/
theorem nextToken_append_ws (ws l : List Nat) (h : ∀ c ∈ ws, isWhitespace c = true) :
    (nextToken (ws ++ l)).1.type = (nextToken l).1.type ∧
    (nextToken (ws ++ l)).1.start = (nextToken l).1.start ∧
    (nextToken (ws ++ l)).1.length = (nextToken l).1.length ∧
    (nextToken (ws ++ l)).2 = (nextToken l).2 := by
  simp only [nextToken, skipWhitespace_append ws l h 1 1]
  exact tokenAt_position _ _ _ _ _

theorem parseString_congr {t u : JsonToken} (h1 : t.type = u.type) (h2 : t.start = u.start)
    (h3 : t.length = u.length) : parseString t = parseString u := by
  simp only [parseString, h1, h2, h3]

theorem parseNumber_congr {t u : JsonToken} (h1 : t.type = u.type) (h2 : t.start = u.start) :
    parseNumber t = parseNumber u := by
  simp only [parseNumber, h1, h2]

theorem parseLiteral_congr {t u : JsonToken} (h1 : t.type = u.type) :
    parseLiteral t = parseLiteral u := by
  simp only [parseLiteral, h1]

theorem parseValue_append_ws (ws l : List Nat) (h : ∀ c ∈ ws, isWhitespace c = true)
    (fuel : Nat) : parseValue fuel (ws ++ l) = parseValue fuel l := by
  obtain ⟨h1, h2, h3, h4⟩ := nextToken_append_ws ws l h
  cases fuel with
  | zero => simp [parseValue]
  | succ f =>
    simp only [parseValue, h1, h4, parseString_congr h1 h2 h3, parseNumber_congr h1 h2,
      parseLiteral_congr h1]

theorem parseObject_append_ws (ws l : List Nat) (h : ∀ c ∈ ws, isWhitespace c = true)
    (fuel : Nat) : parseObject fuel (ws ++ l) = parseObject fuel l := by
  obtain ⟨h1, h2, h3, h4⟩ := nextToken_append_ws ws l h
  cases fuel with
  | zero => simp [parseObject]
  | succ f =>
    simp only [parseObject, h1, h4]
    split_ifs
    · rfl
    · cases f with
      | zero => simp [parseObjectLoop]
      | succ g => simp only [parseObjectLoop, h1, h2, h3]

theorem nextToken_cons_quote (s : List Nat) :
    nextToken (34 :: s) =
      (⟨(scanStringToken (34 :: s)).1, some (34 :: s), (scanStringToken (34 :: s)).2.1, 1, 1⟩,
        (scanStringToken (34 :: s)).2.2) := by
  rfl

theorem nextToken_cons_lbrace (s : List Nat) :
    nextToken (123 :: s) = (⟨TOKEN_OBJECT_START, some (123 :: s), 1, 1, 1⟩, s) := by
  rfl

theorem nextToken_cons_rbrace (s : List Nat) :
    nextToken (125 :: s) = (⟨TOKEN_OBJECT_END, some (125 :: s), 1, 1, 1⟩, s) := by
  rfl

theorem nextToken_cons_lbracket (s : List Nat) :
    nextToken (91 :: s) = (⟨TOKEN_ARRAY_START, some (91 :: s), 1, 1, 1⟩, s) := by
  rfl

theorem nextToken_cons_rbracket (s : List Nat) :
    nextToken (93 :: s) = (⟨TOKEN_ARRAY_END, some (93 :: s), 1, 1, 1⟩, s) := by
  rfl

theorem scanString_no_close (s : List Nat) (n : Int) :
    hasClosingQuote s = false → (peek (scanString s n).1 == 34) = false := by
  induction s, n using scanString.induct with
  | case1 n => intro _; rfl
  | case2 c rest n h =>
    intro hq
    rw [scanString.eq_def]; simp only [if_pos h]
    simp only [Bool.or_eq_true, beq_iff_eq] at h
    rcases h with h | h
    · subst h; rfl
    · subst h; rw [hasClosingQuote.eq_def] at hq; simp at hq
  | case3 c n h1 h2 =>
    intro _
    rw [scanString, if_neg h1, if_pos h2]; rfl
  | case4 c n h1 h2 d rest2 hd ih =>
    intro hq
    rw [scanString, if_neg h1, if_pos h2]
    simp only [hd, if_true]
    apply ih
    simp only [Bool.or_eq_true, beq_iff_eq, not_or] at h1
    simp only [bne_iff_ne, ne_eq] at hd
    rw [hasClosingQuote.eq_def] at hq
    simpa [h1.1, h1.2, h2, hd] using hq
  | case5 c n h1 h2 d rest2 hd =>
    intro _
    rw [scanString, if_neg h1, if_pos h2]
    simp only [hd]
    simp only [bne_iff_ne, ne_eq, not_not] at hd
    subst hd; rfl
  | case6 c rest n h1 h2 ih =>
    intro hq
    rw [scanString.eq_def]; simp only [if_neg h1, if_neg h2]
    apply ih
    simp only [Bool.or_eq_true, beq_iff_eq, not_or] at h1
    simp only [beq_iff_eq] at h2
    rw [hasClosingQuote.eq_def] at hq
    simpa [h1.1, h1.2, h2] using hq

theorem fuelFor_eq (input : List Nat) : fuelFor input = 3 * input.length + 1 + 1 + 1 := rfl

theorem parseValue_empty_object (f : Nat) (ws rest : List Nat)
    (h : ∀ c ∈ ws, isWhitespace c = true) :
    parseValue (f + 1 + 1) (123 :: (ws ++ 125 :: rest)) = some (some (.object []), rest) := by
  rw [parseValue]
  simp only [nextToken_cons_lbrace]
  rw [parseObject_append_ws ws _ h, parseObject]
  simp only [nextToken_cons_rbrace, if_true]
  rfl

theorem nextToken_unterminated (s : List Nat) (h : hasClosingQuote s = false) :
    (nextToken (34 :: s)).1.type = TOKEN_ERROR := by
  rw [nextToken_cons_quote]
  show (scanStringToken (34 :: s)).1 = TOKEN_ERROR
  rw [scanStringToken]
  simp only [List.tail_cons, scanString_no_close s 1 h]
  rfl

/-! ## The lookup helper -/

theorem find_loop_none_iff (pairs : List (Option (List Nat) × JsonValue)) (key : List Nat)
    (hk : ∀ p ∈ pairs, p.1 ≠ none) :
    find_loop pairs key = some none ↔ ∀ p ∈ pairs, ¬ keyMatches p key := by
  induction pairs with
  | nil => simp [find_loop]
  | cons p rest ih =>
    obtain ⟨k, v⟩ := p
    have hr : ∀ q ∈ rest, q.1 ≠ none := fun q hq => hk q (List.mem_cons_of_mem _ hq)
    cases k with
    | none => exact absurd rfl (hk (none, v) (List.mem_cons_self _ _))
    | some k =>
      by_cases hc : cstr k = cstr key
      · simp [find_loop, hc, keyMatches]
      · simp [find_loop, hc, keyMatches, ih hr]

theorem find_loop_first (pairs : List (Option (List Nat) × JsonValue)) (key : List Nat) :
    ∀ (i : Nat) (hi : i < pairs.length),
      keyMatches (pairs.get ⟨i, hi⟩) key →
      (∀ (j : Nat) (hj : j < i), ¬ keyMatches (pairs.get ⟨j, Nat.lt_trans hj hi⟩) key) →
      (∀ p ∈ pairs, p.1 ≠ none) →
      find_loop pairs key = some (some (pairs.get ⟨i, hi⟩).2) := by
  induction pairs with
  | nil => intro i hi; exact absurd hi (Nat.not_lt_zero _)
  | cons p rest ih =>
    intro i hi hm hfirst hk
    obtain ⟨k, v⟩ := p
    cases k with
    | none => exact absurd rfl (hk (none, v) (List.mem_cons_self _ _))
    | some k =>
      cases i with
      | zero =>
        obtain ⟨k2, h1, h2⟩ := hm
        simp only [List.get_eq_getElem, List.getElem_cons_zero, Option.some.injEq] at h1
        subst h1
        simp [find_loop, h2]
      | succ i =>
        have h0 : ¬ keyMatches (some k, v) key := hfirst 0 (Nat.succ_pos _)
        have hc : ¬ cstr k = cstr key := fun hc => h0 ⟨k, rfl, hc⟩
        have hi2 : i < rest.length := Nat.lt_of_succ_lt_succ hi
        have := ih i hi2 hm (fun j hj => hfirst (j + 1) (Nat.succ_lt_succ hj))
          (fun q hq => hk q (List.mem_cons_of_mem _ hq))
        simpa [find_loop, hc] using this

/-! ## Nested arrays -/

theorem parseValue_null_literal (f : Nat) (rest : List Nat) :
    parseValue (f + 1) (110 :: 117 :: 108 :: 108 :: rest) = some (some .null, rest) := by
  rfl

theorem parseValue_nested (n : Nat) :
    ∀ (f : Nat) (rest : List Nat),
      parseValue (f + (3 * n + 1))
        (List.replicate n 91 ++ (110 :: 117 :: 108 :: 108 :: (List.replicate n 93 ++ rest))) =
      some (some (nestArray n .null), rest) := by
  induction n with
  | zero => intro f rest; exact parseValue_null_literal f rest
  | succ n ih =>
    intro f rest
    have hf : f + (3 * (n + 1) + 1) = (f + (3 * n + 1)) + 1 + 1 + 1 := by omega
    have hr : List.replicate (n + 1) 93 ++ rest = List.replicate n 93 ++ 93 :: rest := by
      rw [List.replicate_succ', List.append_assoc]; rfl
    rw [hf, hr, List.replicate_succ, List.cons_append, parseValue]
    simp only [nextToken_cons_lbracket]
    rw [parseArray, parseArrayLoop, ih f (93 :: rest)]
    simp only [nextToken_cons_rbracket, if_true]
    rfl

/-! ## String tokens -/

theorem scanString_count (s : List Nat) (n : Int) :
    (scanString s n).2 ≤ n + s.length := by
  induction s, n using scanString.induct with
  | case1 n => simp [scanString]
  | case2 c rest n h =>
    rw [scanString.eq_def]; simp only [if_pos h]
    simp only [List.length_cons, Nat.cast_add, Nat.cast_one]; omega
  | case3 c n h1 h2 =>
    rw [scanString, if_neg h1, if_pos h2]
    simp only [List.length_cons, List.length_nil, Nat.cast_add, Nat.cast_one]; omega
  | case4 c n h1 h2 d rest2 hd ih =>
    rw [scanString, if_neg h1, if_pos h2]
    simp only [hd, if_true]
    simp only [List.length_cons, Nat.cast_add, Nat.cast_one]; omega
  | case5 c n h1 h2 d rest2 hd =>
    rw [scanString, if_neg h1, if_pos h2]
    simp only [hd]
    simp only [List.length_cons, Nat.cast_add, Nat.cast_one, Bool.false_eq_true, if_false]; omega
  | case6 c rest n h1 h2 ih =>
    rw [scanString.eq_def]; simp only [if_neg h1, if_neg h2]
    simp only [List.length_cons, Nat.cast_add, Nat.cast_one]; omega

theorem create_string_prefix (s : List Nat) (k : Int) (hk : k ≤ s.length) :
    create_string (some s) k = none ∨
    ∃ data, create_string (some s) k = some (.string data data.length) ∧ data ≠ [] ∧
      data <+: s := by
  by_cases h0 : k ≤ 0
  · left; simp [create_string, copy_string, h0]
  · by_cases h1 : (2147483646 : Int) < k
    · left; simp [create_string, copy_string, h0, h1]
    · right
      refine ⟨s.take k.toNat, ?_, ?_, List.take_prefix _ _⟩
      · have hl : ((s.take k.toNat).length : Int) = k := by
          rw [List.length_take]; omega
        rw [hl]; simp [create_string, copy_string, h0, h1]
      · intro he
        have : (s.take k.toNat).length = 0 := by rw [he]; rfl
        rw [List.length_take] at this; omega

theorem parse_nested (n : Nat) :
    parse (List.replicate n 91 ++ (bytes "null" ++ List.replicate n 93)) =
      some (some (nestArray n .null)) := by
  have hlen : fuelFor (List.replicate n 91 ++ (bytes "null" ++ List.replicate n 93)) =
      (3 * n + 14) + (3 * n + 1) := by
    simp [fuelFor, bytes]; omega
  have h := parseValue_nested n (3 * n + 14) []
  rw [List.append_nil] at h
  rw [parse, hlen]
  show Option.map Prod.fst (parseValue _ (List.replicate n 91 ++
    (110 :: 117 :: 108 :: 108 :: List.replicate n 93))) = _
  rw [h]; rfl

/-! ## Tokens of printed text -/

theorem cstr_eq_self (s : List Nat) (h : 0 ∉ s) : cstr s = s := by
  induction s with
  | nil => rfl
  | cons c rest ih =>
    have hc : c ≠ 0 := fun e => h (e ▸ List.mem_cons_self _ _)
    have hr : 0 ∉ rest := fun e => h (List.mem_cons_of_mem _ e)
    have := ih hr
    simp only [cstr] at this ⊢
    have hb : (c != 0) = true := by simp [hc]
    simp only [List.takeWhile, hb, this]

/-- A text without NUL, quote and backslash. -/
theorem plain_of_copied {s : List Nat} (h : copiedText s) (hb : 92 ∉ s) :
    ∀ c ∈ s, c ≠ 0 ∧ c ≠ 34 ∧ c ≠ 92 := by
  intro c hc
  refine ⟨fun e => h.2.2.1 (e ▸ hc), fun e => h.2.2.2 hb (e ▸ hc), fun e => hb (e ▸ hc)⟩

theorem scanString_plain (d rest : List Nat) (h : ∀ c ∈ d, c ≠ 0 ∧ c ≠ 34 ∧ c ≠ 92) :
    ∀ n : Int, scanString (d ++ 34 :: rest) n = (34 :: rest, n + d.length) := by
  induction d with
  | nil => intro n; rw [List.nil_append, scanString.eq_def]; simp
  | cons c more ih =>
    intro n
    obtain ⟨h0, h34, h92⟩ := h c (List.mem_cons_self _ _)
    have hm : ∀ x ∈ more, x ≠ 0 ∧ x ≠ 34 ∧ x ≠ 92 :=
      fun x hx => h x (List.mem_cons_of_mem _ hx)
    have e1 : (c == 0 || c == 34) = false := by simp [h0, h34]
    have e2 : (c == 92) = false := by simp [h92]
    rw [List.cons_append, scanString.eq_def]
    simp only [e1, e2, Bool.false_eq_true, if_false]
    rw [ih hm]
    simp only [List.length_cons, Nat.cast_add, Nat.cast_one, Prod.mk.injEq, true_and]
    omega

theorem nextToken_skip (input : List Nat) (h : isWhitespace (peek input) = false) :
    nextToken input = tokenAt input 1 1 := by
  cases input with
  | nil => rfl
  | cons c rest =>
    simp only [peek, List.headD_cons] at h
    simp only [nextToken, skipWhitespace, h, Bool.and_false, Bool.false_eq_true, if_false]

theorem nextToken_plain_string (d rest : List Nat)
    (h : ∀ c ∈ d, c ≠ 0 ∧ c ≠ 34 ∧ c ≠ 92) :
    nextToken (34 :: (d ++ 34 :: rest)) =
      (⟨TOKEN_STRING, some (34 :: (d ++ 34 :: rest)), d.length + 2, 1, 1⟩, rest) := by
  rw [nextToken_cons_quote, scanStringToken]
  simp only [List.tail_cons, scanString_plain d rest h 1]
  simp only [peek, List.headD_cons, beq_self_eq_true, if_true, List.tail_cons]
  congr 2
  omega

theorem copy_string_plain (d rest : List Nat) (h1 : d ≠ [])
    (h2 : (d.length : Int) ≤ 2147483646) :
    copy_string (some (d ++ rest)) d.length = some d := by
  have hpos : 0 < d.length := List.length_pos.mpr h1
  have h0 : ¬ ((d.length : Int) ≤ 0) := by omega
  have h3 : ¬ ((d.length : Int) > 2147483647 - 1) := by omega
  simp only [copy_string, h0, h3, if_false, Int.toNat_ofNat, List.take_left']

theorem parseValue_plain_string (f : Nat) (d rest : List Nat) (hc : copiedText d)
    (hb : 92 ∉ d) :
    parseValue (f + 1) (34 :: (d ++ 34 :: rest)) = some (some (.string d d.length), rest) := by
  rw [parseValue]
  simp only [nextToken_plain_string d rest (plain_of_copied hc hb), parseString]
  simp only [ne_eq, not_true_eq_false, if_false, Option.map_some', List.tail_cons,
    create_string]
  have : ((d.length : Int) + 2 - 2) = d.length := by omega
  rw [this, copy_string_plain d _ hc.1 hc.2.1]

theorem parseValue_true (f : Nat) (rest : List Nat) :
    parseValue (f + 1) (116 :: 114 :: 117 :: 101 :: rest) = some (some (.boolean 1), rest) := by
  rfl

theorem parseValue_false (f : Nat) (rest : List Nat) :
    parseValue (f + 1) (102 :: 97 :: 108 :: 115 :: 101 :: rest) =
      some (some (.boolean 0), rest) := by
  rfl

theorem parseArrayLoop_append_ws (ws l : List Nat) (h : ∀ c ∈ ws, isWhitespace c = true)
    (fuel : Nat) (acc : JsonValue) :
    parseArrayLoop fuel acc (ws ++ l) = parseArrayLoop fuel acc l := by
  cases fuel with
  | zero => simp [parseArrayLoop]
  | succ f => simp only [parseArrayLoop, parseValue_append_ws ws l h]

theorem nextToken_cons_comma (s : List Nat) :
    nextToken (44 :: s) = (⟨TOKEN_COMMA, some (44 :: s), 1, 1, 1⟩, s) := by
  rfl

theorem nextToken_cons_colon (s : List Nat) :
    nextToken (58 :: s) = (⟨TOKEN_COLON, some (58 :: s), 1, 1, 1⟩, s) := by
  rfl

/-! ## The text `print_json` writes -/

theorem indentOf_ws {lvl : Int} {indent : List Nat} (h : indentOf lvl = some indent) :
    ∀ c ∈ indent, isWhitespace c = true := by
  simp only [indentOf] at h
  split_ifs at h
  injection h with h
  subst h
  intro c hc
  rw [List.eq_of_mem_replicate hc]
  rfl

theorem print_scalar {lvl : Int} {x text : List Nat}
    (h : (indentOf lvl).map (fun _ => x) = some text) : text = x := by
  cases hi : indentOf lvl with
  | none => rw [hi] at h; simp at h
  | some i => rw [hi] at h; simpa using h.symm

theorem print_array {items : List JsonValue} {lvl : Int} {text : List Nat}
    (h : print_json (.array items) lvl = some text) :
    ∃ indent body, (∀ c ∈ indent, isWhitespace c = true) ∧
      print_items items lvl = some body ∧
      text = 91 :: 10 :: (indent ++ (body ++ 10 :: (indent ++ [93]))) := by
  rw [print_json] at h
  cases hi : indentOf lvl with
  | none => rw [hi] at h; simp at h
  | some indent =>
    cases hb : print_items items lvl with
    | none => rw [hi, hb] at h; simp at h
    | some body =>
      rw [hi, hb] at h
      refine ⟨indent, body, indentOf_ws hi, rfl, ?_⟩
      simp only [Option.some.injEq] at h
      rw [← h]; simp

theorem print_object {pairs : List (Option (List Nat) × JsonValue)} {lvl : Int}
    {text : List Nat} (h : print_json (.object pairs) lvl = some text) :
    ∃ indent body, (∀ c ∈ indent, isWhitespace c = true) ∧
      print_pairs pairs lvl = some body ∧
      text = 123 :: 10 :: (body ++ 10 :: (indent ++ [125])) := by
  rw [print_json] at h
  cases hi : indentOf lvl with
  | none => rw [hi] at h; simp at h
  | some indent =>
    cases hb : print_pairs pairs lvl with
    | none => rw [hi, hb] at h; simp at h
    | some body =>
      rw [hi, hb] at h
      refine ⟨indent, body, indentOf_ws hi, rfl, ?_⟩
      simp only [Option.some.injEq] at h
      rw [← h]; simp

theorem print_items_cons {v : JsonValue} {more : List JsonValue} {lvl : Int}
    {body : List Nat} (h : print_items (v :: more) lvl = some body) :
    ∃ tv tm, print_json v (lvl + 1) = some tv ∧ print_items more lvl = some tm ∧
      body = tv ++ ((if more.isEmpty then [] else [44]) ++ tm) := by
  rw [print_items] at h
  cases hv : print_json v (lvl + 1) with
  | none => rw [hv] at h; simp at h
  | some tv =>
    cases hm : print_items more lvl with
    | none => rw [hv, hm] at h; simp at h
    | some tm =>
      rw [hv, hm] at h
      refine ⟨tv, tm, rfl, rfl, ?_⟩
      simp only [Option.some.injEq] at h
      rw [← h]; simp

theorem print_pairs_cons {k : Option (List Nat)} {v : JsonValue}
    {more : List (Option (List Nat) × JsonValue)} {lvl : Int}
    {body : List Nat} (h : print_pairs ((k, v) :: more) lvl = some body) :
    ∃ indent key tv tm, (∀ c ∈ indent, isWhitespace c = true) ∧ k = some key ∧
      print_json v (lvl + 1) = some tv ∧ print_pairs more lvl = some tm ∧
      body = indent ++ 34 :: (cstr key ++ 34 :: 58 :: 32 ::
        (tv ++ ((if more.isEmpty then [] else [44, 10]) ++ tm))) := by
  rw [print_pairs] at h
  cases hi : indentOf lvl with
  | none => rw [hi] at h; simp at h
  | some indent =>
    cases k with
    | none => rw [hi] at h; simp at h
    | some key =>
      cases hv : print_json v (lvl + 1) with
      | none => rw [hi, hv] at h; simp at h
      | some tv =>
        cases hm : print_pairs more lvl with
        | none => rw [hi, hv, hm] at h; simp at h
        | some tm =>
          rw [hi, hv, hm] at h
          refine ⟨indent, key, tv, tm, indentOf_ws hi, rfl, rfl, rfl, ?_⟩
          simp only [Option.some.injEq] at h
          rw [← h]; simp

/-! ## One round of the parser's loops -/

theorem arrayLoop_last (g : Nat) (acc : List JsonValue) (input F : List Nat) (v : JsonValue)
    (hv : parseValue g input = some (some v, F))
    (ht : (nextToken F).1.type = TOKEN_ARRAY_END) :
    parseArrayLoop (g + 1) (.array acc) input =
      some (some (.array (acc ++ [v])), (nextToken F).2) := by
  rw [parseArrayLoop, hv]
  simp only [ht, if_true, add_to_array]

theorem arrayLoop_more (g : Nat) (acc : List JsonValue) (input F : List Nat) (v : JsonValue)
    (hv : parseValue g input = some (some v, F))
    (ht : (nextToken F).1.type = TOKEN_COMMA) :
    parseArrayLoop (g + 1) (.array acc) input =
      parseArrayLoop g (.array (acc ++ [v])) (nextToken F).2 := by
  rw [parseArrayLoop, hv]
  simp only [ht, add_to_array]
  simp

theorem objectLoop_last (g : Nat) (acc : List (Option (List Nat) × JsonValue))
    (tok : JsonToken) (input F : List Nat) (v : JsonValue)
    (hs : tok.type = TOKEN_STRING) (hc : (nextToken input).1.type = TOKEN_COLON)
    (hv : parseValue g (nextToken input).2 = some (some v, F))
    (ht : (nextToken F).1.type = TOKEN_OBJECT_END) :
    parseObjectLoop (g + 1) (.object acc) tok input =
      some (some (.object
        (acc ++ [(copy_string (tok.start.map List.tail) (tok.length - 2), v)])),
        (nextToken F).2) := by
  rw [parseObjectLoop, hv]
  simp only [hs, hc, ht, ne_eq, not_true_eq_false, if_false, if_true, add_to_object]

theorem objectLoop_more (g : Nat) (acc : List (Option (List Nat) × JsonValue))
    (tok : JsonToken) (input F : List Nat) (v : JsonValue)
    (hs : tok.type = TOKEN_STRING) (hc : (nextToken input).1.type = TOKEN_COLON)
    (hv : parseValue g (nextToken input).2 = some (some v, F))
    (ht : (nextToken F).1.type = TOKEN_COMMA) :
    parseObjectLoop (g + 1) (.object acc) tok input =
      parseObjectLoop g
        (.object (acc ++ [(copy_string (tok.start.map List.tail) (tok.length - 2), v)]))
        (nextToken (nextToken F).2).1 (nextToken (nextToken F).2).2 := by
  rw [parseObjectLoop, hv]
  simp only [hs, hc, ht, ne_eq, not_true_eq_false, if_false, add_to_object]
  simp

theorem parseObjectLoop_congr (fuel : Nat) (obj : JsonValue) (t u : JsonToken)
    (input : List Nat) (h1 : t.type = u.type) (h2 : t.start = u.start)
    (h3 : t.length = u.length) :
    parseObjectLoop fuel obj t input = parseObjectLoop fuel obj u input := by
  cases fuel with
  | zero => simp [parseObjectLoop]
  | succ f => simp only [parseObjectLoop, h1, h2, h3]

/-- The token after a line break, whitespace and a closing bracket. -/
theorem nextToken_close (c : Nat) (ws rest : List Nat) (h : ∀ x ∈ ws, isWhitespace x = true) :
    (nextToken (10 :: (ws ++ c :: rest))).1.type = (nextToken (c :: rest)).1.type ∧
    (nextToken (10 :: (ws ++ c :: rest))).2 = (nextToken (c :: rest)).2 := by
  have hw : ∀ x ∈ 10 :: ws, isWhitespace x = true := by
    intro x hx
    rcases List.mem_cons.mp hx with hx | hx
    · subst hx; rfl
    · exact h x hx
  have := nextToken_append_ws (10 :: ws) (c :: rest) hw
  rw [List.cons_append] at this
  exact ⟨this.1, this.2.2.2⟩

/-! ## Printed numbers -/

theorem isDigitC_iff {c : Nat} : isDigitC c = true ↔ 48 ≤ c ∧ c ≤ 57 := by
  simp [isDigitC]

theorem decDigits_digit : ∀ (fuel n : Nat), ∀ c ∈ decDigits fuel n, isDigitC c = true
  | 0, _ => by simp [decDigits]
  | fuel + 1, n => by
    intro c hc
    rw [decDigits] at hc
    split_ifs at hc with h
    · simp only [List.mem_singleton] at hc
      subst hc
      rw [isDigitC_iff]; omega
    · rcases List.mem_append.mp hc with hc | hc
      · exact decDigits_digit fuel _ c hc
      · simp only [List.mem_singleton] at hc
        subst hc
        rw [isDigitC_iff]; omega

theorem decDigits_ne_nil (fuel n : Nat) : decDigits (fuel + 1) n ≠ [] := by
  rw [decDigits]
  split_ifs <;> simp

theorem integerDigits_digit (q : Nat) : ∀ c ∈ integerDigits q, isDigitC c = true :=
  decDigits_digit _ _

theorem integerDigits_ne_nil (q : Nat) : integerDigits q ≠ [] :=
  decDigits_ne_nil _ _

theorem fractionDigits_digit (q : Nat) : ∀ c ∈ fractionDigits q, isDigitC c = true := by
  intro c hc
  simp only [fractionDigits, List.mem_cons, List.mem_singleton, List.not_mem_nil,
    or_false] at hc
  rw [isDigitC_iff]
  rcases hc with h | h | h | h | h | h <;> subst h <;> omega

theorem takeWhile_stop {p : Nat → Bool} {t : List Nat} (h : stopsAt p t) :
    t.takeWhile p = [] := by
  cases t with
  | nil => rfl
  | cons c r => simp only [stopsAt] at h; simp [List.takeWhile, h]

theorem dropWhile_stop {p : Nat → Bool} {t : List Nat} (h : stopsAt p t) :
    t.dropWhile p = t := by
  cases t with
  | nil => rfl
  | cons c r => simp only [stopsAt] at h; simp [List.dropWhile, h]

theorem takeWhile_run {p : Nat → Bool} {a t : List Nat} (ha : ∀ x ∈ a, p x = true)
    (h : stopsAt p t) : (a ++ t).takeWhile p = a := by
  rw [List.takeWhile_append_of_pos ha, takeWhile_stop h, List.append_nil]

theorem dropWhile_run {p : Nat → Bool} {a t : List Nat} (ha : ∀ x ∈ a, p x = true)
    (h : stopsAt p t) : (a ++ t).dropWhile p = t := by
  rw [List.dropWhile_append_of_pos ha, dropWhile_stop h]

theorem scanDigits_run (ds t : List Nat) (hds : ∀ c ∈ ds, isDigitC c = true)
    (ht : stopsAt isDigitC t) : ∀ n : Int, scanDigits (ds ++ t) n = (t, n + ds.length) := by
  induction ds with
  | nil =>
    intro n
    cases t with
    | nil => simp [scanDigits]
    | cons c r => simp only [stopsAt] at ht; simp [scanDigits, ht]
  | cons c more ih =>
    intro n
    have hc := hds c (List.mem_cons_self _ _)
    have h0 : (c != 0) = true := by
      rw [isDigitC_iff] at hc; simp; omega
    rw [List.cons_append, scanDigits]
    simp only [h0, hc, Bool.and_self, if_true]
    rw [ih (fun x hx => hds x (List.mem_cons_of_mem _ hx))]
    simp only [List.length_cons, Nat.cast_add, Nat.cast_one, Prod.mk.injEq, true_and]
    omega

theorem delim_stops_digit {t : List Nat} (h : delim t = true) : stopsAt isDigitC t := by
  cases t with
  | nil => trivial
  | cons c r =>
    simp only [delim, Bool.or_eq_true, beq_iff_eq] at h
    simp only [stopsAt]
    rcases h with h | h <;> subst h <;> rfl

theorem delim_peek {t : List Nat} (h : delim t = true) :
    peek t = 0 ∨ peek t = 44 ∨ peek t = 10 := by
  cases t with
  | nil => left; rfl
  | cons c r =>
    simp only [delim, Bool.or_eq_true, beq_iff_eq] at h
    simp only [peek, List.headD_cons]
    rcases h with h | h
    · right; left; exact h
    · right; right; exact h

theorem scanExponent_delim {t : List Nat} (h : delim t = true) (n : Int) :
    scanExponent t n = (t, n) := by
  rw [scanExponent]
  rcases delim_peek h with h | h | h <;> simp [h]

theorem scanToken_number (c : Nat) (input : List Nat) (h : c = 45 ∨ isDigitC c = true) :
    scanToken c input = (TOKEN_NUMBER, (scanNumberBody c input).2, (scanNumberBody c input).1) := by
  rcases h with h | h
  · subst h; rfl
  · rw [isDigitC_iff] at h
    obtain ⟨h1, h2⟩ := h
    interval_cases c <;> rfl

/-- The scan of digits, a point and digits, followed by a delimiter. -/
theorem scanNumber_run (ds fs rest : List Nat) (hds : ∀ c ∈ ds, isDigitC c = true)
    (hfs : ∀ c ∈ fs, isDigitC c = true) (hr : delim rest = true) :
    (scanExponent
      (scanFraction (scanDigits (ds ++ 46 :: (fs ++ rest)) 0).1
        (scanDigits (ds ++ 46 :: (fs ++ rest)) 0).2).1
      (scanFraction (scanDigits (ds ++ 46 :: (fs ++ rest)) 0).1
        (scanDigits (ds ++ 46 :: (fs ++ rest)) 0).2).2).1 = rest := by
  rw [scanDigits_run ds (46 :: (fs ++ rest)) hds (by simp [stopsAt, isDigitC])]
  simp only [scanFraction, peek, List.headD_cons, beq_self_eq_true, if_true, List.tail_cons]
  rw [scanDigits_run fs rest hfs (delim_stops_digit hr), scanExponent_delim hr]

/-- The token of a printed number followed by a delimiter. -/
theorem nextToken_number (neg : Bool) (ds fs rest : List Nat) (hne : ds ≠ [])
    (hds : ∀ c ∈ ds, isDigitC c = true) (hfs : ∀ c ∈ fs, isDigitC c = true)
    (hr : delim rest = true) :
    (nextToken ((if neg then [45] else []) ++ (ds ++ 46 :: fs) ++ rest)).1.type = TOKEN_NUMBER ∧
    (nextToken ((if neg then [45] else []) ++ (ds ++ 46 :: fs) ++ rest)).1.start =
      some ((if neg then [45] else []) ++ (ds ++ 46 :: fs) ++ rest) ∧
    (nextToken ((if neg then [45] else []) ++ (ds ++ 46 :: fs) ++ rest)).2 = rest := by
  have hrun := scanNumber_run ds fs rest hds hfs hr
  cases neg with
  | true =>
    simp only [if_true, List.cons_append, List.nil_append, List.append_assoc]
    rw [nextToken_skip _ (by rfl), tokenAt]
    simp only [peek, List.headD_cons]
    rw [scanToken_number 45 _ (Or.inl rfl)]
    refine ⟨rfl, rfl, ?_⟩
    simpa [scanNumberBody] using hrun
  | false =>
    cases ds with
    | nil => exact absurd rfl hne
    | cons d0 more =>
      have hd0 := hds d0 (List.mem_cons_self _ _)
      have hd := isDigitC_iff.mp hd0
      have hw : isWhitespace d0 = false := by
        simp only [isWhitespace, Bool.or_eq_false_iff, beq_eq_false_iff_ne, ne_eq]
        omega
      have h0 : (d0 == 0) = false := by simp; omega
      have h45 : (d0 == 45) = false := by simp; omega
      simp only [Bool.false_eq_true, if_false, List.cons_append, List.nil_append,
        List.append_assoc] at hrun ⊢
      rw [nextToken_skip _ (by simpa [peek] using hw), tokenAt]
      simp only [peek, List.headD_cons, h0, Bool.false_eq_true, if_false]
      rw [scanToken_number d0 _ (Or.inr hd0)]
      refine ⟨rfl, trivial, ?_⟩
      simpa [scanNumberBody, h45] using hrun

theorem delim_cstr {t : List Nat} (h : delim t = true) :
    delim (t.takeWhile (· != 0)) = true := by
  cases t with
  | nil => rfl
  | cons c r =>
    simp only [delim, Bool.or_eq_true, beq_iff_eq] at h
    rcases h with h | h <;> subst h <;> simp [List.takeWhile, delim]

theorem strtodExponent_delim {t : List Nat} (h : delim t = true) (lo up : Nat)
    (hlo : lo ≠ 0 ∧ lo ≠ 44 ∧ lo ≠ 10) (hup : up ≠ 0 ∧ up ≠ 44 ∧ up ≠ 10) :
    strtodExponent lo up t = 0 := by
  rw [strtodExponent]
  have : (peek t == lo || peek t == up) = false := by
    rcases delim_peek h with h | h | h <;> rw [h] <;> simp <;> omega
  simp only [this, Bool.false_eq_true, if_false]

theorem digit_lower {c : Nat} (h : isDigitC c = true ∨ c = 46) : toLowerC c = c ∧ c < 65 := by
  have : c < 65 := by
    rcases h with h | h
    · rw [isDigitC_iff] at h; omega
    · omega
  refine ⟨?_, this⟩
  have h2 : (65 ≤ c && c ≤ 90) = false := by simp; omega
  simp only [toLowerC, h2, Bool.false_eq_true, if_false]

/-- The decimal conversion of digits, a point and digits before a delimiter. -/
theorem strtodDecimal_run (neg : Bool) (ds fs t : List Nat) (hne : ds ≠ [])
    (hds : ∀ c ∈ ds, isDigitC c = true) (hfs : ∀ c ∈ fs, isDigitC c = true)
    (ht : delim t = true) :
    strtodDecimal neg (ds ++ 46 :: (fs ++ t)) =
      some (scaleToDouble neg (digitsVal 10 ((ds ++ fs).map (· - 48))) 10 (0 - fs.length)) := by
  have h46 : stopsAt isDigitC (46 :: (fs ++ t)) := by simp [stopsAt, isDigitC]
  have hip : (ds ++ 46 :: (fs ++ t)).takeWhile isDigitC = ds := takeWhile_run hds h46
  have hs1 : (ds ++ 46 :: (fs ++ t)).dropWhile isDigitC = 46 :: (fs ++ t) :=
    dropWhile_run hds h46
  have hfp : (fs ++ t).takeWhile isDigitC = fs := takeWhile_run hfs (delim_stops_digit ht)
  have hs2 : (fs ++ t).dropWhile isDigitC = t := dropWhile_run hfs (delim_stops_digit ht)
  have hemp : ds.isEmpty = false := by
    cases ds with
    | nil => exact absurd rfl hne
    | cons _ _ => rfl
  rw [strtodDecimal]
  simp only [hip, hs1, peek, List.headD_cons, beq_self_eq_true, if_true, List.tail_cons, hfp,
    hs2, hemp, Bool.false_and, Bool.false_eq_true, if_false]
  rw [strtodExponent_delim ht 101 69 (by decide) (by decide)]

theorem strtodHex_run (neg : Bool) (ds fs t : List Nat) (hne : ds ≠ [])
    (hds : ∀ c ∈ ds, isDigitC c = true) :
    strtodHex neg (ds ++ 46 :: (fs ++ t)) = none := by
  have hx : ∀ c, (isDigitC c = true ∨ c = 46) → (toLowerC c == 120) = false := by
    intro c hc
    have := digit_lower hc
    rw [this.1]; simp; omega
  have : (toLowerC (peek (ds ++ 46 :: (fs ++ t)).tail) == 120) = false := by
    cases ds with
    | nil => exact absurd rfl hne
    | cons d0 more =>
      cases more with
      | nil => exact hx 46 (Or.inr rfl)
      | cons d1 more2 =>
        exact hx d1 (Or.inl (hds d1 (List.mem_cons_of_mem _ (List.mem_cons_self _ _))))
  rw [strtodHex]
  simp only [this, Bool.and_false, Bool.false_eq_true, if_false]

theorem not_keyword_run (ds r : List Nat) (hne : ds ≠ []) (hds : ∀ c ∈ ds, isDigitC c = true)
    (k : Nat) (w : List Nat) (hk : 65 ≤ k) :
    (((ds ++ r).take 3).map toLowerC == k :: w) = false := by
  cases ds with
  | nil => exact absurd rfl hne
  | cons d0 more =>
    have hl := digit_lower (Or.inl (hds d0 (List.mem_cons_self _ _)))
    rw [Bool.eq_false_iff]
    intro h
    have := eq_of_beq h
    simp only [List.cons_append, List.take_succ_cons, List.map_cons, List.cons.injEq] at this
    omega

theorem strtod_tail (neg : Bool) (ds fs t : List Nat) (hne : ds ≠ [])
    (hds : ∀ c ∈ ds, isDigitC c = true) (hfs : ∀ c ∈ fs, isDigitC c = true)
    (ht : delim t = true) :
    (if (((ds ++ 46 :: (fs ++ t)).take 3).map toLowerC == [105, 110, 102]) = true then
        Double.inf neg
      else if (((ds ++ 46 :: (fs ++ t)).take 3).map toLowerC == [110, 97, 110]) = true then
        Double.nan neg
      else
        match strtodHex neg (ds ++ 46 :: (fs ++ t)) with
        | some d => d
        | none =>
          match strtodDecimal neg (ds ++ 46 :: (fs ++ t)) with
          | some d => d
          | none => Double.finite false 0 0) =
      scaleToDouble neg (digitsVal 10 ((ds ++ fs).map (· - 48))) 10 (0 - fs.length) := by
  rw [not_keyword_run ds _ hne hds 105 _ (by decide),
    not_keyword_run ds _ hne hds 110 _ (by decide), strtodHex_run neg ds fs t hne hds,
    strtodDecimal_run neg ds fs t hne hds hfs ht]
  simp

theorem printed_nonzero (neg : Bool) (ds fs : List Nat)
    (hds : ∀ c ∈ ds, isDigitC c = true) (hfs : ∀ c ∈ fs, isDigitC c = true) :
    ∀ c ∈ (if neg then [45] else []) ++ (ds ++ 46 :: fs), (c != 0) = true := by
  intro c hc
  have hd : ∀ x, isDigitC x = true → (x != 0) = true := by
    intro x hx
    rw [isDigitC_iff] at hx; simp; omega
  rcases List.mem_append.mp hc with hc | hc
  · cases neg with
    | true =>
      simp only [if_true, List.mem_singleton] at hc
      subst hc; rfl
    | false => simp at hc
  · rcases List.mem_append.mp hc with hc | hc
    · exact hd c (hds c hc)
    · rcases List.mem_cons.mp hc with hc | hc
      · subst hc; rfl
      · exact hd c (hfs c hc)

theorem strtod_after_skip (input X : List Nat)
    (hX : (input.takeWhile (· != 0)).dropWhile isspaceC = X) :
    strtod input =
      (if (((if (peek X == 45 || peek X == 43) = true then X.tail else X).take 3).map toLowerC
          == [105, 110, 102]) = true then Double.inf (peek X == 45)
      else if (((if (peek X == 45 || peek X == 43) = true then X.tail else X).take 3).map
          toLowerC == [110, 97, 110]) = true then Double.nan (peek X == 45)
      else
        match strtodHex (peek X == 45)
          (if (peek X == 45 || peek X == 43) = true then X.tail else X) with
        | some d => d
        | none =>
          match strtodDecimal (peek X == 45)
            (if (peek X == 45 || peek X == 43) = true then X.tail else X) with
          | some d => d
          | none => Double.finite false 0 0) := by
  subst hX
  rfl

/-- `strtod` on a printed number reads the digits and stops at the delimiter. -/
theorem strtod_run (neg : Bool) (ds fs t : List Nat) (hne : ds ≠ [])
    (hds : ∀ c ∈ ds, isDigitC c = true) (hfs : ∀ c ∈ fs, isDigitC c = true)
    (ht : delim t = true) :
    strtod ((if neg then [45] else []) ++ (ds ++ 46 :: fs) ++ t) =
      scaleToDouble neg (digitsVal 10 ((ds ++ fs).map (· - 48))) 10 (0 - fs.length) := by
  have h1 : ((if neg then [45] else []) ++ (ds ++ 46 :: fs) ++ t).takeWhile (· != 0) =
      (if neg then [45] else []) ++ (ds ++ 46 :: fs) ++ t.takeWhile (· != 0) :=
    List.takeWhile_append_of_pos (printed_nonzero neg ds fs hds hfs)
  have ht2 := delim_cstr ht
  have htail := strtod_tail neg ds fs (t.takeWhile (· != 0)) hne hds hfs ht2
  cases ds with
  | nil => exact absurd rfl hne
  | cons d0 more =>
    have hd := isDigitC_iff.mp (hds d0 (List.mem_cons_self _ _))
    cases neg with
    | true =>
      have hX : (([45] ++ (d0 :: more ++ 46 :: fs) ++ t).takeWhile (· != 0)).dropWhile
          isspaceC = 45 :: (d0 :: (more ++ 46 :: (fs ++ t.takeWhile (· != 0)))) := by
        simp only [if_true] at h1
        rw [h1]
        simp [List.dropWhile, isspaceC]
      simp only [if_true]
      rw [strtod_after_skip _ _ hX]
      simp only [List.cons_append] at htail
      simpa [peek] using htail
    | false =>
      have hsp : isspaceC d0 = false := by
        simp only [isspaceC, Bool.or_eq_false_iff, beq_eq_false_iff_ne, ne_eq]
        omega
      have hX : (([] ++ (d0 :: more ++ 46 :: fs) ++ t).takeWhile (· != 0)).dropWhile
          isspaceC = d0 :: (more ++ 46 :: (fs ++ t.takeWhile (· != 0))) := by
        simp only [Bool.false_eq_true, if_false] at h1
        rw [h1]
        simp [List.dropWhile, hsp]
      have h45 : (d0 == 45) = false := by simp; omega
      have h43 : (d0 == 43) = false := by simp; omega
      simp only [Bool.false_eq_true, if_false]
      rw [strtod_after_skip _ _ hX]
      simp only [List.cons_append] at htail
      simp only [peek, List.headD_cons, h45, h43, Bool.or_self, Bool.false_eq_true, if_false]
      exact htail

theorem parseValue_printed_number (f : Nat) (d : Double) (rest : List Nat)
    (hd : survivesPrint d = true) (hr : delim rest = true) :
    parseValue (f + 1) (printf_lf d ++ rest) = some (some (.number d), rest) := by
  cases d with
  | inf neg => simp [survivesPrint] at hd
  | nan neg => simp [survivesPrint] at hd
  | finite neg m e =>
    simp only [survivesPrint, beq_iff_eq] at hd
    have hne := integerDigits_ne_nil (millionths m e)
    have hds := integerDigits_digit (millionths m e)
    have hfs := fractionDigits_digit (millionths m e)
    have hshape : printf_lf (.finite neg m e) =
        (if neg then [45] else []) ++
          (integerDigits (millionths m e) ++ 46 :: fractionDigits (millionths m e)) := rfl
    have hloc : strtod (printf_lf (.finite neg m e) ++ rest) =
        strtod (printf_lf (.finite neg m e)) := by
      have h1 := strtod_run neg _ _ rest hne hds hfs hr
      have h2 := strtod_run neg _ _ [] hne hds hfs rfl
      rw [List.append_nil] at h2
      rw [hshape, h1, h2]
    obtain ⟨t1, t2, t3⟩ := nextToken_number neg _ _ rest hne hds hfs hr
    rw [← hshape] at t1 t2 t3
    rw [parseValue]
    simp only [t1, t3, parseNumber, t2, ne_eq, not_true_eq_false, if_false, Option.getD_some,
      create_number, hloc, hd]

/-! ## Parsing what `print_json` wrote -/

/-- The token of a printed key: whitespace, then the key between quotes. -/
theorem nextToken_key (ws key R : List Nat) (hws : ∀ c ∈ ws, isWhitespace c = true)
    (hk : ∀ c ∈ key, c ≠ 0 ∧ c ≠ 34 ∧ c ≠ 92) :
    (nextToken (ws ++ 34 :: (key ++ 34 :: R))).1.type = TOKEN_STRING ∧
    (nextToken (ws ++ 34 :: (key ++ 34 :: R))).1.start = some (34 :: (key ++ 34 :: R)) ∧
    (nextToken (ws ++ 34 :: (key ++ 34 :: R))).1.length = key.length + 2 ∧
    (nextToken (ws ++ 34 :: (key ++ 34 :: R))).2 = R := by
  obtain ⟨h1, h2, h3, h4⟩ := nextToken_append_ws ws (34 :: (key ++ 34 :: R)) hws
  rw [h1, h2, h3, h4, nextToken_plain_string key R hk]
  exact ⟨rfl, rfl, rfl, rfl⟩

theorem ws_cons {c : Nat} {ws : List Nat} (hc : isWhitespace c = true)
    (hws : ∀ x ∈ ws, isWhitespace x = true) : ∀ x ∈ c :: ws, isWhitespace x = true := by
  intro x hx
  rcases List.mem_cons.mp hx with hx | hx
  · subst hx; exact hc
  · exact hws x hx

theorem ws_append {a b : List Nat} (ha : ∀ x ∈ a, isWhitespace x = true)
    (hb : ∀ x ∈ b, isWhitespace x = true) : ∀ x ∈ a ++ b, isWhitespace x = true := by
  intro x hx
  rcases List.mem_append.mp hx with hx | hx
  · exact ha x hx
  · exact hb x hx

mutual

theorem rt_value : ∀ (v : JsonValue) (lvl : Int) (text rest : List Nat) (fuel : Nat),
    v.All parsedNode parsedKey → NoBackslash v → NumbersSurvive v →
    print_json v lvl = some text → delim rest = true → 3 * text.length < fuel →
    parseValue fuel (text ++ rest) = some (some v, rest)
  | .null, lvl, text, rest, fuel, _, _, _, hp, _, hf => by
    obtain ⟨f, rfl⟩ : ∃ f, fuel = f + 1 := ⟨fuel - 1, by omega⟩
    rw [print_json] at hp
    rw [print_scalar hp]
    exact parseValue_null_literal f rest
  | .boolean b, lvl, text, rest, fuel, hpar, _, _, hp, _, hf => by
    obtain ⟨f, rfl⟩ : ∃ f, fuel = f + 1 := ⟨fuel - 1, by omega⟩
    rw [print_json] at hp
    rw [print_scalar hp]
    simp only [JsonValue.All, parsedNode] at hpar
    rcases hpar with h | h
    · subst h; exact parseValue_false f rest
    · subst h; exact parseValue_true f rest
  | .number d, lvl, text, rest, fuel, _, _, hn, hp, hr, hf => by
    obtain ⟨f, rfl⟩ : ∃ f, fuel = f + 1 := ⟨fuel - 1, by omega⟩
    rw [print_json] at hp
    rw [print_scalar hp]
    simp only [NumbersSurvive, JsonValue.All, survivesPrintNode] at hn
    exact parseValue_printed_number f d rest hn hr
  | .string d l, lvl, text, rest, fuel, hpar, hb, _, hp, _, hf => by
    obtain ⟨f, rfl⟩ : ∃ f, fuel = f + 1 := ⟨fuel - 1, by omega⟩
    rw [print_json] at hp
    rw [print_scalar hp]
    simp only [JsonValue.All, parsedNode] at hpar
    simp only [NoBackslash, JsonValue.All, noBackslashNode] at hb
    obtain ⟨hc, hl⟩ := hpar
    subst hl
    rw [cstr_eq_self d hc.2.2.1]
    simp only [List.cons_append, List.nil_append, List.append_assoc]
    exact parseValue_plain_string f d rest hc hb
  | .error, _, _, _, _, hpar, _, _, _, _, _ => by
    simp only [JsonValue.All, parsedNode] at hpar
  | .array items, lvl, text, rest, fuel, hpar, hb, hn, hp, _, hf => by
    obtain ⟨indent, body, hws, hitems, rfl⟩ := print_array hp
    simp only [JsonValue.All, parsedNode] at hpar
    simp only [NoBackslash, JsonValue.All] at hb
    simp only [NumbersSurvive, JsonValue.All] at hn
    simp only [List.length_cons, List.length_append, List.length_nil] at hf
    obtain ⟨f, rfl⟩ : ∃ f, fuel = f + 1 + 1 + 1 := ⟨fuel - 3, by omega⟩
    have hw : ∀ x ∈ 10 :: indent, isWhitespace x = true := by
      intro x hx
      rcases List.mem_cons.mp hx with hx | hx
      · subst hx; rfl
      · exact hws x hx
    have hstrip := parseArrayLoop_append_ws (10 :: indent)
      (body ++ 10 :: (indent ++ 93 :: rest)) hw (f + 1) create_array
    rw [List.cons_append] at hstrip
    simp only [List.cons_append, List.nil_append, List.append_assoc]
    rw [parseValue]
    simp only [nextToken_cons_lbracket]
    rw [parseArray, hstrip]
    have := rt_items items lvl body indent rest [] (f + 1) hpar.2 hb.2 hn.2 hpar.1 hitems hws
      (by omega)
    simpa [create_array] using this
  | .object pairs, lvl, text, rest, fuel, hpar, hb, hn, hp, _, hf => by
    obtain ⟨indent, body, hws, hpairs, rfl⟩ := print_object hp
    simp only [JsonValue.All, parsedNode] at hpar
    simp only [NoBackslash, JsonValue.All] at hb
    simp only [NumbersSurvive, JsonValue.All] at hn
    simp only [List.length_cons, List.length_append, List.length_nil] at hf
    obtain ⟨f, rfl⟩ : ∃ f, fuel = f + 1 + 1 + 1 := ⟨fuel - 3, by omega⟩
    simp only [List.cons_append, List.nil_append, List.append_assoc]
    rw [parseValue]
    simp only [nextToken_cons_lbrace]
    rw [parseObject]
    cases pairs with
    | nil =>
      rw [print_pairs] at hpairs
      injection hpairs with hpairs
      subst hpairs
      have h2 := nextToken_close 125 (10 :: indent) rest (by
        intro x hx
        rcases List.mem_cons.mp hx with hx | hx
        · subst hx; rfl
        · exact hws x hx)
      simp only [List.nil_append, List.cons_append] at h2 ⊢
      simp only [h2.1, h2.2, nextToken_cons_rbrace, if_true, create_object]
    | cons p more =>
      have hmain := rt_pairs (p :: more) lvl body [10] indent rest [] (f + 1) hpar.2 hb.2 hn.2
        (List.cons_ne_nil _ _) hpairs (by decide) hws (by omega)
      simp only [List.singleton_append, List.nil_append] at hmain
      obtain ⟨k, v⟩ := p
      obtain ⟨ind2, key, tv, tm, hws2, hk, -, -, hbody⟩ := print_pairs_cons hpairs
      simp only [AllPairs, parsedKey, noBackslashKey] at hpar hb
      subst hk
      have hne : (nextToken (10 :: (body ++ 10 :: (indent ++ 125 :: rest)))).1.type ≠
          TOKEN_OBJECT_END := by
        have hkey := nextToken_key (10 :: ind2) key
          (58 :: 32 :: (tv ++ ((if more.isEmpty then [] else [44, 10]) ++ tm)) ++
            10 :: (indent ++ 125 :: rest))
          (ws_cons rfl hws2) (plain_of_copied hpar.2.1 hb.2.1)
        rw [hbody, cstr_eq_self key hpar.2.1.2.2.1]
        simp only [List.cons_append, List.append_assoc] at hkey ⊢
        rw [hkey.1]
        decide
      simp only [hne, if_false, create_object]
      exact hmain

theorem rt_items : ∀ (items : List JsonValue) (lvl : Int) (body ws rest : List Nat)
    (acc : List JsonValue) (fuel : Nat),
    AllItems parsedNode parsedKey items → AllItems noBackslashNode noBackslashKey items →
    AllItems survivesPrintNode (fun _ => True) items → items ≠ [] →
    print_items items lvl = some body → (∀ c ∈ ws, isWhitespace c = true) →
    3 * body.length + 1 < fuel →
    parseArrayLoop fuel (.array acc) (body ++ 10 :: (ws ++ 93 :: rest)) =
      some (some (.array (acc ++ items)), rest)
  | [], _, _, _, _, _, _, _, _, _, hne, _, _, _ => absurd rfl hne
  | v :: more, lvl, body, ws, rest, acc, fuel, hpar, hb, hn, _, hp, hws, hf => by
    obtain ⟨tv, tm, hv, hm, rfl⟩ := print_items_cons hp
    simp only [AllItems] at hpar hb hn
    obtain ⟨g, rfl⟩ : ∃ g, fuel = g + 1 := ⟨fuel - 1, by omega⟩
    cases more with
    | nil =>
      rw [print_items] at hm
      injection hm with hm
      subst hm
      simp only [List.isEmpty_nil, if_true, List.nil_append, List.append_nil,
        List.length_append] at hf ⊢
      have hval := rt_value v (lvl + 1) tv (10 :: (ws ++ 93 :: rest)) g hpar.1 hb.1 hn.1 hv rfl
        (by omega)
      have hcl := nextToken_close 93 ws rest hws
      rw [arrayLoop_last g acc _ _ v hval (by rw [hcl.1, nextToken_cons_rbracket]), hcl.2,
        nextToken_cons_rbracket]
    | cons w more2 =>
      simp only [List.isEmpty_cons, Bool.false_eq_true, if_false, List.length_append,
        List.length_cons, List.length_nil, List.append_assoc, List.singleton_append,
        List.cons_append, List.nil_append] at hf ⊢
      have hval := rt_value v (lvl + 1) tv (44 :: (tm ++ 10 :: (ws ++ 93 :: rest))) g
        hpar.1 hb.1 hn.1 hv rfl (by omega)
      rw [arrayLoop_more g acc _ _ v hval (by rw [nextToken_cons_comma]), nextToken_cons_comma]
      have ih := rt_items (w :: more2) lvl tm ws rest (acc ++ [v]) g hpar.2 hb.2 hn.2
        (List.cons_ne_nil _ _) hm hws (by omega)
      simpa using ih

theorem rt_pairs : ∀ (pairs : List (Option (List Nat) × JsonValue)) (lvl : Int)
    (body ws0 ws rest : List Nat) (acc : List (Option (List Nat) × JsonValue)) (fuel : Nat),
    AllPairs parsedNode parsedKey pairs → AllPairs noBackslashNode noBackslashKey pairs →
    AllPairs survivesPrintNode (fun _ => True) pairs → pairs ≠ [] →
    print_pairs pairs lvl = some body → (∀ c ∈ ws0, isWhitespace c = true) →
    (∀ c ∈ ws, isWhitespace c = true) → 3 * body.length + 1 < fuel →
    parseObjectLoop fuel (.object acc)
      (nextToken (ws0 ++ (body ++ 10 :: (ws ++ 125 :: rest)))).1
      (nextToken (ws0 ++ (body ++ 10 :: (ws ++ 125 :: rest)))).2 =
      some (some (.object (acc ++ pairs)), rest)
  | [], _, _, _, _, _, _, _, _, _, _, hne, _, _, _, _ => absurd rfl hne
  | (k, v) :: more, lvl, body, ws0, ws, rest, acc, fuel, hpar, hb, hn, _, hp, hws0, hws,
      hf => by
    obtain ⟨ind2, key, tv, tm, hws2, rfl, hv, hm, rfl⟩ := print_pairs_cons hp
    simp only [AllPairs, parsedKey, noBackslashKey] at hpar hb hn
    obtain ⟨g, rfl⟩ : ∃ g, fuel = g + 1 := ⟨fuel - 1, by omega⟩
    rw [cstr_eq_self key hpar.1.2.2.1] at hf ⊢
    have hplain := plain_of_copied hpar.1 hb.1
    have hcopy : ∀ R : List Nat,
        copy_string (Option.map List.tail (some (34 :: (key ++ 34 :: R))))
          ((key.length : Int) + 2 - 2) = some key := by
      intro R
      have e : ((key.length : Int) + 2 - 2) = key.length := by omega
      rw [e]
      exact copy_string_plain key _ hpar.1.1 hpar.1.2.1
    cases more with
    | nil =>
      rw [print_pairs] at hm
      injection hm with hm
      subst hm
      simp only [List.isEmpty_nil, if_true, List.nil_append, List.append_nil,
        List.length_append, List.length_cons, List.append_assoc, List.cons_append] at hf ⊢
      have hkey := nextToken_key (ws0 ++ ind2) key
        (58 :: 32 :: (tv ++ 10 :: (ws ++ 125 :: rest))) (ws_append hws0 hws2) hplain
      simp only [List.append_assoc] at hkey
      rw [hkey.2.2.2]
      have hval := rt_value v (lvl + 1) tv (10 :: (ws ++ 125 :: rest)) g hpar.2.1 hb.2.1
        hn.2.1 hv rfl (by omega)
      have hval2 : parseValue g
          (nextToken (58 :: 32 :: (tv ++ 10 :: (ws ++ 125 :: rest)))).2 =
          some (some v, 10 :: (ws ++ 125 :: rest)) := by
        rw [nextToken_cons_colon]
        exact (parseValue_append_ws [32] _ (by decide) g).trans hval
      have hcl := nextToken_close 125 ws rest hws
      rw [objectLoop_last g acc _ _ _ v hkey.1 (by rw [nextToken_cons_colon]) hval2
        (by rw [hcl.1, nextToken_cons_rbrace]), hcl.2, nextToken_cons_rbrace, hkey.2.1,
        hkey.2.2.1, hcopy]
    | cons q more2 =>
      simp only [List.isEmpty_cons, Bool.false_eq_true, if_false, List.length_append,
        List.length_cons, List.length_nil, List.append_assoc, List.cons_append,
        List.nil_append] at hf ⊢
      have hkey := nextToken_key (ws0 ++ ind2) key
        (58 :: 32 :: (tv ++ 44 :: 10 :: (tm ++ 10 :: (ws ++ 125 :: rest))))
        (ws_append hws0 hws2) hplain
      simp only [List.append_assoc] at hkey
      rw [hkey.2.2.2]
      have hval := rt_value v (lvl + 1) tv (44 :: 10 :: (tm ++ 10 :: (ws ++ 125 :: rest))) g
        hpar.2.1 hb.2.1 hn.2.1 hv rfl (by omega)
      have hval2 : parseValue g
          (nextToken (58 :: 32 :: (tv ++ 44 :: 10 :: (tm ++ 10 :: (ws ++ 125 :: rest))))).2 =
          some (some v, 44 :: 10 :: (tm ++ 10 :: (ws ++ 125 :: rest))) := by
        rw [nextToken_cons_colon]
        exact (parseValue_append_ws [32] _ (by decide) g).trans hval
      rw [objectLoop_more g acc _ _ _ v hkey.1 (by rw [nextToken_cons_colon]) hval2
        (by rw [nextToken_cons_comma]), nextToken_cons_comma, hkey.2.1, hkey.2.2.1, hcopy]
      have ih := rt_pairs (q :: more2) lvl tm [10] ws rest (acc ++ [(some key, v)]) g
        hpar.2.2 hb.2.2 hn.2.2 (List.cons_ne_nil _ _) hm (by decide) hws (by omega)
      simpa using ih

end

/-! ## What the parser guarantees of the tree it builds -/

theorem scanString_ge (s : List Nat) (n : Int) : n ≤ (scanString s n).2 := by
  induction s, n using scanString.induct with
  | case1 n => simp [scanString]
  | case2 c rest n h => rw [scanString.eq_def]; simp only [if_pos h]; omega
  | case3 c n h1 h2 => rw [scanString, if_neg h1, if_pos h2]
  | case4 c n h1 h2 d rest2 hd ih =>
    rw [scanString, if_neg h1, if_pos h2]
    simp only [hd, if_true]
    omega
  | case5 c n h1 h2 d rest2 hd =>
    rw [scanString, if_neg h1, if_pos h2]
    simp only [hd, Bool.false_eq_true, if_false]
    omega
  | case6 c rest n h1 h2 ih =>
    rw [scanString.eq_def]; simp only [if_neg h1, if_neg h2]
    omega

/-- The characters counted by the string scan: no NUL among them, and no quote
before the first backslash. -/
theorem scanString_copied (s : List Nat) (n : Int) :
    ∀ k : Nat, (k : Int) ≤ (scanString s n).2 - n →
      0 ∉ s.take k ∧ (92 ∉ s.take k → 34 ∉ s.take k) := by
  induction s, n using scanString.induct with
  | case1 n => intro k _; simp
  | case2 c rest n h =>
    intro k hk
    rw [scanString.eq_def] at hk
    simp only [if_pos h] at hk
    have : k = 0 := by omega
    subst this; simp
  | case3 c n h1 h2 =>
    intro k hk
    rw [scanString, if_neg h1, if_pos h2] at hk
    have : k = 0 := by omega
    subst this; simp
  | case4 c n h1 h2 d rest2 hd ih =>
    intro k hk
    rw [scanString, if_neg h1, if_pos h2] at hk
    simp only [hd, if_true] at hk
    simp only [beq_iff_eq] at h2
    simp only [bne_iff_ne, ne_eq] at hd
    subst h2
    match k with
    | 0 => simp
    | 1 => simp
    | k2 + 2 =>
      have := ih k2 (by push_cast at hk ⊢; omega)
      simp only [List.take_succ_cons, List.mem_cons, not_or, true_or, not_true_eq_false,
        false_and, false_implies, and_true]
      exact ⟨by omega, fun e => hd e.symm, this.1⟩
  | case5 c n h1 h2 d rest2 hd =>
    intro k hk
    rw [scanString, if_neg h1, if_pos h2] at hk
    simp only [hd, Bool.false_eq_true, if_false] at hk
    have : k = 0 := by omega
    subst this; simp
  | case6 c rest n h1 h2 ih =>
    intro k hk
    rw [scanString.eq_def] at hk
    simp only [if_neg h1, if_neg h2] at hk
    simp only [Bool.or_eq_true, beq_iff_eq, not_or] at h1
    simp only [beq_iff_eq] at h2
    match k with
    | 0 => simp
    | k2 + 1 =>
      have := ih k2 (by push_cast at hk ⊢; omega)
      simp only [List.take_succ_cons, List.mem_cons, not_or]
      refine ⟨⟨fun e => h1.1 e.symm, this.1⟩, fun hb => ⟨fun e => h1.2 e.symm, this.2 hb.2⟩⟩

theorem copy_string_copied (s : List Nat) (k : Int) (r : List Nat)
    (hk : k ≤ (scanString s 1).2 - 1) (h : copy_string (some s) k = some r) :
    copiedText r ∧ (r.length : Int) = k := by
  have hc := scanString_count s 1
  by_cases h0 : k ≤ 0
  · simp [copy_string, h0] at h
  · by_cases h1 : (2147483646 : Int) < k
    · simp [copy_string, h0, h1] at h
    · simp only [copy_string, h0, if_false, gt_iff_lt] at h
      have h1b : ¬ ((2147483647 : Int) - 1 < k) := by omega
      simp only [h1b, if_false, Option.some.injEq] at h
      subst h
      have hl : ((s.take k.toNat).length : Int) = k := by
        rw [List.length_take]; omega
      have hsc := scanString_copied s 1 k.toNat (by omega)
      refine ⟨⟨?_, by omega, hsc.1, hsc.2⟩, hl⟩
      intro he
      rw [he] at hl
      simp at hl; omega

theorem scanKeyword_type (ty : JsonTokenType) (tail X : List Nat) (h : ty ≠ TOKEN_STRING) :
    (scanKeyword ty tail X).1 ≠ TOKEN_STRING := by
  rw [scanKeyword]
  split_ifs
  · exact h
  · intro e; cases e

theorem ite_fst_ne {α β : Type} (b : Prop) [Decidable b] (x y : α × β) (T : α)
    (hx : x.1 ≠ T) (hy : y.1 ≠ T) : (if b then x else y).1 ≠ T := by
  split <;> assumption

theorem scanToken_not_string (c : Nat) (X : List Nat) (hc : ¬ (c == 34) = true) :
    (scanToken c X).1 ≠ TOKEN_STRING := by
  rw [scanToken]
  refine ite_fst_ne _ _ _ _ (by intro e; cases e) ?_
  refine ite_fst_ne _ _ _ _ (by intro e; cases e) ?_
  refine ite_fst_ne _ _ _ _ (by intro e; cases e) ?_
  refine ite_fst_ne _ _ _ _ (by intro e; cases e) ?_
  refine ite_fst_ne _ _ _ _ (by intro e; cases e) ?_
  refine ite_fst_ne _ _ _ _ (by intro e; cases e) ?_
  rw [if_neg hc]
  refine ite_fst_ne _ _ _ _ (scanKeyword_type _ _ _ (by decide)) ?_
  refine ite_fst_ne _ _ _ _ (scanKeyword_type _ _ _ (by decide)) ?_
  refine ite_fst_ne _ _ _ _ (scanKeyword_type _ _ _ (by decide)) ?_
  refine ite_fst_ne _ _ _ _ (scanKeyword_type _ _ _ (by decide)) ?_
  refine ite_fst_ne _ _ _ _ (scanKeyword_type _ _ _ (by decide)) ?_
  refine ite_fst_ne _ _ _ _ (scanKeyword_type _ _ _ (by decide)) ?_
  exact ite_fst_ne _ _ _ _ (by intro e; cases e) (by intro e; cases e)

theorem scanToken_string (c : Nat) (X : List Nat) (h : (scanToken c X).1 = TOKEN_STRING) :
    c = 34 ∧ scanToken c X = scanStringToken X := by
  by_cases hc : (c == 34) = true
  · simp only [beq_iff_eq] at hc
    subst hc
    exact ⟨rfl, rfl⟩
  · exact absurd h (scanToken_not_string c X hc)

/-- A String token starts at a quote and counts what the string scan counted. -/
theorem string_token_form (input : List Nat)
    (h : (nextToken input).1.type = TOKEN_STRING) :
    ∃ s, (nextToken input).1.start = some (34 :: s) ∧
      (nextToken input).1.length = (scanString s 1).2 + 1 := by
  rw [nextToken, tokenAt] at h ⊢
  split_ifs at h ⊢ with h0
  simp only at h ⊢
  · obtain ⟨hc, hs⟩ := scanToken_string _ _ h
    cases hX : (skipWhitespace input 1 1).1 with
    | nil => rw [hX] at hc; simp [peek] at hc
    | cons c s =>
      rw [hX] at hc hs h
      simp only [peek, List.headD_cons] at hc hs h ⊢
      subst hc
      refine ⟨s, rfl, ?_⟩
      rw [hs] at h ⊢
      rw [scanStringToken] at h ⊢
      split_ifs at h ⊢
      rfl

theorem AllItems_append {P : JsonValue → Prop} {K : Option (List Nat) → Prop}
    (acc : List JsonValue) (v : JsonValue) (h1 : AllItems P K acc) (h2 : v.All P K) :
    AllItems P K (acc ++ [v]) := by
  induction acc with
  | nil => exact ⟨h2, trivial⟩
  | cons a more ih =>
    simp only [List.cons_append, AllItems] at h1 ⊢
    exact ⟨h1.1, ih h1.2⟩

theorem AllPairs_append {P : JsonValue → Prop} {K : Option (List Nat) → Prop}
    (acc : List (Option (List Nat) × JsonValue)) (k : Option (List Nat)) (v : JsonValue)
    (h1 : AllPairs P K acc) (hk : K k) (h2 : v.All P K) :
    AllPairs P K (acc ++ [(k, v)]) := by
  induction acc with
  | nil => exact ⟨hk, h2, trivial⟩
  | cons a more ih =>
    obtain ⟨ka, va⟩ := a
    simp only [List.cons_append, AllPairs] at h1 ⊢
    exact ⟨h1.1, h1.2.1, ih h1.2.2⟩

theorem parseString_parsed (input : List Nat) (v : JsonValue)
    (ht : (nextToken input).1.type = TOKEN_STRING)
    (h : parseString (nextToken input).1 = some v) : v.All parsedNode parsedKey := by
  obtain ⟨s, hs, hl⟩ := string_token_form input ht
  simp only [parseString, ht, ne_eq, not_true_eq_false, if_false, hs, Option.map_some',
    List.tail_cons, hl, create_string] at h
  cases hc : copy_string (some s) ((scanString s 1).2 + 1 - 2) with
  | none => rw [hc] at h; simp at h
  | some d =>
    rw [hc] at h
    simp only [Option.some.injEq] at h
    subst h
    have := copy_string_copied s _ d (by omega) hc
    exact ⟨this.1, this.2.symm⟩

theorem key_parsed (input : List Nat) (ht : (nextToken input).1.type = TOKEN_STRING) :
    parsedKey (copy_string ((nextToken input).1.start.map List.tail)
      ((nextToken input).1.length - 2)) := by
  obtain ⟨s, hs, hl⟩ := string_token_form input ht
  rw [hs, hl]
  simp only [Option.map_some', List.tail_cons]
  cases hc : copy_string (some s) ((scanString s 1).2 + 1 - 2) with
  | none => trivial
  | some d => exact (copy_string_copied s _ d (by omega) hc).1

theorem parseLiteral_parsed (tok : JsonToken) (v : JsonValue)
    (h : parseLiteral tok = some v) : v.All parsedNode parsedKey := by
  rw [parseLiteral] at h
  split_ifs at h <;> simp only [Option.some.injEq] at h <;> subst h
  · exact Or.inr rfl
  · exact Or.inl rfl
  · trivial

/-- Every tree the parser returns has the guaranteed shape, for each of the
five mutually recursive functions. -/
theorem parser_invariant (fuel : Nat) :
    (∀ input v rest, parseValue fuel input = some (some v, rest) →
      v.All parsedNode parsedKey) ∧
    (∀ input v rest, parseObject fuel input = some (some v, rest) →
      v.All parsedNode parsedKey) ∧
    (∀ acc X input v rest, AllPairs parsedNode parsedKey acc →
      parseObjectLoop fuel (.object acc) (nextToken X).1 input = some (some v, rest) →
      v.All parsedNode parsedKey) ∧
    (∀ input v rest, parseArray fuel input = some (some v, rest) →
      v.All parsedNode parsedKey) ∧
    (∀ acc input v rest, AllItems parsedNode parsedKey acc →
      parseArrayLoop fuel (.array acc) input = some (some v, rest) →
      v.All parsedNode parsedKey) := by
  induction fuel with
  | zero =>
    refine ⟨?_, ?_, ?_, ?_, ?_⟩ <;> intros <;> simp_all [parseValue, parseObject,
      parseObjectLoop, parseArray, parseArrayLoop]
  | succ f ih =>
    obtain ⟨ihV, ihO, ihOL, ihA, ihAL⟩ := ih
    refine ⟨?_, ?_, ?_, ?_, ?_⟩
    · intro input v rest h
      rw [parseValue] at h
      split at h
      next ht =>
        simp only [Option.some.injEq, Prod.mk.injEq] at h
        exact parseString_parsed input v ht h.1
      next ht =>
        simp only [parseNumber, ht, ne_eq, not_true_eq_false, if_false, Option.some.injEq,
          Prod.mk.injEq] at h
        rw [← h.1]
        trivial
      next ht =>
        simp only [Option.some.injEq, Prod.mk.injEq] at h
        exact parseLiteral_parsed _ v h.1
      next ht =>
        simp only [Option.some.injEq, Prod.mk.injEq] at h
        exact parseLiteral_parsed _ v h.1
      next ht =>
        simp only [Option.some.injEq, Prod.mk.injEq] at h
        exact parseLiteral_parsed _ v h.1
      next ht => exact ihO _ v rest h
      next ht => exact ihA _ v rest h
      next => simp at h
    · intro input v rest h
      rw [parseObject] at h
      split_ifs at h with ht
      · simp only [Option.some.injEq, Prod.mk.injEq] at h
        rw [← h.1]
        exact ⟨trivial, trivial⟩
      · exact ihOL [] input _ v rest trivial h
    · intro acc X input v rest hacc h
      rw [parseObjectLoop] at h
      split_ifs at h with ht hc
      · simp at h
      · simp at h
      · simp only [ne_eq, not_not] at ht
        split at h
        · simp at h
        · simp at h
        next value input3 hv =>
          have hval := ihV _ value input3 hv
          have hpairs := AllPairs_append acc _ value hacc (key_parsed X ht) hval
          split_ifs at h with h1 h2
          · simp only [add_to_object, Option.some.injEq, Prod.mk.injEq] at h
            rw [← h.1]
            exact ⟨trivial, hpairs⟩
          · simp at h
          · exact ihOL _ _ _ v rest hpairs h
    · intro input v rest h
      rw [parseArray] at h
      exact ihAL [] input v rest trivial h
    · intro acc input v rest hacc h
      rw [parseArrayLoop] at h
      split at h
      · simp at h
      · simp at h
      next value input1 hv =>
        have hval := ihV _ value input1 hv
        have hitems := AllItems_append acc value hacc hval
        split_ifs at h with h1 h2
        · simp only [add_to_array, Option.some.injEq, Prod.mk.injEq] at h
          rw [← h.1]
          exact ⟨by simp [parsedNode], hitems⟩
        · simp at h
        · exact ihAL _ _ v rest hitems h

/-- The round trip of a tree the parser built, under the two conditions on
its texts and numbers. -/
theorem roundtrip_of_parsed (fuel : Nat) (input rest text : List Nat) (v : JsonValue)
    (h1 : parseValue fuel input = some (some v, rest)) (h2 : print_json v 0 = some text)
    (h3 : NoBackslash v) (h4 : NumbersSurvive v) :
    parse text = some (some v) := by
  have hinv : v.All parsedNode parsedKey := (parser_invariant fuel).1 input v rest h1
  have := rt_value v 0 text [] (fuelFor text) hinv h3 h4 h2 rfl (by rw [fuelFor]; omega)
  rw [List.append_nil] at this
  rw [parse, this]
  rfl

/-- A Number that six decimals do not hold breaks the round trip as well:
`1e-7` is written `0.000000`, which parses to zero. -/
theorem roundtrip_fails_on_small_number :
    parse (bytes "1e-7") = some (some (.number (.finite false 944473296573929 (-73)))) ∧
    print_json (.number (.finite false 944473296573929 (-73))) 0 = some (bytes "0.000000") ∧
    parse (bytes "0.000000") = some (some (.number (.finite false 0 0))) := by
  exact ⟨rfl, rfl, rfl⟩

/-! ## Progress of the cursor and the bound on the recursion -/

theorem skipWhitespace_length (input : List Nat) :
    ∀ line column : Int, (skipWhitespace input line column).1.length ≤ input.length := by
  induction input with
  | nil => intro line column; simp [skipWhitespace]
  | cons c rest ih =>
    intro line column
    rw [skipWhitespace]
    split_ifs
    · exact Nat.le_succ_of_le (ih _ _)
    · exact Nat.le_succ_of_le (ih _ _)
    · exact Nat.le_refl _

theorem scanString_length (s : List Nat) (n : Int) :
    (scanString s n).1.length ≤ s.length := by
  induction s, n using scanString.induct with
  | case1 n => simp [scanString]
  | case2 c rest n h => rw [scanString.eq_def]; simp only [if_pos h]; exact Nat.le_refl _
  | case3 c n h1 h2 => rw [scanString, if_neg h1, if_pos h2]; simp
  | case4 c n h1 h2 d rest2 hd ih =>
    rw [scanString, if_neg h1, if_pos h2]
    simp only [hd, if_true, List.length_cons]
    omega
  | case5 c n h1 h2 d rest2 hd =>
    rw [scanString, if_neg h1, if_pos h2]
    simp only [hd, Bool.false_eq_true, if_false, List.length_cons]
    omega
  | case6 c rest n h1 h2 ih =>
    rw [scanString.eq_def]; simp only [if_neg h1, if_neg h2, List.length_cons]
    omega

theorem scanDigits_length (s : List Nat) :
    ∀ n : Int, (scanDigits s n).1.length ≤ s.length := by
  induction s with
  | nil => intro n; simp [scanDigits]
  | cons c rest ih =>
    intro n
    rw [scanDigits]
    split_ifs
    · exact Nat.le_succ_of_le (ih _)
    · exact Nat.le_refl _

theorem tail_length_le (s : List Nat) : s.tail.length ≤ s.length := by
  cases s <;> simp

theorem scanFraction_length (s : List Nat) (n : Int) :
    (scanFraction s n).1.length ≤ s.length := by
  rw [scanFraction]
  split_ifs
  · exact Nat.le_trans (scanDigits_length _ _) (tail_length_le s)
  · exact Nat.le_refl _

theorem scanExponent_length (s : List Nat) (n : Int) :
    (scanExponent s n).1.length ≤ s.length := by
  rw [scanExponent]
  split_ifs
  · exact Nat.le_trans (scanDigits_length _ _)
      (Nat.le_trans (tail_length_le _) (tail_length_le s))
  · exact Nat.le_trans (scanDigits_length _ _) (tail_length_le s)
  · exact Nat.le_refl _

theorem scanNumberBody_length (c : Nat) (rest : List Nat)
    (hc : (isDigitC c || c == 45) = true) :
    (scanNumberBody c (c :: rest)).1.length ≤ rest.length := by
  have key : (scanDigits (if (c == 45) = true then (c :: rest).tail else c :: rest) 0).1.length
      ≤ rest.length := by
    split_ifs with h45
    · exact scanDigits_length _ _
    · have hd : isDigitC c = true := by
        simpa [h45] using hc
      have h0 : (c != 0) = true := by
        rw [isDigitC_iff] at hd; simp; omega
      rw [scanDigits]
      simp only [h0, hd, Bool.and_self, if_true]
      exact scanDigits_length _ _
  rw [scanNumberBody]
  exact Nat.le_trans (scanExponent_length _ _) (Nat.le_trans (scanFraction_length _ _) key)

theorem ite_cursor_le {α β : Type} (b : Prop) [Decidable b] (x y : α × β × List Nat) (k : Nat)
    (hx : x.2.2.length ≤ k) (hy : y.2.2.length ≤ k) :
    (if b then x else y).2.2.length ≤ k := by
  split <;> assumption

theorem scanKeyword_length (ty : JsonTokenType) (tail : List Nat) (c : Nat) (rest : List Nat) :
    (scanKeyword ty tail (c :: rest)).2.2.length ≤ rest.length := by
  rw [scanKeyword]
  split_ifs
  · simp
  · simp

theorem scanStringToken_length (c : Nat) (rest : List Nat) :
    (scanStringToken (c :: rest)).2.2.length ≤ rest.length := by
  rw [scanStringToken]
  split_ifs
  · exact Nat.le_trans (tail_length_le _) (scanString_length _ _)
  · exact scanString_length _ _

/-- Every token but the end of input moves the cursor by at least one
character. -/
theorem scanToken_length (c : Nat) (rest : List Nat) :
    (scanToken c (c :: rest)).2.2.length ≤ rest.length := by
  rw [scanToken]
  refine ite_cursor_le _ _ _ _ (Nat.le_refl _) ?_
  refine ite_cursor_le _ _ _ _ (Nat.le_refl _) ?_
  refine ite_cursor_le _ _ _ _ (Nat.le_refl _) ?_
  refine ite_cursor_le _ _ _ _ (Nat.le_refl _) ?_
  refine ite_cursor_le _ _ _ _ (Nat.le_refl _) ?_
  refine ite_cursor_le _ _ _ _ (Nat.le_refl _) ?_
  refine ite_cursor_le _ _ _ _ (scanStringToken_length _ _) ?_
  refine ite_cursor_le _ _ _ _ (scanKeyword_length _ _ _ _) ?_
  refine ite_cursor_le _ _ _ _ (scanKeyword_length _ _ _ _) ?_
  refine ite_cursor_le _ _ _ _ (scanKeyword_length _ _ _ _) ?_
  refine ite_cursor_le _ _ _ _ (scanKeyword_length _ _ _ _) ?_
  refine ite_cursor_le _ _ _ _ (scanKeyword_length _ _ _ _) ?_
  refine ite_cursor_le _ _ _ _ (scanKeyword_length _ _ _ _) ?_
  split_ifs with hn
  · exact scanNumberBody_length c rest hn
  · exact Nat.le_refl _

theorem nextToken_length (input : List Nat) :
    (nextToken input).2.length ≤ input.length ∧
    ((nextToken input).1.type ≠ TOKEN_EOF → (nextToken input).2.length < input.length) := by
  have hskip := skipWhitespace_length input 1 1
  rw [nextToken, tokenAt]
  cases hX : (skipWhitespace input 1 1).1 with
  | nil =>
    rw [hX] at hskip
    simp [peek]
  | cons c rest =>
    rw [hX] at hskip
    simp only [peek, List.headD_cons, List.length_cons] at hskip ⊢
    split_ifs with h0
    · simp only [List.length_cons, ne_eq, not_true_eq_false, false_implies, and_true]
      exact hskip
    · have := scanToken_length c rest
      simp only
      constructor
      · omega
      · intro _; omega

theorem nextToken_le (input : List Nat) : (nextToken input).2.length ≤ input.length :=
  (nextToken_length input).1

theorem nextToken_lt (input : List Nat) (t : JsonTokenType) (h : (nextToken input).1.type = t)
    (ht : t ≠ TOKEN_EOF) : (nextToken input).2.length < input.length :=
  (nextToken_length input).2 (h ▸ ht)

/-- The parser never moves the cursor backwards. -/
theorem parser_cursor (fuel : Nat) :
    (∀ input r rest, parseValue fuel input = some (r, rest) → rest.length ≤ input.length) ∧
    (∀ input r rest, parseObject fuel input = some (r, rest) → rest.length ≤ input.length) ∧
    (∀ obj tok input r rest, parseObjectLoop fuel obj tok input = some (r, rest) →
      rest.length ≤ input.length) ∧
    (∀ input r rest, parseArray fuel input = some (r, rest) → rest.length ≤ input.length) ∧
    (∀ acc input r rest, parseArrayLoop fuel acc input = some (r, rest) →
      rest.length ≤ input.length) := by
  induction fuel with
  | zero =>
    refine ⟨?_, ?_, ?_, ?_, ?_⟩ <;> intros <;> simp_all [parseValue, parseObject,
      parseObjectLoop, parseArray, parseArrayLoop]
  | succ f ih =>
    obtain ⟨ihV, ihO, ihOL, ihA, ihAL⟩ := ih
    refine ⟨?_, ?_, ?_, ?_, ?_⟩
    · intro input r rest h
      have hle := nextToken_le input
      rw [parseValue] at h
      split at h
      all_goals first
        | (simp only [Option.some.injEq, Prod.mk.injEq] at h; rw [← h.2]; exact hle)
        | exact Nat.le_trans (ihO _ _ _ h) hle
        | exact Nat.le_trans (ihA _ _ _ h) hle
    · intro input r rest h
      have hle := nextToken_le input
      rw [parseObject] at h
      split_ifs at h
      · simp only [Option.some.injEq, Prod.mk.injEq] at h; rw [← h.2]; exact hle
      · exact Nat.le_trans (ihOL _ _ _ _ _ h) hle
    · intro obj tok input r rest h
      have hle := nextToken_le input
      rw [parseObjectLoop] at h
      split_ifs at h
      · simp only [Option.some.injEq, Prod.mk.injEq] at h; rw [← h.2]
      · simp only [Option.some.injEq, Prod.mk.injEq] at h; rw [← h.2]; exact hle
      · split at h
        · simp at h
        next input3 hv =>
          simp only [Option.some.injEq, Prod.mk.injEq] at h; rw [← h.2]
          exact Nat.le_trans (ihV _ _ _ hv) hle
        next value input3 hv =>
          have h3 := Nat.le_trans (ihV _ _ _ hv) hle
          have h4 := nextToken_le input3
          split_ifs at h
          · simp only [Option.some.injEq, Prod.mk.injEq] at h; rw [← h.2]; omega
          · simp only [Option.some.injEq, Prod.mk.injEq] at h; rw [← h.2]; omega
          · have h5 := nextToken_le (nextToken input3).2
            have := ihOL _ _ _ _ _ h
            omega
    · intro input r rest h
      rw [parseArray] at h
      exact ihAL _ _ _ _ h
    · intro acc input r rest h
      rw [parseArrayLoop] at h
      split at h
      · simp at h
      next input1 hv =>
        simp only [Option.some.injEq, Prod.mk.injEq] at h; rw [← h.2]
        exact ihV _ _ _ hv
      next value input1 hv =>
        have h1 := ihV _ _ _ hv
        have h2 := nextToken_le input1
        split_ifs at h
        · simp only [Option.some.injEq, Prod.mk.injEq] at h; rw [← h.2]; omega
        · simp only [Option.some.injEq, Prod.mk.injEq] at h; rw [← h.2]; omega
        · have := ihAL _ _ _ _ h
          omega

/-- Three rounds per character are enough: with that bound none of the five
functions stops for lack of it. -/
theorem parser_fuel (fuel : Nat) :
    (∀ input, 3 * input.length + 1 ≤ fuel → parseValue fuel input ≠ none) ∧
    (∀ input, 3 * input.length + 2 ≤ fuel → parseObject fuel input ≠ none) ∧
    (∀ obj tok input, 3 * input.length + 1 ≤ fuel →
      parseObjectLoop fuel obj tok input ≠ none) ∧
    (∀ input, 3 * input.length + 3 ≤ fuel → parseArray fuel input ≠ none) ∧
    (∀ acc input, 3 * input.length + 2 ≤ fuel → parseArrayLoop fuel acc input ≠ none) := by
  induction fuel with
  | zero =>
    refine ⟨?_, ?_, ?_, ?_, ?_⟩ <;> intros <;> omega
  | succ f ih =>
    obtain ⟨ihV, ihO, ihOL, ihA, ihAL⟩ := ih
    refine ⟨?_, ?_, ?_, ?_, ?_⟩
    · intro input hf
      rw [parseValue]
      split
      next ht => simp
      next ht => simp
      next ht => simp
      next ht => simp
      next ht => simp
      next ht =>
        have := nextToken_lt input _ ht (by decide)
        exact ihO _ (by omega)
      next ht =>
        have := nextToken_lt input _ ht (by decide)
        exact ihA _ (by omega)
      next => simp
    · intro input hf
      have := nextToken_le input
      rw [parseObject]
      split_ifs
      · simp
      · exact ihOL _ _ _ (by omega)
    · intro obj tok input hf
      rw [parseObjectLoop]
      split_ifs with hs hc
      · simp
      · simp
      · simp only [ne_eq, not_not] at hc
        have h2 := nextToken_lt input _ hc (by decide)
        cases hv : parseValue f (nextToken input).2 with
        | none => exact absurd hv (ihV _ (by omega))
        | some p =>
          obtain ⟨r, input3⟩ := p
          have h3 := (parser_cursor f).1 _ _ _ hv
          cases r with
          | none => simp
          | some value =>
            simp only
            split_ifs with h4 h5
            · simp
            · simp
            · simp only [ne_eq, not_not] at h5
              have h6 := nextToken_lt input3 _ h5 (by decide)
              have h7 := nextToken_le (nextToken input3).2
              exact ihOL _ _ _ (by omega)
    · intro input hf
      rw [parseArray]
      exact ihAL _ _ (by omega)
    · intro acc input hf
      rw [parseArrayLoop]
      cases hv : parseValue f input with
      | none => exact absurd hv (ihV _ (by omega))
      | some p =>
        obtain ⟨r, input1⟩ := p
        have h1 := (parser_cursor f).1 _ _ _ hv
        cases r with
        | none => simp
        | some value =>
          simp only
          split_ifs with h4 h5
          · simp
          · simp
          · simp only [ne_eq, not_not] at h5
            have h6 := nextToken_lt input1 _ h5 (by decide)
            exact ihAL _ _ (by omega)

/-- More rounds change nothing of a result. -/
theorem parser_mono (fuel : Nat) :
    (∀ input r, parseValue fuel input = some r → parseValue (fuel + 1) input = some r) ∧
    (∀ input r, parseObject fuel input = some r → parseObject (fuel + 1) input = some r) ∧
    (∀ obj tok input r, parseObjectLoop fuel obj tok input = some r →
      parseObjectLoop (fuel + 1) obj tok input = some r) ∧
    (∀ input r, parseArray fuel input = some r → parseArray (fuel + 1) input = some r) ∧
    (∀ acc input r, parseArrayLoop fuel acc input = some r →
      parseArrayLoop (fuel + 1) acc input = some r) := by
  induction fuel with
  | zero =>
    refine ⟨?_, ?_, ?_, ?_, ?_⟩ <;> intros <;> simp_all [parseValue, parseObject,
      parseObjectLoop, parseArray, parseArrayLoop]
  | succ f ih =>
    obtain ⟨ihV, ihO, ihOL, ihA, ihAL⟩ := ih
    refine ⟨?_, ?_, ?_, ?_, ?_⟩
    · intro input r h
      rw [parseValue] at h ⊢
      cases ht : (nextToken input).1.type <;> simp only [ht] at h ⊢ <;>
        first
        | exact h
        | exact ihO _ _ h
        | exact ihA _ _ h
    · intro input r h
      rw [parseObject] at h ⊢
      split_ifs at h ⊢
      · exact h
      · exact ihOL _ _ _ _ h
    · intro obj tok input r h
      rw [parseObjectLoop] at h ⊢
      split_ifs at h ⊢
      · exact h
      · exact h
      · cases hv : parseValue f (nextToken input).2 with
        | none => rw [hv] at h; simp at h
        | some p =>
          rw [hv] at h
          rw [ihV _ _ hv]
          obtain ⟨r1, input3⟩ := p
          cases r1 with
          | none => exact h
          | some value =>
            simp only at h ⊢
            split_ifs at h ⊢
            · exact h
            · exact h
            · exact ihOL _ _ _ _ h
    · intro input r h
      rw [parseArray] at h ⊢
      exact ihAL _ _ _ h
    · intro acc input r h
      rw [parseArrayLoop] at h ⊢
      cases hv : parseValue f input with
      | none => rw [hv] at h; simp at h
      | some p =>
        rw [hv] at h
        rw [ihV _ _ hv]
        obtain ⟨r1, input1⟩ := p
        cases r1 with
        | none => exact h
        | some value =>
          simp only at h ⊢
          split_ifs at h ⊢
          · exact h
          · exact h
          · exact ihAL _ _ _ h

theorem parseValue_mono_le (f : Nat) (input : List Nat) (r : Option JsonValue × List Nat)
    (h : parseValue f input = some r) : ∀ k, parseValue (f + k) input = some r := by
  intro k
  induction k with
  | zero => exact h
  | succ k ih => exact (parser_mono (f + k)).1 input r ih

/-- The bound `fuelFor` is never reached: `parse` always has a result. -/
theorem parse_total (input : List Nat) : ∃ r, parse input = some r := by
  cases hp : parseValue (fuelFor input) input with
  | none => exact absurd hp ((parser_fuel (fuelFor input)).1 input (by rw [fuelFor]; omega))
  | some p => exact ⟨p.1, by rw [parse, hp]; rfl⟩

/-- Whatever `parseValue` returns under some bound, `parse` returns. -/
theorem parse_of_parseValue (fuel : Nat) (input rest : List Nat) (r : Option JsonValue)
    (h : parseValue fuel input = some (r, rest)) : parse input = some r := by
  rcases Nat.le_total fuel (fuelFor input) with hle | hle
  · obtain ⟨k, hk⟩ := Nat.exists_eq_add_of_le hle
    have := parseValue_mono_le fuel input _ h k
    rw [parse, hk, this]
    rfl
  · obtain ⟨p, hp⟩ : ∃ p, parseValue (fuelFor input) input = some p := by
      cases hp : parseValue (fuelFor input) input with
      | none =>
        exact absurd hp ((parser_fuel (fuelFor input)).1 input (by rw [fuelFor]; omega))
      | some p => exact ⟨p, rfl⟩
    obtain ⟨k, hk⟩ := Nat.exists_eq_add_of_le hle
    have := parseValue_mono_le (fuelFor input) input _ hp k
    rw [← hk, h] at this
    rw [parse, hp]
    injection this with this
    rw [← this]
    rfl

/-! ## The branches of the tokenizer -/

/-- The branch the `switch` of `nextToken` takes on each character. -/
theorem scanToken_cases (c : Nat) (X : List Nat) :
    (c = 123 ∧ scanToken c X = (TOKEN_OBJECT_START, 1, X.tail)) ∨
    (c = 125 ∧ scanToken c X = (TOKEN_OBJECT_END, 1, X.tail)) ∨
    (c = 91 ∧ scanToken c X = (TOKEN_ARRAY_START, 1, X.tail)) ∨
    (c = 93 ∧ scanToken c X = (TOKEN_ARRAY_END, 1, X.tail)) ∨
    (c = 58 ∧ scanToken c X = (TOKEN_COLON, 1, X.tail)) ∨
    (c = 44 ∧ scanToken c X = (TOKEN_COMMA, 1, X.tail)) ∨
    (c = 34 ∧ scanToken c X = scanStringToken X) ∨
    (c = 116 ∧ scanToken c X = scanKeyword TOKEN_TRUE [114, 117, 101] X) ∨
    (c = 84 ∧ scanToken c X = scanKeyword TOKEN_TRUE [82, 85, 69] X) ∨
    (c = 102 ∧ scanToken c X = scanKeyword TOKEN_FALSE [97, 108, 115, 101] X) ∨
    (c = 70 ∧ scanToken c X = scanKeyword TOKEN_FALSE [65, 76, 83, 69] X) ∨
    (c = 110 ∧ scanToken c X = scanKeyword TOKEN_NULL [117, 108, 108] X) ∨
    (c = 78 ∧ scanToken c X = scanKeyword TOKEN_NULL [85, 76, 76] X) ∨
    ((isDigitC c = true ∨ c = 45) ∧
      scanToken c X = (TOKEN_NUMBER, (scanNumberBody c X).2, (scanNumberBody c X).1)) ∨
    (scanToken c X = (TOKEN_ERROR, 1, X.tail)) := by
  by_cases h1 : (c == 123) = true
  · left; exact ⟨by simpa using h1, by rw [scanToken, if_pos h1]⟩
  right
  by_cases h2 : (c == 125) = true
  · left; exact ⟨by simpa using h2, by rw [scanToken, if_neg h1, if_pos h2]⟩
  right
  by_cases h3 : (c == 91) = true
  · left; exact ⟨by simpa using h3, by rw [scanToken, if_neg h1, if_neg h2, if_pos h3]⟩
  right
  by_cases h4 : (c == 93) = true
  · left; exact ⟨by simpa using h4, by rw [scanToken, if_neg h1, if_neg h2, if_neg h3, if_pos h4]⟩
  right
  by_cases h5 : (c == 58) = true
  · left
    exact ⟨by simpa using h5,
      by rw [scanToken, if_neg h1, if_neg h2, if_neg h3, if_neg h4, if_pos h5]⟩
  right
  by_cases h6 : (c == 44) = true
  · left
    exact ⟨by simpa using h6,
      by rw [scanToken, if_neg h1, if_neg h2, if_neg h3, if_neg h4, if_neg h5, if_pos h6]⟩
  right
  by_cases h7 : (c == 34) = true
  · left
    exact ⟨by simpa using h7,
      by rw [scanToken, if_neg h1, if_neg h2, if_neg h3, if_neg h4, if_neg h5, if_neg h6,
        if_pos h7]⟩
  right
  by_cases h8 : (c == 116) = true
  · left
    exact ⟨by simpa using h8,
      by rw [scanToken, if_neg h1, if_neg h2, if_neg h3, if_neg h4, if_neg h5, if_neg h6,
        if_neg h7, if_pos h8]⟩
  right
  by_cases h9 : (c == 84) = true
  · left
    exact ⟨by simpa using h9,
      by rw [scanToken, if_neg h1, if_neg h2, if_neg h3, if_neg h4, if_neg h5, if_neg h6,
        if_neg h7, if_neg h8, if_pos h9]⟩
  right
  by_cases h10 : (c == 102) = true
  · left
    exact ⟨by simpa using h10,
      by rw [scanToken, if_neg h1, if_neg h2, if_neg h3, if_neg h4, if_neg h5, if_neg h6,
        if_neg h7, if_neg h8, if_neg h9, if_pos h10]⟩
  right
  by_cases h11 : (c == 70) = true
  · left
    exact ⟨by simpa using h11,
      by rw [scanToken, if_neg h1, if_neg h2, if_neg h3, if_neg h4, if_neg h5, if_neg h6,
        if_neg h7, if_neg h8, if_neg h9, if_neg h10, if_pos h11]⟩
  right
  by_cases h12 : (c == 110) = true
  · left
    exact ⟨by simpa using h12,
      by rw [scanToken, if_neg h1, if_neg h2, if_neg h3, if_neg h4, if_neg h5, if_neg h6,
        if_neg h7, if_neg h8, if_neg h9, if_neg h10, if_neg h11, if_pos h12]⟩
  right
  by_cases h13 : (c == 78) = true
  · left
    exact ⟨by simpa using h13,
      by rw [scanToken, if_neg h1, if_neg h2, if_neg h3, if_neg h4, if_neg h5, if_neg h6,
        if_neg h7, if_neg h8, if_neg h9, if_neg h10, if_neg h11, if_neg h12, if_pos h13]⟩
  right
  by_cases h14 : (isDigitC c || c == 45) = true
  · left
    exact ⟨by simpa using h14,
      by rw [scanToken, if_neg h1, if_neg h2, if_neg h3, if_neg h4, if_neg h5, if_neg h6,
        if_neg h7, if_neg h8, if_neg h9, if_neg h10, if_neg h11, if_neg h12, if_neg h13,
        if_pos h14]⟩
  right
  rw [scanToken, if_neg h1, if_neg h2, if_neg h3, if_neg h4, if_neg h5, if_neg h6,
    if_neg h7, if_neg h8, if_neg h9, if_neg h10, if_neg h11, if_neg h12, if_neg h13,
    if_neg h14]

/-- The whitespace loop stops in front of the first character that is not
whitespace. -/
theorem skipWhitespace_split (input : List Nat) :
    ∀ line column : Int, ∃ ws, input = ws ++ (skipWhitespace input line column).1 ∧
      (∀ c ∈ ws, isWhitespace c = true) ∧
      isWhitespace (peek (skipWhitespace input line column).1) = false := by
  induction input with
  | nil => intro line column; exact ⟨[], rfl, by simp, rfl⟩
  | cons c rest ih =>
    intro line column
    by_cases hc : isWhitespace c = true
    · have h0 := isWhitespace_ne_zero hc
      rw [skipWhitespace]
      simp only [h0, hc, Bool.and_self, if_true]
      split_ifs
      · obtain ⟨ws, h1, h2, h3⟩ := ih (line + 1) 1
        exact ⟨c :: ws, by rw [List.cons_append, ← h1], ws_cons hc h2, h3⟩
      · obtain ⟨ws, h1, h2, h3⟩ := ih line (column + 1)
        exact ⟨c :: ws, by rw [List.cons_append, ← h1], ws_cons hc h2, h3⟩
    · have hc2 : isWhitespace c = false := by simpa using hc
      rw [skipWhitespace]
      simp only [hc2, Bool.and_false, Bool.false_eq_true, if_false]
      exact ⟨[], rfl, by simp, by simpa [peek] using hc2⟩

theorem scanKeyword_fst (ty : JsonTokenType) (tail X : List Nat) :
    ((scanKeyword ty tail X).1 = ty ∧ X.tail.take tail.length = tail) ∨
    (scanKeyword ty tail X).1 = TOKEN_ERROR := by
  rw [scanKeyword]
  split_ifs with h
  · left; exact ⟨rfl, by simpa using h⟩
  · right; rfl

theorem scanStringToken_fst (X : List Nat) :
    (scanStringToken X).1 = TOKEN_STRING ∨ (scanStringToken X).1 = TOKEN_ERROR := by
  rw [scanStringToken]
  split_ifs
  · left; rfl
  · right; rfl

/-- A keyword token comes from one of its two letters followed by the rest of
the spelling. -/
theorem scanToken_keyword (c : Nat) (X : List Nat) (ty : JsonTokenType)
    (hty : ty = TOKEN_TRUE ∨ ty = TOKEN_FALSE ∨ ty = TOKEN_NULL)
    (h : (scanToken c X).1 = ty) :
    (ty = TOKEN_TRUE ∧ ((c = 116 ∧ X.tail.take 3 = [114, 117, 101]) ∨
      (c = 84 ∧ X.tail.take 3 = [82, 85, 69]))) ∨
    (ty = TOKEN_FALSE ∧ ((c = 102 ∧ X.tail.take 4 = [97, 108, 115, 101]) ∨
      (c = 70 ∧ X.tail.take 4 = [65, 76, 83, 69]))) ∨
    (ty = TOKEN_NULL ∧ ((c = 110 ∧ X.tail.take 3 = [117, 108, 108]) ∨
      (c = 78 ∧ X.tail.take 3 = [85, 76, 76]))) := by
  have key : ∀ (k : JsonTokenType) (tail : List Nat), scanToken c X = scanKeyword k tail X →
      k = ty ∧ X.tail.take tail.length = tail := by
    intro k tail e
    rw [e] at h
    rcases scanKeyword_fst k tail X with ⟨h1, h2⟩ | h1
    · exact ⟨h1.symm.trans h, h2⟩
    · rw [h1] at h
      rcases hty with r | r | r <;> rw [r] at h <;> cases h
  have no : ∀ (k : JsonTokenType) (n : Int) (Y : List Nat), scanToken c X = (k, n, Y) →
      k ≠ TOKEN_TRUE → k ≠ TOKEN_FALSE → k ≠ TOKEN_NULL → False := by
    intro k n Y e h1 h2 h3
    rw [e] at h
    simp only at h
    rcases hty with r | r | r <;> rw [r] at h
    · exact h1 h
    · exact h2 h
    · exact h3 h
  rcases scanToken_cases c X with ⟨_, e⟩ | ⟨_, e⟩ | ⟨_, e⟩ | ⟨_, e⟩ | ⟨_, e⟩ | ⟨_, e⟩ | ⟨_, e⟩ |
    ⟨hc, e⟩ | ⟨hc, e⟩ | ⟨hc, e⟩ | ⟨hc, e⟩ | ⟨hc, e⟩ | ⟨hc, e⟩ | ⟨_, e⟩ | e
  · exact (no _ _ _ e (by decide) (by decide) (by decide)).elim
  · exact (no _ _ _ e (by decide) (by decide) (by decide)).elim
  · exact (no _ _ _ e (by decide) (by decide) (by decide)).elim
  · exact (no _ _ _ e (by decide) (by decide) (by decide)).elim
  · exact (no _ _ _ e (by decide) (by decide) (by decide)).elim
  · exact (no _ _ _ e (by decide) (by decide) (by decide)).elim
  · rw [e] at h
    rcases scanStringToken_fst X with h1 | h1 <;> rw [h1] at h <;>
      rcases hty with r | r | r <;> rw [r] at h <;> cases h
  · obtain ⟨h1, h2⟩ := key _ _ e
    exact Or.inl ⟨h1.symm, Or.inl ⟨hc, h2⟩⟩
  · obtain ⟨h1, h2⟩ := key _ _ e
    exact Or.inl ⟨h1.symm, Or.inr ⟨hc, h2⟩⟩
  · obtain ⟨h1, h2⟩ := key _ _ e
    exact Or.inr (Or.inl ⟨h1.symm, Or.inl ⟨hc, h2⟩⟩)
  · obtain ⟨h1, h2⟩ := key _ _ e
    exact Or.inr (Or.inl ⟨h1.symm, Or.inr ⟨hc, h2⟩⟩)
  · obtain ⟨h1, h2⟩ := key _ _ e
    exact Or.inr (Or.inr ⟨h1.symm, Or.inl ⟨hc, h2⟩⟩)
  · obtain ⟨h1, h2⟩ := key _ _ e
    exact Or.inr (Or.inr ⟨h1.symm, Or.inr ⟨hc, h2⟩⟩)
  · exact (no _ _ _ e (by decide) (by decide) (by decide)).elim
  · exact (no _ _ _ e (by decide) (by decide) (by decide)).elim


theorem spelled_of_take (c : Nat) (X w : List Nat) (hc : peek X = c) (h0 : c ≠ 0)
    (h : X.tail.take w.length = w) : c :: w <+: X := by
  cases X with
  | nil => simp [peek] at hc; exact absurd hc.symm h0
  | cons d rest =>
    simp only [peek, List.headD_cons] at hc
    subst hc
    simp only [List.tail_cons] at h
    refine ⟨rest.drop w.length, ?_⟩
    rw [List.cons_append]
    congr 1
    have := List.take_append_drop w.length rest
    rw [h] at this
    exact this

/-- The type of the next token, for each keyword: it is that keyword's exactly
when the text after the whitespace begins with one of its two spellings. -/
theorem keyword_type_iff (input : List Nat) (ty : JsonTokenType) (lo up : List Nat)
    (h : (ty = TOKEN_TRUE ∧ lo = bytes "true" ∧ up = bytes "TRUE") ∨
      (ty = TOKEN_FALSE ∧ lo = bytes "false" ∧ up = bytes "FALSE") ∨
      (ty = TOKEN_NULL ∧ lo = bytes "null" ∧ up = bytes "NULL")) :
    (nextToken input).1.type = ty ↔
      (lo <+: (skipWhitespace input 1 1).1 ∨ up <+: (skipWhitespace input 1 1).1) := by
  rw [nextToken]
  generalize (skipWhitespace input 1 1).1 = X
  generalize (skipWhitespace input 1 1).2.1 = line
  generalize (skipWhitespace input 1 1).2.2 = column
  constructor
  · intro ht
    rw [tokenAt] at ht
    split_ifs at ht with h0
    · simp only at ht
      rcases h with ⟨r, -, -⟩ | ⟨r, -, -⟩ | ⟨r, -, -⟩ <;> rw [r] at ht <;> cases ht
    · simp only at ht
      have hty : ty = TOKEN_TRUE ∨ ty = TOKEN_FALSE ∨ ty = TOKEN_NULL := by
        rcases h with ⟨r, -, -⟩ | ⟨r, -, -⟩ | ⟨r, -, -⟩
        · exact Or.inl r
        · exact Or.inr (Or.inl r)
        · exact Or.inr (Or.inr r)
      rcases scanToken_keyword _ X ty hty ht with ⟨r, k⟩ | ⟨r, k⟩ | ⟨r, k⟩ <;>
        rcases h with ⟨r2, rfl, rfl⟩ | ⟨r2, rfl, rfl⟩ | ⟨r2, rfl, rfl⟩ <;>
        first
        | (rw [r] at r2; cases r2; done)
        | (rcases k with ⟨k1, k2⟩ | ⟨k1, k2⟩
           · exact Or.inl (spelled_of_take _ X _ k1 (by decide) k2)
           · exact Or.inr (spelled_of_take _ X _ k1 (by decide) k2))
  · intro hs
    rcases h with ⟨rfl, rfl, rfl⟩ | ⟨rfl, rfl, rfl⟩ | ⟨rfl, rfl, rfl⟩ <;>
      rcases hs with ⟨r, rfl⟩ | ⟨r, rfl⟩ <;> rfl

/-! ## The position a token carries -/

theorem trail_cons_newline (ws : List Nat) :
    ((10 :: ws).reverse.takeWhile (· != 10)).length =
      if 10 ∈ ws then (ws.reverse.takeWhile (· != 10)).length else ws.length := by
  rw [List.reverse_cons, List.takeWhile_append]
  split_ifs with h1 h2 h2
  · exfalso
    rw [List.length_reverse] at h1
    have hall : ∀ x ∈ ws.reverse, (x != 10) = true := by
      intro x hx
      have : ws.reverse.takeWhile (· != 10) = ws.reverse :=
        (List.takeWhile_prefix _).eq_of_length (by rw [h1, List.length_reverse])
      exact List.takeWhile_eq_self_iff.mp this x hx
    have := hall 10 (List.mem_reverse.mpr h2)
    simp at this
  · simp [List.takeWhile, h1]
  · rfl
  · exfalso
    apply h1
    have : ws.reverse.takeWhile (· != 10) = ws.reverse := by
      rw [List.takeWhile_eq_self_iff]
      intro x hx
      have hx2 := List.mem_reverse.mp hx
      simp only [bne_iff_ne, ne_eq]
      intro e; exact h2 (e ▸ hx2)
    rw [this]

theorem trail_cons_other (c : Nat) (ws : List Nat) (hc : c ≠ 10) :
    ((c :: ws).reverse.takeWhile (· != 10)).length =
      if 10 ∈ ws then (ws.reverse.takeWhile (· != 10)).length else ws.length + 1 := by
  rw [List.reverse_cons, List.takeWhile_append]
  have hcb : (c != 10) = true := by simpa using hc
  split_ifs with h1 h2 h2
  · exfalso
    rw [List.length_reverse] at h1
    have hall : ∀ x ∈ ws.reverse, (x != 10) = true := by
      intro x hx
      have : ws.reverse.takeWhile (· != 10) = ws.reverse :=
        (List.takeWhile_prefix _).eq_of_length (by rw [h1, List.length_reverse])
      exact List.takeWhile_eq_self_iff.mp this x hx
    have := hall 10 (List.mem_reverse.mpr h2)
    simp at this
  · simp [List.takeWhile, hcb]
  · rfl
  · exfalso
    apply h1
    have : ws.reverse.takeWhile (· != 10) = ws.reverse := by
      rw [List.takeWhile_eq_self_iff]
      intro x hx
      have hx2 := List.mem_reverse.mp hx
      simp only [bne_iff_ne, ne_eq]
      intro e; exact h2 (e ▸ hx2)
    rw [this]

/-- The position the whitespace loop counts: lines by the newlines it skips,
columns from the last of them, or from the column it started with. -/
theorem skipWhitespace_position (ws X : List Nat) (hws : ∀ c ∈ ws, isWhitespace c = true)
    (hX : isWhitespace (peek X) = false) :
    ∀ line column : Int,
      skipWhitespace (ws ++ X) line column =
        (X, line + ws.count 10,
          if 10 ∈ ws then 1 + ((ws.reverse.takeWhile (· != 10)).length : Int)
          else column + ws.length) := by
  induction ws with
  | nil =>
    intro line column
    cases X with
    | nil => simp [skipWhitespace]
    | cons c rest =>
      simp only [peek, List.headD_cons] at hX
      simp [skipWhitespace, hX]
  | cons c more ih =>
    intro line column
    have hc := hws c (List.mem_cons_self _ _)
    have hm : ∀ x ∈ more, isWhitespace x = true := fun x hx => hws x (List.mem_cons_of_mem _ hx)
    rw [List.cons_append, skipWhitespace]
    simp only [isWhitespace_ne_zero hc, hc, Bool.and_self, if_true]
    by_cases h10 : c = 10
    · subst h10
      simp only [beq_self_eq_true, if_true, ih hm, List.count_cons_self, List.mem_cons,
        true_or, trail_cons_newline]
      refine Prod.ext rfl (Prod.ext ?_ ?_)
      · simp only; omega
      · simp only
        split_ifs <;> omega
    · have hb : (c == 10) = false := by simpa using h10
      have hne : ¬ (10 = c) := fun e => h10 e.symm
      simp only [hb, Bool.false_eq_true, if_false, ih hm, List.mem_cons, hne, false_or,
        trail_cons_other c more h10, List.length_cons]
      refine Prod.ext rfl (Prod.ext ?_ ?_)
      · simp only [List.count_cons_of_ne hne]
      · simp only
        split_ifs <;> push_cast <;> omega

/-- The position the token carries is that of its first character, counted
from the cursor at the call. -/
theorem nextToken_position (ws X : List Nat) (hws : ∀ c ∈ ws, isWhitespace c = true)
    (hX : isWhitespace (peek X) = false) :
    (nextToken (ws ++ X)).1.line = sourceLine ws ∧
    (nextToken (ws ++ X)).1.column = sourceColumn ws := by
  have h := skipWhitespace_position ws X hws hX 1 1
  have hcol : (if 10 ∈ ws then 1 + ((ws.reverse.takeWhile (· != 10)).length : Int)
      else 1 + ws.length) = sourceColumn ws := by
    rw [sourceColumn]
    split_ifs with h10
    · rfl
    · have : ws.reverse.takeWhile (· != 10) = ws.reverse := by
        rw [List.takeWhile_eq_self_iff]
        intro x hx
        have hx2 := List.mem_reverse.mp hx
        simp only [bne_iff_ne, ne_eq]
        intro e; exact h10 (e ▸ hx2)
      rw [this, List.length_reverse]
  have h2 : skipWhitespace (ws ++ X) 1 1 = (X, sourceLine ws, sourceColumn ws) := by
    rw [h, hcol]; rfl
  rw [nextToken, h2, tokenAt]
  split_ifs
  · exact ⟨rfl, rfl⟩
  · exact ⟨rfl, rfl⟩

/-! ## The cursor never passes the terminator -/

theorem advancesTo_refl (l : List Nat) : advancesTo l l := ⟨[], rfl, by simp⟩

theorem advancesTo_trans {a b c : List Nat} (h1 : advancesTo a b) (h2 : advancesTo b c) :
    advancesTo a c := by
  obtain ⟨p, rfl, hp⟩ := h1
  obtain ⟨q, rfl, hq⟩ := h2
  refine ⟨p ++ q, by simp, ?_⟩
  intro h
  rcases List.mem_append.mp h with h | h
  · exact hp h
  · exact hq h

theorem advancesTo_cons {c : Nat} (l : List Nat) (hc : c ≠ 0) : advancesTo (c :: l) l :=
  ⟨[c], rfl, by simpa using hc.symm⟩

theorem advancesTo_tail (X : List Nat) (h : peek X ≠ 0) : advancesTo X X.tail := by
  cases X with
  | nil => exact advancesTo_refl _
  | cons c rest => exact advancesTo_cons rest (by simpa [peek] using h)

theorem scanString_advances (s : List Nat) (n : Int) : advancesTo s (scanString s n).1 := by
  induction s, n using scanString.induct with
  | case1 n => rw [scanString]; exact advancesTo_refl _
  | case2 c rest n h =>
    rw [scanString.eq_def]; simp only [if_pos h]; exact advancesTo_refl _
  | case3 c n h1 h2 =>
    rw [scanString, if_neg h1, if_pos h2]
    simp only [Bool.or_eq_true, beq_iff_eq, not_or] at h1
    exact advancesTo_cons [] h1.1
  | case4 c n h1 h2 d rest2 hd ih =>
    rw [scanString, if_neg h1, if_pos h2]
    simp only [hd, if_true]
    simp only [Bool.or_eq_true, beq_iff_eq, not_or] at h1
    simp only [bne_iff_ne, ne_eq] at hd
    exact advancesTo_trans (advancesTo_cons _ h1.1) (advancesTo_trans (advancesTo_cons _ hd) ih)
  | case5 c n h1 h2 d rest2 hd =>
    rw [scanString, if_neg h1, if_pos h2]
    simp only [hd, Bool.false_eq_true, if_false]
    simp only [Bool.or_eq_true, beq_iff_eq, not_or] at h1
    exact advancesTo_cons _ h1.1
  | case6 c rest n h1 h2 ih =>
    rw [scanString.eq_def]; simp only [if_neg h1, if_neg h2]
    simp only [Bool.or_eq_true, beq_iff_eq, not_or] at h1
    exact advancesTo_trans (advancesTo_cons _ h1.1) ih

theorem scanDigits_advances (s : List Nat) :
    ∀ n : Int, advancesTo s (scanDigits s n).1 := by
  induction s with
  | nil => intro n; exact advancesTo_refl _
  | cons c rest ih =>
    intro n
    rw [scanDigits]
    split_ifs with h
    · simp only [Bool.and_eq_true, bne_iff_ne, ne_eq] at h
      exact advancesTo_trans (advancesTo_cons _ h.1) (ih _)
    · exact advancesTo_refl _

theorem peek_ne_zero_of_eq {X : List Nat} {c : Nat} (h : (peek X == c) = true) (hc : c ≠ 0) :
    peek X ≠ 0 := by
  simp only [beq_iff_eq] at h
  rw [h]; exact hc

theorem scanFraction_advances (s : List Nat) (n : Int) :
    advancesTo s (scanFraction s n).1 := by
  rw [scanFraction]
  split_ifs with h
  · exact advancesTo_trans (advancesTo_tail s (peek_ne_zero_of_eq h (by decide)))
      (scanDigits_advances _ _)
  · exact advancesTo_refl _

theorem scanExponent_advances (s : List Nat) (n : Int) :
    advancesTo s (scanExponent s n).1 := by
  rw [scanExponent]
  split_ifs with h h2
  · have h1 : peek s ≠ 0 := by
      simp only [Bool.or_eq_true, beq_iff_eq] at h
      rcases h with h | h <;> rw [h] <;> decide
    have h3 : peek s.tail ≠ 0 := by
      simp only [Bool.or_eq_true, beq_iff_eq] at h2
      rcases h2 with h | h <;> rw [h] <;> decide
    exact advancesTo_trans (advancesTo_tail s h1)
      (advancesTo_trans (advancesTo_tail _ h3) (scanDigits_advances _ _))
  · have h1 : peek s ≠ 0 := by
      simp only [Bool.or_eq_true, beq_iff_eq] at h
      rcases h with h | h <;> rw [h] <;> decide
    exact advancesTo_trans (advancesTo_tail s h1) (scanDigits_advances _ _)
  · exact advancesTo_refl _

theorem scanNumberBody_advances (X : List Nat) (h0 : peek X ≠ 0) :
    advancesTo X (scanNumberBody (peek X) X).1 := by
  rw [scanNumberBody]
  refine advancesTo_trans ?_ (scanExponent_advances _ _)
  refine advancesTo_trans ?_ (scanFraction_advances _ _)
  split_ifs
  · exact advancesTo_trans (advancesTo_tail X h0) (scanDigits_advances _ _)
  · exact scanDigits_advances _ _

theorem scanKeyword_advances (ty : JsonTokenType) (tail X : List Nat) (h0 : peek X ≠ 0)
    (ht : 0 ∉ tail) : advancesTo X (scanKeyword ty tail X).2.2 := by
  rw [scanKeyword]
  split_ifs with h
  · simp only [beq_iff_eq] at h
    refine advancesTo_trans (advancesTo_tail X h0) ⟨X.tail.take tail.length, ?_, ?_⟩
    · exact (List.take_append_drop _ _).symm
    · rw [h]; exact ht
  · exact advancesTo_tail X h0

theorem scanStringToken_advances (X : List Nat) (h0 : peek X ≠ 0) :
    advancesTo X (scanStringToken X).2.2 := by
  rw [scanStringToken]
  split_ifs with h
  · exact advancesTo_trans (advancesTo_tail X h0)
      (advancesTo_trans (scanString_advances _ _)
        (advancesTo_tail _ (peek_ne_zero_of_eq h (by decide))))
  · exact advancesTo_trans (advancesTo_tail X h0) (scanString_advances _ _)

theorem scanToken_advances (X : List Nat) (h0 : peek X ≠ 0) :
    advancesTo X (scanToken (peek X) X).2.2 := by
  have ht := advancesTo_tail X h0
  rcases scanToken_cases (peek X) X with ⟨_, e⟩ | ⟨_, e⟩ | ⟨_, e⟩ | ⟨_, e⟩ | ⟨_, e⟩ | ⟨_, e⟩ |
    ⟨_, e⟩ | ⟨_, e⟩ | ⟨_, e⟩ | ⟨_, e⟩ | ⟨_, e⟩ | ⟨_, e⟩ | ⟨_, e⟩ | ⟨_, e⟩ | e <;> rw [e]
  · exact ht
  · exact ht
  · exact ht
  · exact ht
  · exact ht
  · exact ht
  · exact scanStringToken_advances X h0
  · exact scanKeyword_advances _ _ X h0 (by decide)
  · exact scanKeyword_advances _ _ X h0 (by decide)
  · exact scanKeyword_advances _ _ X h0 (by decide)
  · exact scanKeyword_advances _ _ X h0 (by decide)
  · exact scanKeyword_advances _ _ X h0 (by decide)
  · exact scanKeyword_advances _ _ X h0 (by decide)
  · exact scanNumberBody_advances X h0
  · exact ht

/-- The cursor after `nextToken` is reached over characters none of which is
the terminator. -/
theorem nextToken_advances (input : List Nat) : advancesTo input (nextToken input).2 := by
  obtain ⟨ws, h1, h2, -⟩ := skipWhitespace_split input 1 1
  have hskip : advancesTo input (skipWhitespace input 1 1).1 := by
    refine ⟨ws, h1, ?_⟩
    intro h
    have := h2 0 h
    simp [isWhitespace] at this
  refine advancesTo_trans hskip ?_
  rw [nextToken, tokenAt]
  split_ifs with h0
  · exact advancesTo_refl _
  · exact scanToken_advances _ (by simpa using h0)

theorem scanToken_not_eof (c : Nat) (X : List Nat) : (scanToken c X).1 ≠ TOKEN_EOF := by
  rcases scanToken_cases c X with ⟨_, e⟩ | ⟨_, e⟩ | ⟨_, e⟩ | ⟨_, e⟩ | ⟨_, e⟩ | ⟨_, e⟩ |
    ⟨_, e⟩ | ⟨_, e⟩ | ⟨_, e⟩ | ⟨_, e⟩ | ⟨_, e⟩ | ⟨_, e⟩ | ⟨_, e⟩ | ⟨_, e⟩ | e <;> rw [e]
  any_goals (intro h; cases h)
  · rcases scanStringToken_fst X with h | h <;> rw [h] <;> decide
  all_goals
    rcases scanKeyword_fst _ _ X with ⟨h, _⟩ | h <;> rw [h] <;> decide

/-- The next token is the end of input exactly when the whitespace loop stops
at the terminator. -/
theorem nextToken_eof_iff (input : List Nat) :
    (nextToken input).1.type = TOKEN_EOF ↔ peek (skipWhitespace input 1 1).1 = 0 := by
  rw [nextToken, tokenAt]
  split_ifs with h0
  · simp only [true_iff]
    simpa using h0
  · simp only
    constructor
    · intro h; exact absurd h (scanToken_not_eof _ _)
    · intro h; exact absurd (by simpa using h) h0

theorem cstr_append_ws (ws X : List Nat) (hws : ∀ c ∈ ws, isWhitespace c = true) :
    cstr (ws ++ X) = ws ++ cstr X := by
  rw [cstr, cstr]
  exact List.takeWhile_append_of_pos (fun c hc => isWhitespace_ne_zero (hws c hc))

/-- The end of input is returned exactly when only whitespace remains before
the terminator. -/
theorem nextToken_eof_iff_ws (input : List Nat) :
    (nextToken input).1.type = TOKEN_EOF ↔ ∀ c ∈ cstr input, isWhitespace c = true := by
  rw [nextToken_eof_iff]
  obtain ⟨ws, h1, h2, h3⟩ := skipWhitespace_split input 1 1
  generalize (skipWhitespace input 1 1).1 = X at h1 h3 ⊢
  subst h1
  rw [cstr_append_ws ws X h2]
  cases X with
  | nil =>
    simp only [peek, List.headD_nil, true_iff]
    intro c hc
    exact h2 c (by simpa [cstr] using hc)
  | cons d rest =>
    simp only [peek, List.headD_cons] at h3 ⊢
    constructor
    · intro hd
      subst hd
      intro c hc
      exact h2 c (by simpa [cstr, List.takeWhile] using hc)
    · intro hall
      by_contra hd
      have hmem : d ∈ ws ++ cstr (d :: rest) := by
        have : (d != 0) = true := by simpa using hd
        simp [cstr, List.takeWhile, this]
      have := hall d hmem
      rw [h3] at this
      cases this

/-! ## What follows a value does not change it -/

theorem stopsAt_mono {p q : Nat → Bool} {t : List Nat} (hpq : ∀ c, q c = true → p c = true)
    (h : stopsAt p t) : stopsAt q t := by
  cases t with
  | nil => trivial
  | cons c r =>
    simp only [stopsAt] at h ⊢
    cases hq : q c with
    | false => rfl
    | true => rw [hpq c hq] at h; exact absurd h (by decide)

theorem numberChar_digit (c : Nat) (h : isDigitC c = true) : numberChar c = true := by
  simp [numberChar, h]

theorem peek_frame {X t : List Nat} (ht : stopsAt numberChar t) {c : Nat}
    (hc : numberChar c = true) : (peek (X ++ t) == c) = (peek X == c) := by
  cases X with
  | cons x r => rfl
  | nil =>
    have h0 : (peek ([] : List Nat) == c) = false := by
      simp only [peek, List.headD_nil, beq_eq_false_iff_ne, ne_eq]
      intro h; subst h; simp [numberChar, isDigitC] at hc
    rw [h0, List.nil_append]
    cases t with
    | nil => exact h0
    | cons y r =>
      simp only [stopsAt] at ht
      simp only [peek, List.headD_cons, beq_eq_false_iff_ne, ne_eq]
      intro h; subst h; rw [hc] at ht; exact absurd ht (by decide)

theorem ne_nil_of_peek {X : List Nat} {c : Nat} (h : (peek X == c) = true) (hc : c ≠ 0) :
    X ≠ [] := by
  intro hX; subst hX
  simp only [peek, List.headD_nil, beq_iff_eq] at h
  exact hc h.symm

theorem tail_frame (X t : List Nat) (h : X ≠ []) : (X ++ t).tail = X.tail ++ t := by
  cases X with
  | nil => exact absurd rfl h
  | cons x r => rfl

theorem scanDigits_frame (X t : List Nat) (ht : stopsAt isDigitC t) :
    ∀ n : Int, scanDigits (X ++ t) n = ((scanDigits X n).1 ++ t, (scanDigits X n).2) := by
  induction X with
  | nil =>
    intro n
    have := scanDigits_run [] t (by simp) ht n
    simpa [scanDigits] using this
  | cons c rest ih =>
    intro n
    rw [List.cons_append, scanDigits, scanDigits]
    split_ifs
    · exact ih _
    · rfl

theorem scanFraction_frame (X t : List Nat) (ht : stopsAt numberChar t) (n : Int) :
    scanFraction (X ++ t) n = ((scanFraction X n).1 ++ t, (scanFraction X n).2) := by
  have hd : stopsAt isDigitC t := stopsAt_mono numberChar_digit ht
  rw [scanFraction, scanFraction, peek_frame ht (by decide)]
  split_ifs with h
  · rw [tail_frame _ _ (ne_nil_of_peek h (by decide))]
    exact scanDigits_frame _ _ hd _
  · rfl

theorem scanExponent_frame (X t : List Nat) (ht : stopsAt numberChar t) (n : Int) :
    scanExponent (X ++ t) n = ((scanExponent X n).1 ++ t, (scanExponent X n).2) := by
  have hd : stopsAt isDigitC t := stopsAt_mono numberChar_digit ht
  rw [scanExponent, scanExponent, peek_frame ht (by decide : numberChar 101 = true),
    peek_frame ht (by decide : numberChar 69 = true)]
  by_cases h : (peek X == 101 || peek X == 69) = true
  · have hX : X ≠ [] := by
      simp only [Bool.or_eq_true] at h
      rcases h with h | h
      · exact ne_nil_of_peek h (by decide)
      · exact ne_nil_of_peek h (by decide)
    rw [if_pos h, if_pos h, tail_frame _ _ hX,
      peek_frame ht (by decide : numberChar 43 = true),
      peek_frame ht (by decide : numberChar 45 = true)]
    by_cases h2 : (peek X.tail == 43 || peek X.tail == 45) = true
    · have hX2 : X.tail ≠ [] := by
        simp only [Bool.or_eq_true] at h2
        rcases h2 with h2 | h2
        · exact ne_nil_of_peek h2 (by decide)
        · exact ne_nil_of_peek h2 (by decide)
      rw [if_pos h2, if_pos h2, tail_frame _ _ hX2]
      exact scanDigits_frame _ _ hd _
    · rw [if_neg h2, if_neg h2]
      exact scanDigits_frame _ _ hd _
  · rw [if_neg h, if_neg h]

theorem scanNumberBody_frame (c : Nat) (X t : List Nat) (ht : stopsAt numberChar t)
    (hX : X ≠ []) :
    scanNumberBody c (X ++ t) = ((scanNumberBody c X).1 ++ t, (scanNumberBody c X).2) := by
  have hd : stopsAt isDigitC t := stopsAt_mono numberChar_digit ht
  have h1 : (if (c == 45) = true then (X ++ t).tail else X ++ t) =
      (if (c == 45) = true then X.tail else X) ++ t := by
    split_ifs
    · exact tail_frame _ _ hX
    · rfl
  rw [scanNumberBody, scanNumberBody, h1, scanDigits_frame _ _ hd]
  simp only
  rw [scanFraction_frame _ _ ht]
  simp only
  rw [scanExponent_frame _ _ ht]

theorem scanString_frame (X t : List Nat) (n : Int) (h : peek (scanString X n).1 = 34) :
    scanString (X ++ t) n = ((scanString X n).1 ++ t, (scanString X n).2) := by
  induction X, n using scanString.induct with
  | case1 n => simp [scanString, peek] at h
  | case2 c rest n hc =>
    rw [List.cons_append, scanString.eq_def, scanString.eq_def]
    simp only [if_pos hc]
    rfl
  | case3 c n h1 h2 =>
    rw [scanString, if_neg h1, if_pos h2] at h
    simp [peek] at h
  | case4 c n h1 h2 d rest2 hd ih =>
    rw [scanString, if_neg h1, if_pos h2] at h
    simp only [hd, if_true] at h
    rw [List.cons_append, List.cons_append, scanString, if_neg h1, if_pos h2]
    simp only [hd, if_true]
    rw [scanString, if_neg h1, if_pos h2]
    simp only [hd, if_true]
    exact ih h
  | case5 c n h1 h2 d rest2 hd =>
    rw [scanString, if_neg h1, if_pos h2] at h
    simp only [hd, Bool.false_eq_true, if_false] at h
    simp only [bne_iff_ne, ne_eq, not_not] at hd
    subst hd
    simp [peek] at h
  | case6 c rest n h1 h2 ih =>
    rw [scanString.eq_def] at h
    simp only [if_neg h1, if_neg h2] at h
    rw [List.cons_append, scanString.eq_def]
    simp only [if_neg h1, if_neg h2]
    rw [ih h]
    conv_rhs => rw [scanString.eq_def]
    simp only [if_neg h1, if_neg h2]

theorem scanStringToken_frame (X t : List Nat) (hX : X ≠ [])
    (h : (scanStringToken X).1 ≠ TOKEN_ERROR) :
    scanStringToken (X ++ t) =
      ((scanStringToken X).1, (scanStringToken X).2.1, (scanStringToken X).2.2 ++ t) := by
  rw [scanStringToken] at h ⊢
  split_ifs at h with hq
  · have hq2 : peek (scanString X.tail 1).1 = 34 := by simpa using hq
    have hne : (scanString X.tail 1).1 ≠ [] := ne_nil_of_peek hq (by decide)
    rw [scanStringToken, tail_frame _ _ hX, scanString_frame _ _ _ hq2]
    simp only
    have : (peek ((scanString X.tail 1).1 ++ t) == 34) = true := by
      cases hs : (scanString X.tail 1).1 with
      | nil => exact absurd hs hne
      | cons a b => rw [hs] at hq; exact hq
    rw [if_pos this, if_pos hq, tail_frame _ _ hne]
  · exact absurd rfl h

theorem scanKeyword_frame (ty : JsonTokenType) (tail X t : List Nat) (hX : X ≠ [])
    (h : (scanKeyword ty tail X).1 ≠ TOKEN_ERROR) :
    scanKeyword ty tail (X ++ t) =
      ((scanKeyword ty tail X).1, (scanKeyword ty tail X).2.1,
        (scanKeyword ty tail X).2.2 ++ t) := by
  rw [scanKeyword] at h ⊢
  split_ifs at h with hq
  · have hq2 : X.tail.take tail.length = tail := by simpa using hq
    have hlen : tail.length ≤ X.tail.length := by
      have := congrArg List.length hq2
      rw [List.length_take] at this
      omega
    rw [scanKeyword, tail_frame _ _ hX,
      List.take_append_of_le_length hlen, List.drop_append_of_le_length hlen, if_pos hq,
      if_pos hq]
  · exact absurd rfl h

theorem scanToken_frame (c : Nat) (X t : List Nat) (ht : stopsAt numberChar t) (hX : X ≠ [])
    (h : (scanToken c X).1 ≠ TOKEN_ERROR) :
    scanToken c (X ++ t) = ((scanToken c X).1, (scanToken c X).2.1, (scanToken c X).2.2 ++ t) := by
  have htl := tail_frame X t hX
  rcases scanToken_cases c X with h1 | h1 | h1 | h1 | h1 | h1 | h1 | h1 | h1 | h1 | h1 | h1 | h1 |
    h1 | h1
  · obtain ⟨hc, he⟩ := h1; subst hc; rw [he]; simp only [scanToken]; simp [htl]
  · obtain ⟨hc, he⟩ := h1; subst hc; rw [he]; simp only [scanToken]; simp [htl]
  · obtain ⟨hc, he⟩ := h1; subst hc; rw [he]; simp only [scanToken]; simp [htl]
  · obtain ⟨hc, he⟩ := h1; subst hc; rw [he]; simp only [scanToken]; simp [htl]
  · obtain ⟨hc, he⟩ := h1; subst hc; rw [he]; simp only [scanToken]; simp [htl]
  · obtain ⟨hc, he⟩ := h1; subst hc; rw [he]; simp only [scanToken]; simp [htl]
  · obtain ⟨hc, he⟩ := h1; subst hc
    have e2 : scanToken 34 (X ++ t) = scanStringToken (X ++ t) := rfl
    rw [he] at h ⊢
    rw [e2]; exact scanStringToken_frame X t hX h
  · obtain ⟨hc, he⟩ := h1; subst hc
    have e2 : scanToken 116 (X ++ t) = scanKeyword TOKEN_TRUE [114, 117, 101] (X ++ t) := rfl
    rw [he] at h ⊢
    rw [e2]; exact scanKeyword_frame _ _ X t hX h
  · obtain ⟨hc, he⟩ := h1; subst hc
    have e2 : scanToken 84 (X ++ t) = scanKeyword TOKEN_TRUE [82, 85, 69] (X ++ t) := rfl
    rw [he] at h ⊢
    rw [e2]; exact scanKeyword_frame _ _ X t hX h
  · obtain ⟨hc, he⟩ := h1; subst hc
    have e2 : scanToken 102 (X ++ t) = scanKeyword TOKEN_FALSE [97, 108, 115, 101] (X ++ t) := rfl
    rw [he] at h ⊢
    rw [e2]; exact scanKeyword_frame _ _ X t hX h
  · obtain ⟨hc, he⟩ := h1; subst hc
    have e2 : scanToken 70 (X ++ t) = scanKeyword TOKEN_FALSE [65, 76, 83, 69] (X ++ t) := rfl
    rw [he] at h ⊢
    rw [e2]; exact scanKeyword_frame _ _ X t hX h
  · obtain ⟨hc, he⟩ := h1; subst hc
    have e2 : scanToken 110 (X ++ t) = scanKeyword TOKEN_NULL [117, 108, 108] (X ++ t) := rfl
    rw [he] at h ⊢
    rw [e2]; exact scanKeyword_frame _ _ X t hX h
  · obtain ⟨hc, he⟩ := h1; subst hc
    have e2 : scanToken 78 (X ++ t) = scanKeyword TOKEN_NULL [85, 76, 76] (X ++ t) := rfl
    rw [he] at h ⊢
    rw [e2]; exact scanKeyword_frame _ _ X t hX h
  · obtain ⟨hc, he⟩ := h1
    rw [he, scanToken_number c (X ++ t) (by tauto), scanNumberBody_frame c X t ht hX]
  · rw [h1] at h; exact absurd rfl h

theorem nextToken_frame (s t : List Nat) (ht : stopsAt numberChar t)
    (h1 : (nextToken s).1.type ≠ TOKEN_EOF) (h2 : (nextToken s).1.type ≠ TOKEN_ERROR) :
    (nextToken (s ++ t)).1.type = (nextToken s).1.type ∧
    (nextToken (s ++ t)).1.start = (nextToken s).1.start.map (· ++ t) ∧
    (nextToken (s ++ t)).1.length = (nextToken s).1.length ∧
    (nextToken (s ++ t)).2 = (nextToken s).2 ++ t := by
  obtain ⟨ws, hs, hws, hnw⟩ := skipWhitespace_split s 1 1
  generalize hXdef : (skipWhitespace s 1 1).1 = X at hs hnw
  have a1 := nextToken_append_ws ws X hws
  have a2 := nextToken_append_ws ws (X ++ t) hws
  rw [← List.append_assoc, ← hs] at a2
  rw [← hs] at a1
  obtain ⟨b1, b2, b3, b4⟩ := a1
  obtain ⟨c1, c2, c3, c4⟩ := a2
  rw [b1] at h1 h2
  rw [b1, b2, b3, b4, c1, c2, c3, c4]
  have hsk : skipWhitespace X 1 1 = (X, 1, 1) := by
    cases X with
    | nil => rfl
    | cons x r =>
      simp only [peek, List.headD_cons] at hnw
      rw [skipWhitespace]; simp [hnw]
  have hX0 : ¬ (peek X == 0) = true := by
    intro h0
    apply h1
    rw [nextToken, hsk, tokenAt, if_pos h0]
  have hX : X ≠ [] := by
    intro hX; subst hX; exact hX0 rfl
  have hpk : peek (X ++ t) = peek X := by
    cases X with
    | nil => exact absurd rfl hX
    | cons x r => rfl
  have hsk2 : skipWhitespace (X ++ t) 1 1 = (X ++ t, 1, 1) := by
    cases X with
    | nil => exact absurd rfl hX
    | cons x r =>
      simp only [peek, List.headD_cons] at hnw
      rw [List.cons_append, skipWhitespace]; simp [hnw]
  rw [nextToken, hsk, tokenAt, if_neg hX0] at h2
  simp only at h2
  have hf := scanToken_frame (peek X) X t ht hX h2
  rw [nextToken, hsk2, nextToken, hsk, tokenAt, tokenAt, hpk, if_neg hX0, if_neg hX0, hf]
  exact ⟨rfl, rfl, rfl, rfl⟩

theorem takeWhile_frame {q : Nat → Bool} (hq : ∀ c, q c = true → numberChar c = true)
    (L t : List Nat) (ht : stopsAt numberChar t) :
    (L ++ t).takeWhile q = L.takeWhile q := by
  induction L with
  | nil => simpa using takeWhile_stop (stopsAt_mono hq ht)
  | cons c r ih =>
    rw [List.cons_append, List.takeWhile_cons, List.takeWhile_cons, ih]

theorem dropWhile_frame {q : Nat → Bool} (hq : ∀ c, q c = true → numberChar c = true)
    (L t : List Nat) (ht : stopsAt numberChar t) :
    (L ++ t).dropWhile q = L.dropWhile q ++ t := by
  induction L with
  | nil => simpa using dropWhile_stop (stopsAt_mono hq ht)
  | cons c r ih =>
    rw [List.cons_append, List.dropWhile_cons, List.dropWhile_cons, ih]
    split_ifs <;> rfl

theorem numberChar_hex (c : Nat) (h : isHexDigitC c = true) : numberChar c = true := by
  simp only [isHexDigitC, Bool.or_eq_true, Bool.and_eq_true, decide_eq_true_eq] at h
  simp only [numberChar, isDigitC, Bool.or_eq_true, Bool.and_eq_true, decide_eq_true_eq,
    beq_iff_eq]
  omega

theorem numberChar_lower (y : Nat) (h : 97 ≤ toLowerC y ∧ toLowerC y ≤ 122) :
    numberChar y = true := by
  simp only [numberChar, isDigitC, Bool.or_eq_true, Bool.and_eq_true, decide_eq_true_eq,
    beq_iff_eq]
  simp only [toLowerC, Bool.and_eq_true, decide_eq_true_eq] at h
  split_ifs at h <;> omega

theorem peekLower_frame {X t : List Nat} (ht : stopsAt numberChar t) {c : Nat}
    (hc : 97 ≤ c ∧ c ≤ 122) : (toLowerC (peek (X ++ t)) == c) = (toLowerC (peek X) == c) := by
  cases X with
  | cons x r => rfl
  | nil =>
    have h0 : (toLowerC (peek ([] : List Nat)) == c) = false := by
      simp only [peek, List.headD_nil, beq_eq_false_iff_ne, ne_eq, toLowerC]
      simp; omega
    rw [h0, List.nil_append]
    cases t with
    | nil => exact h0
    | cons y r =>
      simp only [stopsAt] at ht
      simp only [peek, List.headD_cons, beq_eq_false_iff_ne, ne_eq]
      intro h
      rw [numberChar_lower y (by rw [h]; exact hc)] at ht
      exact absurd ht (by decide)

theorem strtodExponent_frame (lo up : Nat) (L t : List Nat) (ht : stopsAt numberChar t)
    (hlo : numberChar lo = true) (hup : numberChar up = true) :
    strtodExponent lo up (L ++ t) = strtodExponent lo up L := by
  have hd : ∀ c, isDigitC c = true → numberChar c = true := numberChar_digit
  simp only [strtodExponent]
  rw [peek_frame ht hlo, peek_frame ht hup]
  by_cases h : (peek L == lo || peek L == up) = true
  · have hL : L ≠ [] := by
      intro hL; subst hL
      simp only [peek, List.headD_nil, Bool.or_eq_true, beq_iff_eq] at h
      rcases h with h | h
      · rw [← h] at hlo; exact absurd hlo (by decide)
      · rw [← h] at hup; exact absurd hup (by decide)
    rw [if_pos h, if_pos h, tail_frame _ _ hL,
      peek_frame ht (by decide : numberChar 45 = true),
      peek_frame ht (by decide : numberChar 43 = true)]
    by_cases h2 : (peek L.tail == 45 || peek L.tail == 43) = true
    · have hL2 : L.tail ≠ [] := by
        simp only [Bool.or_eq_true] at h2
        rcases h2 with h2 | h2
        · exact ne_nil_of_peek h2 (by decide)
        · exact ne_nil_of_peek h2 (by decide)
      rw [if_pos h2, if_pos h2, tail_frame _ _ hL2, takeWhile_frame hd _ _ ht]
    · rw [if_neg h2, if_neg h2, takeWhile_frame hd _ _ ht]
  · rw [if_neg h, if_neg h]

theorem strtodDecimal_frame (neg : Bool) (L t : List Nat) (ht : stopsAt numberChar t) :
    strtodDecimal neg (L ++ t) = strtodDecimal neg L := by
  have hd : ∀ c, isDigitC c = true → numberChar c = true := numberChar_digit
  simp only [strtodDecimal]
  rw [takeWhile_frame hd _ _ ht, dropWhile_frame hd _ _ ht,
    peek_frame ht (by decide : numberChar 46 = true)]
  by_cases h : (peek (L.dropWhile isDigitC) == 46) = true
  · have hL : L.dropWhile isDigitC ≠ [] := ne_nil_of_peek h (by decide)
    simp only [if_pos h]
    rw [tail_frame _ _ hL, takeWhile_frame hd _ _ ht, dropWhile_frame hd _ _ ht,
      strtodExponent_frame _ _ _ _ ht (by decide) (by decide)]
  · simp only [if_neg h]
    rw [strtodExponent_frame _ _ _ _ ht (by decide) (by decide)]

theorem strtodHex_frame (neg : Bool) (L t : List Nat) (ht : stopsAt numberChar t) :
    strtodHex neg (L ++ t) = strtodHex neg L := by
  have hd : ∀ c, isHexDigitC c = true → numberChar c = true := numberChar_hex
  simp only [strtodHex]
  rw [peek_frame ht (by decide : numberChar 48 = true)]
  by_cases h0 : (peek L == 48) = true
  · have hL : L ≠ [] := ne_nil_of_peek h0 (by decide)
    rw [tail_frame _ _ hL, peekLower_frame ht (by decide : 97 ≤ 120 ∧ 120 ≤ 122)]
    by_cases hx : (toLowerC (peek L.tail) == 120) = true
    · have hL2 : L.tail ≠ [] := by
        intro hL2; rw [hL2] at hx; exact absurd hx (by decide)
      simp only [h0, hx, Bool.and_self, if_true]
      rw [tail_frame _ _ hL2, takeWhile_frame hd _ _ ht, dropWhile_frame hd _ _ ht,
        peek_frame ht (by decide : numberChar 46 = true)]
      by_cases h : (peek (L.tail.tail.dropWhile isHexDigitC) == 46) = true
      · have hL3 : L.tail.tail.dropWhile isHexDigitC ≠ [] := ne_nil_of_peek h (by decide)
        simp only [if_pos h]
        rw [tail_frame _ _ hL3, takeWhile_frame hd _ _ ht, dropWhile_frame hd _ _ ht,
          strtodExponent_frame _ _ _ _ ht (by decide) (by decide)]
      · simp only [if_neg h]
        rw [strtodExponent_frame _ _ _ _ ht (by decide) (by decide)]
    · simp only [hx, Bool.and_false, Bool.false_eq_true, if_false]
  · simp only [h0, Bool.false_and, Bool.false_eq_true, if_false]

theorem keyword3_frame (L t : List Nat) (ht : stopsAt numberChar t) (a b c : Nat)
    (ha : 97 ≤ a ∧ a ≤ 122) (hb : 97 ≤ b ∧ b ≤ 122) (hc : 97 ≤ c ∧ c ≤ 122) :
    (((L ++ t).take 3).map toLowerC == [a, b, c]) = ((L.take 3).map toLowerC == [a, b, c]) := by
  cases t with
  | nil => rw [List.append_nil]
  | cons y r =>
    simp only [stopsAt] at ht
    have hy : ∀ e, 97 ≤ e ∧ e ≤ 122 → toLowerC y ≠ e := by
      intro e he h
      rw [numberChar_lower y (by rw [h]; exact he)] at ht
      exact absurd ht (by decide)
    match L with
    | [] =>
      have : ((([] : List Nat).take 3).map toLowerC == [a, b, c]) = false := by simp
      rw [this, Bool.eq_false_iff]
      intro h
      have := eq_of_beq h
      simp only [List.nil_append, List.take_succ_cons, List.map_cons, List.cons.injEq] at this
      exact hy a ha this.1
    | [x1] =>
      have : ((([x1] : List Nat).take 3).map toLowerC == [a, b, c]) = false := by simp
      rw [this, Bool.eq_false_iff]
      intro h
      have := eq_of_beq h
      simp only [List.cons_append, List.nil_append, List.take_succ_cons, List.map_cons,
        List.cons.injEq] at this
      exact hy b hb this.2.1
    | [x1, x2] =>
      have : ((([x1, x2] : List Nat).take 3).map toLowerC == [a, b, c]) = false := by simp
      rw [this, Bool.eq_false_iff]
      intro h
      have := eq_of_beq h
      simp only [List.cons_append, List.nil_append, List.take_succ_cons, List.map_cons,
        List.cons.injEq] at this
      exact hy c hc this.2.2.1
    | x1 :: x2 :: x3 :: more => rfl

theorem cstr_frame (X t : List Nat) (ht : stopsAt numberChar t) :
    ∃ u, (X ++ t).takeWhile (· != 0) = X.takeWhile (· != 0) ++ u ∧ stopsAt numberChar u := by
  induction X with
  | nil =>
    cases t with
    | nil => exact ⟨[], rfl, trivial⟩
    | cons y r =>
      refine ⟨(y :: r).takeWhile (· != 0), rfl, ?_⟩
      rw [List.takeWhile_cons]
      split_ifs
      · exact ht
      · trivial
  | cons x r ih =>
    obtain ⟨u, h1, h2⟩ := ih
    rw [List.cons_append, List.takeWhile_cons, List.takeWhile_cons]
    split_ifs
    · exact ⟨u, by rw [h1, List.cons_append], h2⟩
    · exact ⟨[], rfl, trivial⟩

/-- What follows a number does not change what `strtod` reads, unless it could
continue the number. -/
theorem strtod_frame (X t : List Nat) (ht : stopsAt numberChar t)
    (hX : numberChar (peek X) = true) : strtod (X ++ t) = strtod X := by
  obtain ⟨u, hu, hstop⟩ := cstr_frame X t ht
  cases X with
  | nil => exact absurd hX (by decide)
  | cons x r =>
    simp only [peek, List.headD_cons] at hX
    have hx0 : (x != 0) = true := by
      simp only [bne_iff_ne, ne_eq]
      intro h; subst h; exact absurd hX (by decide)
    have hsp : isspaceC x = false := by
      simp only [numberChar, isDigitC, Bool.or_eq_true, Bool.and_eq_true, decide_eq_true_eq,
        beq_iff_eq] at hX
      simp only [isspaceC, Bool.or_eq_false_iff, beq_eq_false_iff_ne, ne_eq]
      omega
    rw [List.takeWhile_cons, if_pos hx0] at hu
    have e1 : ((x :: r ++ t).takeWhile (· != 0)).dropWhile isspaceC =
        (x :: r.takeWhile (· != 0)) ++ u := by
      rw [hu, List.cons_append, List.dropWhile_cons]
      simp [hsp]
    have e2 : ((x :: r).takeWhile (· != 0)).dropWhile isspaceC = x :: r.takeWhile (· != 0) := by
      rw [List.takeWhile_cons, if_pos hx0, List.dropWhile_cons]
      simp [hsp]
    rw [strtod_after_skip _ _ e1, strtod_after_skip _ _ e2]
    generalize x :: r.takeWhile (· != 0) = S
    rw [peek_frame hstop (by decide : numberChar 45 = true),
      peek_frame hstop (by decide : numberChar 43 = true)]
    by_cases hs : (peek S == 45 || peek S == 43) = true
    · have hS : S ≠ [] := by
        simp only [Bool.or_eq_true] at hs
        rcases hs with hs | hs
        · exact ne_nil_of_peek hs (by decide)
        · exact ne_nil_of_peek hs (by decide)
      simp only [if_pos hs]
      rw [tail_frame _ _ hS, keyword3_frame _ _ hstop 105 110 102 (by decide) (by decide)
        (by decide), keyword3_frame _ _ hstop 110 97 110 (by decide) (by decide) (by decide),
        strtodHex_frame _ _ _ hstop, strtodDecimal_frame _ _ _ hstop]
    · simp only [if_neg hs]
      rw [keyword3_frame _ _ hstop 105 110 102 (by decide) (by decide)
        (by decide), keyword3_frame _ _ hstop 110 97 110 (by decide) (by decide) (by decide),
        strtodHex_frame _ _ _ hstop, strtodDecimal_frame _ _ _ hstop]

theorem scanToken_number_inv (c : Nat) (X : List Nat) (h : (scanToken c X).1 = TOKEN_NUMBER) :
    numberChar c = true := by
  have hk : ∀ ty tail, ty ≠ TOKEN_NUMBER → (scanKeyword ty tail X).1 ≠ TOKEN_NUMBER := by
    intro ty tail hty
    rcases scanKeyword_fst ty tail X with h2 | h2
    · rw [h2.1]; exact hty
    · rw [h2]; decide
  rcases scanToken_cases c X with ⟨_, he⟩ | ⟨_, he⟩ | ⟨_, he⟩ | ⟨_, he⟩ | ⟨_, he⟩ | ⟨_, he⟩ |
    ⟨_, he⟩ | ⟨_, he⟩ | ⟨_, he⟩ | ⟨_, he⟩ | ⟨_, he⟩ | ⟨_, he⟩ | ⟨_, he⟩ | ⟨hc, he⟩ | he
  · rw [he] at h; simp at h
  · rw [he] at h; simp at h
  · rw [he] at h; simp at h
  · rw [he] at h; simp at h
  · rw [he] at h; simp at h
  · rw [he] at h; simp at h
  · rw [he] at h
    rcases scanStringToken_fst X with h2 | h2 <;> rw [h2] at h <;> exact absurd h (by decide)
  · rw [he] at h; exact absurd h (hk _ _ (by decide))
  · rw [he] at h; exact absurd h (hk _ _ (by decide))
  · rw [he] at h; exact absurd h (hk _ _ (by decide))
  · rw [he] at h; exact absurd h (hk _ _ (by decide))
  · rw [he] at h; exact absurd h (hk _ _ (by decide))
  · rw [he] at h; exact absurd h (hk _ _ (by decide))
  · rcases hc with hc | hc
    · exact numberChar_digit c hc
    · subst hc; rfl
  · rw [he] at h; simp at h

theorem number_token_start (input : List Nat) (h : (nextToken input).1.type = TOKEN_NUMBER) :
    ∃ X, (nextToken input).1.start = some X ∧ numberChar (peek X) = true := by
  rw [nextToken, tokenAt] at h ⊢
  by_cases h0 : (peek (skipWhitespace input 1 1).1 == 0) = true
  · rw [if_pos h0] at h; simp at h
  · rw [if_neg h0] at h ⊢
    exact ⟨_, rfl, scanToken_number_inv _ _ h⟩

theorem parseNumber_frame (s t : List Nat) (ht : stopsAt numberChar t)
    (h : (nextToken s).1.type = TOKEN_NUMBER) :
    parseNumber (nextToken (s ++ t)).1 = parseNumber (nextToken s).1 := by
  obtain ⟨f1, f2, _, _⟩ := nextToken_frame s t ht (by rw [h]; decide) (by rw [h]; decide)
  obtain ⟨X, hX, hp⟩ := number_token_start s h
  rw [parseNumber, parseNumber, f1, f2, hX]
  simp only [Option.map_some', Option.getD_some]
  rw [strtod_frame X t ht hp]

theorem token_copy_frame (s t : List Nat) (ht : stopsAt numberChar t)
    (h : (nextToken s).1.type = TOKEN_STRING) :
    copy_string ((nextToken (s ++ t)).1.start.map List.tail) ((nextToken (s ++ t)).1.length - 2) =
      copy_string ((nextToken s).1.start.map List.tail) ((nextToken s).1.length - 2) := by
  obtain ⟨_, f2, f3, _⟩ := nextToken_frame s t ht (by rw [h]; decide) (by rw [h]; decide)
  obtain ⟨b, hb, hl⟩ := string_token_form s h
  have hc := scanString_count b 1
  rw [f2, f3, hb, hl]
  simp only [Option.map_some', List.cons_append, List.tail_cons, copy_string]
  split_ifs
  · rfl
  · rfl
  · rw [List.take_append_of_le_length (by omega)]

theorem parseString_frame (s t : List Nat) (ht : stopsAt numberChar t)
    (h : (nextToken s).1.type = TOKEN_STRING) :
    parseString (nextToken (s ++ t)).1 = parseString (nextToken s).1 := by
  have hc := token_copy_frame s t ht h
  obtain ⟨f1, _, f3, _⟩ := nextToken_frame s t ht (by rw [h]; decide) (by rw [h]; decide)
  rw [parseString, parseString, create_string, create_string, hc, f1, f3]

theorem parseObjectLoop_inv (f : Nat) (obj : JsonValue) (tok : JsonToken) (input : List Nat)
    (x : JsonValue) (cur : List Nat)
    (h : parseObjectLoop (f + 1) obj tok input = some (some x, cur)) :
    tok.type = TOKEN_STRING ∧ (nextToken input).1.type = TOKEN_COLON ∧
    ∃ value input3, parseValue f (nextToken input).2 = some (some value, input3) ∧
      (((nextToken input3).1.type = TOKEN_OBJECT_END ∧
          x = add_to_object obj (copy_string (tok.start.map List.tail) (tok.length - 2)) value ∧
          cur = (nextToken input3).2) ∨
        ((nextToken input3).1.type = TOKEN_COMMA ∧
          parseObjectLoop f
            (add_to_object obj (copy_string (tok.start.map List.tail) (tok.length - 2)) value)
            (nextToken (nextToken input3).2).1 (nextToken (nextToken input3).2).2 =
              some (some x, cur))) := by
  rw [parseObjectLoop] at h
  split_ifs at h with hs hc
  · simp at h
  · simp at h
  · simp only [ne_eq, not_not] at hs hc
    refine ⟨hs, hc, ?_⟩
    cases hv : parseValue f (nextToken input).2 with
    | none => rw [hv] at h; simp at h
    | some p =>
      obtain ⟨r, input3⟩ := p
      rw [hv] at h
      cases r with
      | none => simp at h
      | some value =>
        refine ⟨value, input3, rfl, ?_⟩
        simp only at h
        split_ifs at h with h4 h5
        · left
          simp only [Option.some.injEq, Prod.mk.injEq] at h
          exact ⟨h4, h.1.symm, h.2.symm⟩
        · simp at h
        · right
          simp only [ne_eq, not_not] at h5
          exact ⟨h5, h⟩

theorem parseArrayLoop_inv (f : Nat) (arr : JsonValue) (input : List Nat)
    (x : JsonValue) (cur : List Nat)
    (h : parseArrayLoop (f + 1) arr input = some (some x, cur)) :
    ∃ value input1, parseValue f input = some (some value, input1) ∧
      (((nextToken input1).1.type = TOKEN_ARRAY_END ∧ x = add_to_array arr value ∧
          cur = (nextToken input1).2) ∨
        ((nextToken input1).1.type = TOKEN_COMMA ∧
          parseArrayLoop f (add_to_array arr value) (nextToken input1).2 = some (some x, cur))) := by
  rw [parseArrayLoop] at h
  cases hv : parseValue f input with
  | none => rw [hv] at h; simp at h
  | some p =>
    obtain ⟨r, input1⟩ := p
    rw [hv] at h
    cases r with
    | none => simp at h
    | some value =>
      refine ⟨value, input1, rfl, ?_⟩
      simp only at h
      split_ifs at h with h4 h5
      · left
        simp only [Option.some.injEq, Prod.mk.injEq] at h
        exact ⟨h4, h.1.symm, h.2.symm⟩
      · simp at h
      · right
        simp only [ne_eq, not_not] at h5
        exact ⟨h5, h⟩

theorem parseObjectLoop_string (f : Nat) (obj : JsonValue) (tok : JsonToken) (input : List Nat)
    (x : JsonValue) (cur : List Nat)
    (h : parseObjectLoop f obj tok input = some (some x, cur)) : tok.type = TOKEN_STRING := by
  cases f with
  | zero => simp [parseObjectLoop] at h
  | succ f => exact (parseObjectLoop_inv f obj tok input x cur h).1

/-- A value that was parsed is parsed the same way when more text follows it,
unless that text could continue a number. -/
theorem parser_frame (fuel : Nat) :
    (∀ input x cur t, stopsAt numberChar t → parseValue fuel input = some (some x, cur) →
      parseValue fuel (input ++ t) = some (some x, cur ++ t)) ∧
    (∀ input x cur t, stopsAt numberChar t → parseObject fuel input = some (some x, cur) →
      parseObject fuel (input ++ t) = some (some x, cur ++ t)) ∧
    (∀ obj tok tok2 input x cur t, stopsAt numberChar t → tok2.type = tok.type →
      copy_string (tok2.start.map List.tail) (tok2.length - 2) =
        copy_string (tok.start.map List.tail) (tok.length - 2) →
      parseObjectLoop fuel obj tok input = some (some x, cur) →
      parseObjectLoop fuel obj tok2 (input ++ t) = some (some x, cur ++ t)) ∧
    (∀ input x cur t, stopsAt numberChar t → parseArray fuel input = some (some x, cur) →
      parseArray fuel (input ++ t) = some (some x, cur ++ t)) ∧
    (∀ arr input x cur t, stopsAt numberChar t →
      parseArrayLoop fuel arr input = some (some x, cur) →
      parseArrayLoop fuel arr (input ++ t) = some (some x, cur ++ t)) := by
  induction fuel with
  | zero =>
    refine ⟨?_, ?_, ?_, ?_, ?_⟩ <;> intros <;> simp_all [parseValue, parseObject,
      parseObjectLoop, parseArray, parseArrayLoop]
  | succ f ih =>
    obtain ⟨ihV, ihO, ihOL, ihA, ihAL⟩ := ih
    refine ⟨?_, ?_, ?_, ?_, ?_⟩
    · intro input x cur t ht h
      rw [parseValue] at h ⊢
      cases hty : (nextToken input).1.type
      case TOKEN_STRING =>
        obtain ⟨f1, _, _, f4⟩ := nextToken_frame input t ht (by rw [hty]; decide)
          (by rw [hty]; decide)
        rw [hty] at h f1
        simp only [f1, f4, parseString_frame input t ht hty] at h ⊢
        simp only [Option.some.injEq, Prod.mk.injEq] at h ⊢
        exact ⟨h.1, by rw [h.2]⟩
      case TOKEN_NUMBER =>
        obtain ⟨f1, _, _, f4⟩ := nextToken_frame input t ht (by rw [hty]; decide)
          (by rw [hty]; decide)
        rw [hty] at h f1
        simp only [f1, f4, parseNumber_frame input t ht hty] at h ⊢
        simp only [Option.some.injEq, Prod.mk.injEq] at h ⊢
        exact ⟨h.1, by rw [h.2]⟩
      case TOKEN_TRUE =>
        obtain ⟨f1, _, _, f4⟩ := nextToken_frame input t ht (by rw [hty]; decide)
          (by rw [hty]; decide)
        have hl := parseLiteral_congr f1
        rw [hty] at h f1
        simp only [f1, f4, hl] at h ⊢
        simp only [Option.some.injEq, Prod.mk.injEq] at h ⊢
        exact ⟨h.1, by rw [h.2]⟩
      case TOKEN_FALSE =>
        obtain ⟨f1, _, _, f4⟩ := nextToken_frame input t ht (by rw [hty]; decide)
          (by rw [hty]; decide)
        have hl := parseLiteral_congr f1
        rw [hty] at h f1
        simp only [f1, f4, hl] at h ⊢
        simp only [Option.some.injEq, Prod.mk.injEq] at h ⊢
        exact ⟨h.1, by rw [h.2]⟩
      case TOKEN_NULL =>
        obtain ⟨f1, _, _, f4⟩ := nextToken_frame input t ht (by rw [hty]; decide)
          (by rw [hty]; decide)
        have hl := parseLiteral_congr f1
        rw [hty] at h f1
        simp only [f1, f4, hl] at h ⊢
        simp only [Option.some.injEq, Prod.mk.injEq] at h ⊢
        exact ⟨h.1, by rw [h.2]⟩
      case TOKEN_OBJECT_START =>
        obtain ⟨f1, _, _, f4⟩ := nextToken_frame input t ht (by rw [hty]; decide)
          (by rw [hty]; decide)
        rw [hty] at h f1
        simp only [f1, f4] at h ⊢
        exact ihO _ _ _ _ ht h
      case TOKEN_ARRAY_START =>
        obtain ⟨f1, _, _, f4⟩ := nextToken_frame input t ht (by rw [hty]; decide)
          (by rw [hty]; decide)
        rw [hty] at h f1
        simp only [f1, f4] at h ⊢
        exact ihA _ _ _ _ ht h
      all_goals (rw [hty] at h; simp at h)
    · intro input x cur t ht h
      rw [parseObject] at h ⊢
      by_cases he : (nextToken input).1.type = TOKEN_OBJECT_END
      · obtain ⟨f1, _, _, f4⟩ := nextToken_frame input t ht (by rw [he]; decide)
          (by rw [he]; decide)
        rw [if_pos he] at h
        rw [if_pos (by rw [f1]; exact he), f4]
        simp only [Option.some.injEq, Prod.mk.injEq] at h ⊢
        exact ⟨h.1, by rw [h.2]⟩
      · rw [if_neg he] at h
        have hs := parseObjectLoop_string _ _ _ _ _ _ h
        obtain ⟨f1, _, _, f4⟩ := nextToken_frame input t ht (by rw [hs]; decide)
          (by rw [hs]; decide)
        rw [if_neg (by rw [f1]; exact he), f4]
        exact ihOL _ _ _ _ _ _ _ ht f1 (token_copy_frame input t ht hs) h
    · intro obj tok tok2 input x cur t ht hty hcopy h
      obtain ⟨hs, hc, value, input3, hv, hrest⟩ := parseObjectLoop_inv f obj tok input x cur h
      obtain ⟨f1, _, _, f4⟩ := nextToken_frame input t ht (by rw [hc]; decide)
        (by rw [hc]; decide)
      have hv2 := ihV _ _ _ _ ht hv
      rw [parseObjectLoop, if_neg (by rw [hty, hs]; simp), if_neg (by rw [f1, hc]; simp), f4,
        hv2, hcopy]
      simp only
      rcases hrest with ⟨h4, hx, hcur⟩ | ⟨h5, hrec⟩
      · obtain ⟨g1, _, _, g4⟩ := nextToken_frame input3 t ht (by rw [h4]; decide)
          (by rw [h4]; decide)
        rw [if_pos (by rw [g1]; exact h4), g4, hx, hcur]
      · obtain ⟨g1, _, _, g4⟩ := nextToken_frame input3 t ht (by rw [h5]; decide)
          (by rw [h5]; decide)
        have hs2 := parseObjectLoop_string _ _ _ _ _ _ hrec
        obtain ⟨k1, _, _, k4⟩ := nextToken_frame (nextToken input3).2 t ht (by rw [hs2]; decide)
          (by rw [hs2]; decide)
        rw [if_neg (by rw [g1, h5]; decide), if_neg (by rw [g1, h5]; simp), g4, k4]
        exact ihOL _ _ _ _ _ _ _ ht k1 (token_copy_frame _ t ht hs2) hrec
    · intro input x cur t ht h
      rw [parseArray] at h ⊢
      exact ihAL _ _ _ _ _ ht h
    · intro arr input x cur t ht h
      obtain ⟨value, input1, hv, hrest⟩ := parseArrayLoop_inv f arr input x cur h
      have hv2 := ihV _ _ _ _ ht hv
      rw [parseArrayLoop, hv2]
      simp only
      rcases hrest with ⟨h4, hx, hcur⟩ | ⟨h5, hrec⟩
      · obtain ⟨g1, _, _, g4⟩ := nextToken_frame input1 t ht (by rw [h4]; decide)
          (by rw [h4]; decide)
        rw [if_pos (by rw [g1]; exact h4), g4, hx, hcur]
      · obtain ⟨g1, _, _, g4⟩ := nextToken_frame input1 t ht (by rw [h5]; decide)
          (by rw [h5]; decide)
        rw [if_neg (by rw [g1, h5]; decide), if_neg (by rw [g1, h5]; simp), g4]
        exact ihAL _ _ _ _ _ ht hrec

/-! ## Arrays, element by element -/

theorem parseArrayLoop_mono_le (f : Nat) (acc : JsonValue) (input : List Nat)
    (r : Option JsonValue × List Nat) (h : parseArrayLoop f acc input = some r) :
    ∀ k, parseArrayLoop (f + k) acc input = some r := by
  intro k
  induction k with
  | zero => exact h
  | succ k ih => exact (parser_mono (f + k)).2.2.2.2 acc input r ih

theorem parseObjectLoop_mono_le (f : Nat) (obj : JsonValue) (tok : JsonToken) (input : List Nat)
    (r : Option JsonValue × List Nat) (h : parseObjectLoop f obj tok input = some r) :
    ∀ k, parseObjectLoop (f + k) obj tok input = some r := by
  intro k
  induction k with
  | zero => exact h
  | succ k ih => exact (parser_mono (f + k)).2.2.1 obj tok input r ih

theorem stopsAt_ws_append (ws T : List Nat) (hws : ∀ c ∈ ws, isWhitespace c = true)
    (hT : stopsAt numberChar T) : stopsAt numberChar (ws ++ T) := by
  cases ws with
  | nil => exact hT
  | cons c r =>
    have hc := hws c (List.mem_cons_self _ _)
    simp only [isWhitespace, Bool.or_eq_true, beq_iff_eq] at hc
    simp only [List.cons_append, stopsAt]
    rcases hc with ((hc | hc) | hc) | hc <;> subst hc <;> rfl

/-- An element that is accepted on its own is read the same way in front of a
text that cannot continue a number. -/
theorem element_ok_before (e : Element) (hok : e.ok) (T : List Nat)
    (hT : stopsAt numberChar T) : e.okBefore T := by
  obtain ⟨hb, ha, g, hg⟩ := hok
  refine ⟨hb, ha, g, ?_⟩
  have h1 := (parser_frame g).1 e.text e.value [] (e.after ++ T) (stopsAt_ws_append _ _ ha hT) hg
  rw [List.nil_append] at h1
  exact h1

theorem member_ok_before (m : Member) (hok : m.ok) (T : List Nat)
    (hT : stopsAt numberChar T) : m.okBefore T :=
  ⟨hok.1, hok.2.1, hok.2.2.1, hok.2.2.2.1, hok.2.2.2.2.1,
    element_ok_before m.item hok.2.2.2.2.2 T hT⟩

/-- An element in front of a text: `parseValue` returns the element's value and
stops after its text. -/
theorem element_step (e : Element) (T : List Nat) (hok : e.okBefore T) :
    ∃ g, ∀ k, parseValue (g + k) (e.source ++ T) = some (some e.value, e.after ++ T) := by
  obtain ⟨hb, ha, g, hg⟩ := hok
  refine ⟨g, fun k => ?_⟩
  have h2 := parseValue_mono_le g _ _ hg k
  rw [Element.source, List.append_assoc, List.append_assoc, parseValue_append_ws _ _ hb]
  exact h2

theorem commaSeparated_cons_cons (x y : List Nat) (more : List (List Nat)) :
    commaSeparated (x :: y :: more) = x ++ 44 :: commaSeparated (y :: more) := rfl

/-- The loop of `parseArray` over the elements of an array text: after them it
is where the source is after `add_to_array` of the last one. -/
theorem arrayLoop_elements (elems : List Element) (hok : ∀ e ∈ elems, e.ok) (hne : elems ≠ [])
    (T : List Nat) (hT : stopsAt numberChar T) :
    ∀ acc, ∃ g, ∀ k r,
      (if (nextToken T).1.type = TOKEN_ARRAY_END then
          some (some (JsonValue.array (acc ++ elems.map Element.value)), (nextToken T).2)
        else if (nextToken T).1.type ≠ TOKEN_COMMA then some (none, (nextToken T).2)
        else parseArrayLoop k (.array (acc ++ elems.map Element.value)) (nextToken T).2) =
          some r →
      parseArrayLoop (g + k) (.array acc) (arrayBody elems ++ T) = some r := by
  induction elems with
  | nil => exact absurd rfl hne
  | cons e more ih =>
    intro acc
    have hoke := hok e (List.mem_cons_self _ _)
    cases more with
    | nil =>
      obtain ⟨fe, he⟩ := element_step e T (element_ok_before e hoke T hT)
      obtain ⟨t1, _, _, t4⟩ := nextToken_append_ws e.after T hoke.2.1
      refine ⟨fe + 1, fun k r h => ?_⟩
      have hf : fe + 1 + k = (fe + k) + 1 := by omega
      have hb : arrayBody [e] = e.source := rfl
      rw [hf, hb, parseArrayLoop, he k]
      simp only [t1, t4, add_to_array]
      simp only [List.map_cons, List.map_nil] at h
      split_ifs at h ⊢
      · exact h
      · exact h
      · have := parseArrayLoop_mono_le _ _ _ _ h fe
        rw [Nat.add_comm] at this
        exact this
    | cons e2 more2 =>
      have hstop : stopsAt numberChar (44 :: (arrayBody (e2 :: more2) ++ T)) := rfl
      obtain ⟨fe, he⟩ := element_step e _ (element_ok_before e hoke _ hstop)
      obtain ⟨g2, hg2⟩ := ih (fun x hx => hok x (List.mem_cons_of_mem _ hx)) (by simp)
        (acc ++ [e.value])
      obtain ⟨t1, _, _, t4⟩ := nextToken_append_ws e.after (44 :: (arrayBody (e2 :: more2) ++ T))
        hoke.2.1
      rw [nextToken_cons_comma] at t1 t4
      simp only at t1 t4
      refine ⟨fe + g2 + 1, fun k r h => ?_⟩
      have hf : fe + g2 + 1 + k = (fe + (g2 + k)) + 1 := by omega
      have hb : arrayBody (e :: e2 :: more2) ++ T =
          e.source ++ 44 :: (arrayBody (e2 :: more2) ++ T) := by
        simp only [arrayBody, List.map_cons, commaSeparated_cons_cons, List.append_assoc,
          List.cons_append]
      rw [hf, hb, parseArrayLoop, he (g2 + k)]
      simp only [t1, t4, add_to_array]
      have hacc : acc ++ [e.value] ++ List.map Element.value (e2 :: more2) =
          acc ++ List.map Element.value (e :: e2 :: more2) := by simp
      rw [hacc] at hg2
      have := parseArrayLoop_mono_le _ _ _ _ (hg2 k r h) fe
      simp only [reduceCtorEq, if_false, ne_eq, not_true_eq_false]
      rw [show fe + (g2 + k) = g2 + k + fe by omega]
      exact this

theorem parseValue_array_start (g : Nat) (ws X : List Nat)
    (hws : ∀ c ∈ ws, isWhitespace c = true) :
    parseValue (g + 1 + 1) (ws ++ 91 :: X) = parseArrayLoop g (.array []) X := by
  rw [parseValue_append_ws _ _ hws, parseValue]
  simp only [nextToken_cons_lbracket]
  rw [parseArray]
  rfl

theorem parse_of_arrayLoop (g : Nat) (ws X : List Nat) (hws : ∀ c ∈ ws, isWhitespace c = true)
    (r : Option JsonValue) (cur : List Nat)
    (h : parseArrayLoop g (.array []) X = some (r, cur)) : parse (ws ++ 91 :: X) = some r := by
  apply parse_of_parseValue (g + 1 + 1) _ cur
  rw [parseValue_array_start g ws X hws, h]

/-! ## Objects, member by member -/

/-- One round of the loop of `parseObject` over a member of an object text. -/
theorem member_step (m : Member) (T : List Nat) (hok : m.okBefore T)
    (acc : List (Option (List Nat) × JsonValue)) :
    (nextToken (m.source ++ T)).1.type = TOKEN_STRING ∧
    ∃ g, ∀ k, parseObjectLoop (g + k + 1) (.object acc) (nextToken (m.source ++ T)).1
        (nextToken (m.source ++ T)).2 =
      if (nextToken T).1.type = TOKEN_OBJECT_END then
        some (some (.object (acc ++ [m.pair])), (nextToken T).2)
      else if (nextToken T).1.type ≠ TOKEN_COMMA then some (none, (nextToken T).2)
      else parseObjectLoop (g + k) (.object (acc ++ [m.pair]))
        (nextToken (nextToken T).2).1 (nextToken (nextToken T).2).2 := by
  obtain ⟨hb, hg, hne, hkey, hlen, hitem⟩ := hok
  have hk : ∀ c ∈ m.key, c ≠ 0 ∧ c ≠ 34 ∧ c ≠ 92 := fun c hc =>
    ⟨(hkey c hc).2.2, (hkey c hc).1, (hkey c hc).2.1⟩
  have hsrc : m.source ++ T =
      m.before ++ 34 :: (m.key ++ 34 :: (m.gap ++ 58 :: (m.item.source ++ T))) := by
    simp only [Member.source, List.append_assoc, List.cons_append]
  obtain ⟨k1, k2, k3, k4⟩ := nextToken_key m.before m.key (m.gap ++ 58 :: (m.item.source ++ T))
    hb hk
  rw [← hsrc] at k1 k2 k3 k4
  refine ⟨k1, ?_⟩
  obtain ⟨c1, _, _, c4⟩ := nextToken_append_ws m.gap (58 :: (m.item.source ++ T)) hg
  rw [nextToken_cons_colon] at c1 c4
  simp only at c1 c4
  obtain ⟨g, hv⟩ := element_step m.item T hitem
  obtain ⟨t1, _, _, t4⟩ := nextToken_append_ws m.item.after T hitem.2.1
  have hcopy : copy_string (some (m.key ++ 34 :: (m.gap ++ 58 :: (m.item.source ++ T))))
      ((m.key.length : Int) + 2 - 2) = some m.key := by
    have : ((m.key.length : Int) + 2 - 2) = m.key.length := by omega
    rw [this]
    exact copy_string_plain m.key _ hne (by omega)
  refine ⟨g, fun k => ?_⟩
  rw [parseObjectLoop, k4, c4, hv k]
  simp only [k1, k2, k3, c1, t1, t4, ne_eq, not_true_eq_false, if_false, Option.map_some',
    List.tail_cons, hcopy, add_to_object, Member.pair]

/-- The loop of `parseObject` over the members of an object text: after them
it is where the source is after `add_to_object` of the last one. -/
theorem objectLoop_members (members : List Member) (hok : ∀ m ∈ members, m.ok)
    (hne : members ≠ []) (T : List Nat) (hT : stopsAt numberChar T) :
    (nextToken (objectBody members ++ T)).1.type = TOKEN_STRING ∧
    ∀ acc, ∃ g, ∀ k r,
      (if (nextToken T).1.type = TOKEN_OBJECT_END then
          some (some (JsonValue.object (acc ++ members.map Member.pair)), (nextToken T).2)
        else if (nextToken T).1.type ≠ TOKEN_COMMA then some (none, (nextToken T).2)
        else parseObjectLoop k (.object (acc ++ members.map Member.pair))
          (nextToken (nextToken T).2).1 (nextToken (nextToken T).2).2) = some r →
      parseObjectLoop (g + k) (.object acc) (nextToken (objectBody members ++ T)).1
        (nextToken (objectBody members ++ T)).2 = some r := by
  induction members with
  | nil => exact absurd rfl hne
  | cons m more ih =>
    have hokm := hok m (List.mem_cons_self _ _)
    cases more with
    | nil =>
      have hb : objectBody [m] = m.source := rfl
      rw [hb]
      have hbm := member_ok_before m hokm T hT
      refine ⟨(member_step m T hbm []).1, fun acc => ?_⟩
      obtain ⟨_, g, hg⟩ := member_step m T hbm acc
      refine ⟨g + 1, fun k r h => ?_⟩
      rw [show g + 1 + k = g + k + 1 by omega, hg k]
      simp only [List.map_cons, List.map_nil] at h
      split_ifs at h ⊢
      · exact h
      · exact h
      · have := parseObjectLoop_mono_le _ _ _ _ _ h g
        rw [Nat.add_comm] at this
        exact this
    | cons m2 more2 =>
      have hstop : stopsAt numberChar (44 :: (objectBody (m2 :: more2) ++ T)) := rfl
      have hb : objectBody (m :: m2 :: more2) ++ T =
          m.source ++ 44 :: (objectBody (m2 :: more2) ++ T) := by
        simp only [objectBody, List.map_cons, commaSeparated_cons_cons, List.append_assoc,
          List.cons_append]
      rw [hb]
      have hbm := member_ok_before m hokm _ hstop
      refine ⟨(member_step m _ hbm []).1, fun acc => ?_⟩
      obtain ⟨_, g, hg⟩ := member_step m _ hbm acc
      obtain ⟨_, ih2⟩ := ih (fun x hx => hok x (List.mem_cons_of_mem _ hx)) (by simp)
      obtain ⟨g2, hg2⟩ := ih2 (acc ++ [m.pair])
      refine ⟨g + g2 + 1, fun k r h => ?_⟩
      rw [show g + g2 + 1 + k = g + (g2 + k) + 1 by omega, hg (g2 + k)]
      simp only [nextToken_cons_comma, reduceCtorEq, if_false, ne_eq, not_true_eq_false]
      have hacc : acc ++ [m.pair] ++ List.map Member.pair (m2 :: more2) =
          acc ++ List.map Member.pair (m :: m2 :: more2) := by simp
      rw [hacc] at hg2
      have := parseObjectLoop_mono_le _ _ _ _ _ (hg2 k r h) g
      rw [show g + (g2 + k) = g2 + k + g by omega]
      exact this

theorem parseValue_object_start (g : Nat) (ws X : List Nat)
    (hws : ∀ c ∈ ws, isWhitespace c = true) :
    parseValue (g + 1 + 1) (ws ++ 123 :: X) =
      if (nextToken X).1.type = TOKEN_OBJECT_END then some (some (.object []), (nextToken X).2)
      else parseObjectLoop g (.object []) (nextToken X).1 (nextToken X).2 := by
  rw [parseValue_append_ws _ _ hws, parseValue]
  simp only [nextToken_cons_lbrace]
  rw [parseObject]
  rfl

theorem parse_of_objectLoop (g : Nat) (ws X : List Nat) (hws : ∀ c ∈ ws, isWhitespace c = true)
    (r : Option JsonValue) (cur : List Nat) (hX : (nextToken X).1.type ≠ TOKEN_OBJECT_END)
    (h : parseObjectLoop g (.object []) (nextToken X).1 (nextToken X).2 = some (r, cur)) :
    parse (ws ++ 123 :: X) = some r := by
  apply parse_of_parseValue (g + 1 + 1) _ cur
  rw [parseValue_object_start g ws X hws, if_neg hX, h]

theorem objectLoop_no_key (obj : JsonValue) (u : List Nat)
    (h : (nextToken u).1.type ≠ TOKEN_STRING) :
    parseObjectLoop 1 obj (nextToken u).1 (nextToken u).2 = some (none, (nextToken u).2) := by
  rw [parseObjectLoop, if_pos h]

theorem objectLoop_no_colon (obj : JsonValue) (u : List Nat)
    (h : (nextToken u).1.type = TOKEN_STRING)
    (h2 : (nextToken (nextToken u).2).1.type ≠ TOKEN_COLON) :
    parseObjectLoop 1 obj (nextToken u).1 (nextToken u).2 =
      some (none, (nextToken (nextToken u).2).2) := by
  rw [parseObjectLoop, if_neg (by rw [h]; simp), if_pos h2]

/-! ## The allocation tracker -/

theorem free_next (h : Heap) (p : Option Nat) : (h.free p).next = h.next := by
  cases p <;> rfl

theorem free_count (h : Heap) (p : Option Nat) (a : Nat) :
    (h.free p).freed.count a = h.freed.count a + p.toList.count a := by
  cases p with
  | none => simp [Heap.free]
  | some x => simp [Heap.free, List.count_cons]

mutual

/-- What `free_json_value` does: it hands out no block and releases, once
each, the blocks that belong to the node. -/
theorem free_value_spec : ∀ (n : Node) (h : Heap),
    (free_json_valueT n h).next = h.next ∧
    ∀ a, (free_json_valueT n h).freed.count a = h.freed.count a + n.owned.count a
  | .string addr data text length, h => by
    rw [free_json_valueT]
    refine ⟨by rw [free_next, free_next], fun a => ?_⟩
    rw [free_count, free_count, Node.owned]
    simp only [Option.toList, List.count_cons, List.count_nil]
    omega
  | .number addr d, h => by
    rw [free_json_valueT]
    refine ⟨by rw [free_next], fun a => ?_⟩
    rw [free_count, Node.owned]
    simp only [Option.toList]
  | .boolean addr b, h => by
    rw [free_json_valueT]
    refine ⟨by rw [free_next], fun a => ?_⟩
    rw [free_count, Node.owned]
    simp only [Option.toList]
  | .null addr, h => by
    rw [free_json_valueT]
    refine ⟨by rw [free_next], fun a => ?_⟩
    rw [free_count, Node.owned]
    simp only [Option.toList]
  | .object addr keys values pairs, h => by
    obtain ⟨h1, h2⟩ := free_pairs_spec pairs h
    rw [free_json_valueT]
    refine ⟨by rw [free_next, free_next, free_next, h1], fun a => ?_⟩
    rw [free_count, free_count, free_count, h2 a, Node.owned]
    simp only [Option.toList, List.count_cons, List.count_nil, List.count_append]
    omega
  | .array addr items elems, h => by
    obtain ⟨h1, h2⟩ := free_items_spec elems h
    rw [free_json_valueT]
    refine ⟨by rw [free_next, free_next, h1], fun a => ?_⟩
    rw [free_count, free_count, h2 a, Node.owned]
    simp only [Option.toList, List.count_cons, List.count_nil, List.count_append]
    omega

theorem free_pairs_spec : ∀ (pairs : List (Option (Nat × List Nat) × Node)) (h : Heap),
    (free_pairsT pairs h).next = h.next ∧
    ∀ a, (free_pairsT pairs h).freed.count a = h.freed.count a + (ownedPairs pairs).count a
  | [], h => by
    rw [free_pairsT, ownedPairs]
    exact ⟨rfl, fun a => by simp⟩
  | (key, value) :: rest, h => by
    obtain ⟨h1, h2⟩ := free_value_spec value (h.free (key.map Prod.fst))
    obtain ⟨h3, h4⟩ := free_pairs_spec rest (free_json_valueT value (h.free (key.map Prod.fst)))
    rw [free_pairsT, ownedPairs]
    refine ⟨by rw [h3, h1, free_next], fun a => ?_⟩
    rw [h4 a, h2 a, free_count]
    simp only [List.count_append]
    omega

theorem free_items_spec : ∀ (elems : List Node) (h : Heap),
    (free_itemsT elems h).next = h.next ∧
    ∀ a, (free_itemsT elems h).freed.count a = h.freed.count a + (ownedItems elems).count a
  | [], h => by
    rw [free_itemsT, ownedItems]
    exact ⟨rfl, fun a => by simp⟩
  | value :: rest, h => by
    obtain ⟨h1, h2⟩ := free_value_spec value h
    obtain ⟨h3, h4⟩ := free_items_spec rest (free_json_valueT value h)
    rw [free_itemsT, ownedItems]
    refine ⟨by rw [h3, h1], fun a => ?_⟩
    rw [h4 a, h2 a]
    simp only [List.count_append]
    omega

end

theorem ownedPairs_append (p q : List (Option (Nat × List Nat) × Node)) (a : Nat) :
    (ownedPairs (p ++ q)).count a = (ownedPairs p).count a + (ownedPairs q).count a := by
  induction p with
  | nil => simp [ownedPairs]
  | cons x r ih =>
    obtain ⟨k, v⟩ := x
    simp only [List.cons_append, ownedPairs, List.append_eq, List.count_append, ih]
    omega

theorem ownedItems_append (p q : List Node) (a : Nat) :
    (ownedItems (p ++ q)).count a = (ownedItems p).count a + (ownedItems q).count a := by
  induction p with
  | nil => simp [ownedItems]
  | cons x r ih =>
    simp only [List.cons_append, ownedItems, List.append_eq, List.count_append, ih]
    omega

theorem valuePairs_append (p q : List (Option (Nat × List Nat) × Node)) :
    valuePairs (p ++ q) = valuePairs p ++ valuePairs q := by
  induction p with
  | nil => simp [valuePairs]
  | cons x r ih =>
    obtain ⟨k, v⟩ := x
    simp only [List.cons_append, valuePairs, List.append_eq, ih, List.cons_append]

theorem valueItems_append (p q : List Node) :
    valueItems (p ++ q) = valueItems p ++ valueItems q := by
  induction p with
  | nil => simp [valueItems]
  | cons x r ih => simp only [List.cons_append, valueItems, List.append_eq, ih, List.cons_append]

/-! ## The tracked parser computes what the parser computes -/

theorem copy_stringT_value (data : Option (List Nat)) (length : Int) (h : Heap) :
    (copy_stringT data length h).1.map Prod.snd = copy_string data length := by
  cases data with
  | none => rfl
  | some d =>
    simp only [copy_stringT, copy_string]
    split_ifs <;> rfl

theorem create_stringT_value (data : Option (List Nat)) (length : Int) (h : Heap) :
    (create_stringT data length h).1.map Node.value = create_string data length := by
  have hc := copy_stringT_value data length h.malloc.2
  rw [create_stringT, create_string, ← hc]
  cases (copy_stringT data length h.malloc.2).1 with
  | none => rfl
  | some d => simp only [Option.map_some', Node.value]

theorem parseStringT_value (tok : JsonToken) (h : Heap) :
    (parseStringT tok h).1.map Node.value = parseString tok := by
  rw [parseStringT, parseString]
  split_ifs
  · rfl
  · exact create_stringT_value _ _ h

theorem parseNumberT_value (tok : JsonToken) (h : Heap) :
    (parseNumberT tok h).1.map Node.value = parseNumber tok := by
  rw [parseNumberT, parseNumber]
  split_ifs
  · rfl
  · simp only [Option.map_some', create_numberT, Node.value, create_number]

theorem parseLiteralT_value (tok : JsonToken) (h : Heap) :
    (parseLiteralT tok h).1.map Node.value = parseLiteral tok := by
  rw [parseLiteralT, parseLiteral]
  split_ifs <;>
    simp only [Option.map_some', Option.map_none', create_booleanT, create_nullT, Node.value,
      create_boolean, create_null]

theorem add_to_objectT_value (addr : Nat) (keys values : Option Nat)
    (pairs : List (Option (Nat × List Nat) × Node)) (key : Option (Nat × List Nat))
    (value : Node) (h : Heap) :
    (add_to_objectT (.object addr keys values pairs) key value h).1.value =
      add_to_object (Node.object addr keys values pairs).value (key.map Prod.snd)
        value.value := by
  simp only [add_to_objectT, Node.value, add_to_object, valuePairs_append, valuePairs]

theorem add_to_arrayT_value (addr : Nat) (items : Option Nat) (elems : List Node)
    (value : Node) (h : Heap) :
    (add_to_arrayT (.array addr items elems) value h).1.value =
      add_to_array (Node.array addr items elems).value value.value := by
  simp only [add_to_arrayT, Node.value, add_to_array, valueItems_append, valueItems]

theorem add_to_objectT_shape (addr : Nat) (keys values : Option Nat)
    (pairs : List (Option (Nat × List Nat) × Node)) (key : Option (Nat × List Nat))
    (value : Node) (h : Heap) :
    (add_to_objectT (.object addr keys values pairs) key value h).1 =
      .object addr (some (h.realloc keys).1) (some ((h.realloc keys).2.realloc values).1)
        (pairs ++ [(key, value)]) := rfl

theorem add_to_arrayT_shape (addr : Nat) (items : Option Nat) (elems : List Node)
    (value : Node) (h : Heap) :
    (add_to_arrayT (.array addr items elems) value h).1 =
      .array addr (some (h.realloc items).1) (elems ++ [value]) := rfl

/-- The tracked parser returns the values the parser returns, with the same
cursor, whatever the heap it starts from. -/
theorem tracked_refines (fuel : Nat) :
    (∀ input h, (parseValueT fuel input h).map (fun r => (r.1.map Node.value, r.2.1)) =
      parseValue fuel input) ∧
    (∀ input h, (parseObjectT fuel input h).map (fun r => (r.1.map Node.value, r.2.1)) =
      parseObject fuel input) ∧
    (∀ addr keys values pairs tok input h,
      (parseObjectLoopT fuel (.object addr keys values pairs) tok input h).map
          (fun r => (r.1.map Node.value, r.2.1)) =
        parseObjectLoop fuel (Node.object addr keys values pairs).value tok input) ∧
    (∀ input h, (parseArrayT fuel input h).map (fun r => (r.1.map Node.value, r.2.1)) =
      parseArray fuel input) ∧
    (∀ addr items elems input h,
      (parseArrayLoopT fuel (.array addr items elems) input h).map
          (fun r => (r.1.map Node.value, r.2.1)) =
        parseArrayLoop fuel (Node.array addr items elems).value input) := by
  induction fuel with
  | zero =>
    refine ⟨?_, ?_, ?_, ?_, ?_⟩ <;> intros <;> simp [parseValueT, parseObjectT,
      parseObjectLoopT, parseArrayT, parseArrayLoopT, parseValue, parseObject,
      parseObjectLoop, parseArray, parseArrayLoop]
  | succ f ih =>
    obtain ⟨ihV, ihO, ihOL, ihA, ihAL⟩ := ih
    refine ⟨?_, ?_, ?_, ?_, ?_⟩
    · intro input h
      rw [parseValueT, parseValue]
      cases hty : (nextToken input).1.type <;>
        simp only [Option.map_some', parseStringT_value, parseNumberT_value,
          parseLiteralT_value, Option.map_none']
      · exact ihO _ _
      · exact ihA _ _
    · intro input h
      rw [parseObjectT, parseObject]
      split_ifs
      · simp only [Option.map_some', create_objectT, Node.value, valuePairs, create_object]
      · exact ihOL _ _ _ _ _ _ _
    · intro addr keys values pairs tok input h
      rw [parseObjectLoopT, parseObjectLoop]
      split_ifs with hs hc
      · rfl
      · rfl
      · have hV := ihV (nextToken input).2
          (copy_stringT (tok.start.map List.tail) (tok.length - 2) h).2
        rw [← hV]
        cases hv : parseValueT f (nextToken input).2
            (copy_stringT (tok.start.map List.tail) (tok.length - 2) h).2 with
        | none => rfl
        | some p =>
          obtain ⟨r, input3, h2⟩ := p
          cases r with
          | none => rfl
          | some value =>
            simp only [Option.map_some', ← copy_stringT_value _ _ h]
            rw [← add_to_objectT_value addr keys values pairs _ value h2]
            split_ifs
            · rfl
            · rfl
            · rw [add_to_objectT_shape]
              exact ihOL _ _ _ _ _ _ _
    · intro input h
      rw [parseArrayT, parseArray]
      exact ihAL _ _ _ _ _
    · intro addr items elems input h
      rw [parseArrayLoopT, parseArrayLoop]
      have hV := ihV input h
      rw [← hV]
      cases hv : parseValueT f input h with
      | none => rfl
      | some p =>
        obtain ⟨r, input1, h1⟩ := p
        cases r with
        | none => rfl
        | some value =>
          simp only [Option.map_some']
          rw [← add_to_arrayT_value addr items elems value h1]
          split_ifs
          · rfl
          · rfl
          · rw [add_to_arrayT_shape]
            exact ihAL _ _ _ _ _

/-! ## The ledger of blocks handed out and released -/

theorem allocatedIn_same (h h2 : Heap) (a : Nat) (e : h2.next = h.next) :
    allocatedIn h h2 a = 0 := by
  simp only [allocatedIn, e]
  split_ifs with hc
  · omega
  · rfl

theorem allocatedIn_trans (h1 h2 h3 : Heap) (a : Nat) (h12 : h1.next ≤ h2.next)
    (h23 : h2.next ≤ h3.next) :
    allocatedIn h1 h3 a = allocatedIn h1 h2 a + allocatedIn h2 h3 a := by
  simp only [allocatedIn]
  split_ifs <;> omega

theorem malloc_ledger (h : Heap) :
    h.malloc.2.next = h.next + 1 ∧ h.malloc.2.freed = h.freed ∧
    ∀ a, [h.malloc.1].count a = allocatedIn h h.malloc.2 a := by
  refine ⟨rfl, rfl, fun a => ?_⟩
  simp only [Heap.malloc, allocatedIn, List.count_cons, List.count_nil, beq_iff_eq]
  split_ifs <;> omega

theorem realloc_ledger (h : Heap) (p : Option Nat) :
    h.next ≤ (h.realloc p).2.next ∧
    ∀ a, (h.realloc p).2.freed.count a + [(h.realloc p).1].count a =
      h.freed.count a + p.toList.count a + allocatedIn h (h.realloc p).2 a := by
  obtain ⟨m1, m2, m3⟩ := malloc_ledger (h.free p)
  have hn := free_next h p
  refine ⟨by rw [Heap.realloc, m1, hn]; omega, fun a => ?_⟩
  have e1 : allocatedIn h (h.realloc p).2 a = allocatedIn (h.free p) (h.free p).malloc.2 a := by
    simp only [allocatedIn, Heap.realloc, hn]
  rw [e1, ← m3 a, Heap.realloc, m2, free_count]

theorem copy_stringT_ledger (data : Option (List Nat)) (length : Int) (h : Heap) :
    h.next ≤ (copy_stringT data length h).2.next ∧
    ∀ a, (copy_stringT data length h).2.freed.count a +
        ((copy_stringT data length h).1.map Prod.fst).toList.count a =
      h.freed.count a + allocatedIn h (copy_stringT data length h).2 a := by
  obtain ⟨m1, m2, m3⟩ := malloc_ledger h
  cases data with
  | none =>
    exact ⟨Nat.le_refl _, fun a => by
      simp only [copy_stringT, Option.map_none', Option.toList, List.count_nil]
      rw [allocatedIn_same h h a rfl]⟩
  | some d =>
    simp only [copy_stringT]
    split_ifs
    · exact ⟨Nat.le_refl _, fun a => by
        simp only [Option.map_none', Option.toList, List.count_nil]
        rw [allocatedIn_same h h a rfl]⟩
    · exact ⟨Nat.le_refl _, fun a => by
        simp only [Option.map_none', Option.toList, List.count_nil]
        rw [allocatedIn_same h h a rfl]⟩
    · refine ⟨by rw [m1]; omega, fun a => ?_⟩
      simp only [Option.map_some', Option.toList]
      rw [m2, m3 a]

theorem create_stringT_ledger (data : Option (List Nat)) (length : Int) (h : Heap) :
    h.next ≤ (create_stringT data length h).2.next ∧
    ∀ a, (create_stringT data length h).2.freed.count a +
        (ownedBy (create_stringT data length h).1).count a =
      h.freed.count a + allocatedIn h (create_stringT data length h).2 a := by
  obtain ⟨m1, m2, m3⟩ := malloc_ledger h
  obtain ⟨c1, c2⟩ := copy_stringT_ledger data length h.malloc.2
  rw [create_stringT]
  cases hc : (copy_stringT data length h.malloc.2).1 with
  | none =>
    simp only
    refine ⟨by rw [free_next]; omega, fun a => ?_⟩
    have e := c2 a
    rw [hc] at e
    simp only [Option.map_none', Option.toList, List.count_nil] at e
    have t := allocatedIn_trans h h.malloc.2 (copy_stringT data length h.malloc.2).2 a
      (by omega) c1
    have t2 := allocatedIn_trans h (copy_stringT data length h.malloc.2).2
      ((copy_stringT data length h.malloc.2).2.free (some h.malloc.1)) a (by omega)
      (by rw [free_next])
    have t3 := allocatedIn_same (copy_stringT data length h.malloc.2).2
      ((copy_stringT data length h.malloc.2).2.free (some h.malloc.1)) a (free_next _ _)
    have m := m3 a
    rw [free_count]
    simp only [ownedBy, Option.map_none', Option.getD_none, List.count_nil, Option.toList]
    rw [m2] at e
    omega
  | some d =>
    simp only
    refine ⟨by omega, fun a => ?_⟩
    have e := c2 a
    rw [hc] at e
    simp only [Option.map_some', Option.toList] at e
    have t := allocatedIn_trans h h.malloc.2 (copy_stringT data length h.malloc.2).2 a
      (by omega) c1
    have m := m3 a
    simp only [ownedBy, Option.map_some', Option.getD_some, Node.owned, List.count_cons,
      List.count_nil] at e m ⊢
    rw [m2] at e
    omega

theorem create_node_ledger (h : Heap) (n : Node) (hn : n.owned = [h.malloc.1]) :
    h.next ≤ h.malloc.2.next ∧
    ∀ a, h.malloc.2.freed.count a + (ownedBy (some n)).count a =
      h.freed.count a + allocatedIn h h.malloc.2 a := by
  obtain ⟨m1, m2, m3⟩ := malloc_ledger h
  refine ⟨by omega, fun a => ?_⟩
  simp only [ownedBy, Option.map_some', Option.getD_some, hn]
  rw [m2, m3 a]

theorem none_ledger (h : Heap) :
    h.next ≤ h.next ∧
    ∀ a, h.freed.count a + (ownedBy none).count a = h.freed.count a + allocatedIn h h a := by
  refine ⟨Nat.le_refl _, fun a => ?_⟩
  rw [allocatedIn_same h h a rfl]
  simp [ownedBy]

theorem parseStringT_ledger (tok : JsonToken) (h : Heap) :
    h.next ≤ (parseStringT tok h).2.next ∧
    ∀ a, (parseStringT tok h).2.freed.count a + (ownedBy (parseStringT tok h).1).count a =
      h.freed.count a + allocatedIn h (parseStringT tok h).2 a := by
  rw [parseStringT]
  split_ifs
  · exact none_ledger h
  · exact create_stringT_ledger _ _ h

theorem parseNumberT_ledger (tok : JsonToken) (h : Heap) :
    h.next ≤ (parseNumberT tok h).2.next ∧
    ∀ a, (parseNumberT tok h).2.freed.count a + (ownedBy (parseNumberT tok h).1).count a =
      h.freed.count a + allocatedIn h (parseNumberT tok h).2 a := by
  rw [parseNumberT]
  split_ifs
  · exact none_ledger h
  · exact create_node_ledger h _ rfl

theorem parseLiteralT_ledger (tok : JsonToken) (h : Heap) :
    h.next ≤ (parseLiteralT tok h).2.next ∧
    ∀ a, (parseLiteralT tok h).2.freed.count a + (ownedBy (parseLiteralT tok h).1).count a =
      h.freed.count a + allocatedIn h (parseLiteralT tok h).2 a := by
  rw [parseLiteralT]
  split_ifs
  · exact create_node_ledger h _ rfl
  · exact create_node_ledger h _ rfl
  · exact create_node_ledger h _ rfl
  · exact none_ledger h

theorem add_to_objectT_ledger (addr : Nat) (keys values : Option Nat)
    (pairs : List (Option (Nat × List Nat) × Node)) (key : Option (Nat × List Nat))
    (value : Node) (h : Heap) :
    h.next ≤ (add_to_objectT (.object addr keys values pairs) key value h).2.next ∧
    ∀ a, (add_to_objectT (.object addr keys values pairs) key value h).2.freed.count a +
        (add_to_objectT (.object addr keys values pairs) key value h).1.owned.count a =
      h.freed.count a + (Node.object addr keys values pairs).owned.count a +
        (key.map Prod.fst).toList.count a + value.owned.count a +
        allocatedIn h (add_to_objectT (.object addr keys values pairs) key value h).2 a := by
  obtain ⟨r1, r2⟩ := realloc_ledger h keys
  obtain ⟨s1, s2⟩ := realloc_ledger (h.realloc keys).2 values
  simp only [add_to_objectT]
  refine ⟨by omega, fun a => ?_⟩
  have e1 := r2 a
  have e2 := s2 a
  have t := allocatedIn_trans h (h.realloc keys).2 ((h.realloc keys).2.realloc values).2 a r1 s1
  have ep := ownedPairs_append pairs [(key, value)] a
  simp only [Node.owned, Option.toList, List.count_cons, List.count_nil, List.count_append,
    ep, ownedPairs] at e1 e2 ⊢
  omega

theorem add_to_arrayT_ledger (addr : Nat) (items : Option Nat) (elems : List Node)
    (value : Node) (h : Heap) :
    h.next ≤ (add_to_arrayT (.array addr items elems) value h).2.next ∧
    ∀ a, (add_to_arrayT (.array addr items elems) value h).2.freed.count a +
        (add_to_arrayT (.array addr items elems) value h).1.owned.count a =
      h.freed.count a + (Node.array addr items elems).owned.count a + value.owned.count a +
        allocatedIn h (add_to_arrayT (.array addr items elems) value h).2 a := by
  obtain ⟨r1, r2⟩ := realloc_ledger h items
  simp only [add_to_arrayT]
  refine ⟨by omega, fun a => ?_⟩
  have e1 := r2 a
  have ep := ownedItems_append elems [value] a
  simp only [Node.owned, Option.toList, List.count_cons, List.count_nil, List.count_append,
    ep, ownedItems] at e1 ⊢
  omega

/-- The ledger of the tracked parser: on return, every block handed out during
the call has been released once or belongs to the node returned, and the
blocks of the object or array under construction have been released once or
belong to the node returned; nothing else was released. -/
theorem tracked_ledger (fuel : Nat) :
    (∀ input h r rest h2, parseValueT fuel input h = some (r, rest, h2) →
      h.next ≤ h2.next ∧
      ∀ a, h2.freed.count a + (ownedBy r).count a = h.freed.count a + allocatedIn h h2 a) ∧
    (∀ input h r rest h2, parseObjectT fuel input h = some (r, rest, h2) →
      h.next ≤ h2.next ∧
      ∀ a, h2.freed.count a + (ownedBy r).count a = h.freed.count a + allocatedIn h h2 a) ∧
    (∀ addr keys values pairs tok input h r rest h2,
      parseObjectLoopT fuel (.object addr keys values pairs) tok input h = some (r, rest, h2) →
      h.next ≤ h2.next ∧
      ∀ a, h2.freed.count a + (ownedBy r).count a =
        h.freed.count a + (Node.object addr keys values pairs).owned.count a +
          allocatedIn h h2 a) ∧
    (∀ input h r rest h2, parseArrayT fuel input h = some (r, rest, h2) →
      h.next ≤ h2.next ∧
      ∀ a, h2.freed.count a + (ownedBy r).count a = h.freed.count a + allocatedIn h h2 a) ∧
    (∀ addr items elems input h r rest h2,
      parseArrayLoopT fuel (.array addr items elems) input h = some (r, rest, h2) →
      h.next ≤ h2.next ∧
      ∀ a, h2.freed.count a + (ownedBy r).count a =
        h.freed.count a + (Node.array addr items elems).owned.count a +
          allocatedIn h h2 a) := by
  induction fuel with
  | zero =>
    refine ⟨?_, ?_, ?_, ?_, ?_⟩ <;> intros <;> simp_all [parseValueT, parseObjectT,
      parseObjectLoopT, parseArrayT, parseArrayLoopT]
  | succ f ih =>
    obtain ⟨ihV, ihO, ihOL, ihA, ihAL⟩ := ih
    refine ⟨?_, ?_, ?_, ?_, ?_⟩
    · intro input h r rest h2 hp
      rw [parseValueT] at hp
      cases hty : (nextToken input).1.type <;> rw [hty] at hp <;>
        simp only [Option.some.injEq, Prod.mk.injEq] at hp
      case TOKEN_STRING =>
        obtain ⟨rfl, _, rfl⟩ := hp
        exact parseStringT_ledger _ h
      case TOKEN_NUMBER =>
        obtain ⟨rfl, _, rfl⟩ := hp
        exact parseNumberT_ledger _ h
      case TOKEN_TRUE =>
        obtain ⟨rfl, _, rfl⟩ := hp
        exact parseLiteralT_ledger _ h
      case TOKEN_FALSE =>
        obtain ⟨rfl, _, rfl⟩ := hp
        exact parseLiteralT_ledger _ h
      case TOKEN_NULL =>
        obtain ⟨rfl, _, rfl⟩ := hp
        exact parseLiteralT_ledger _ h
      case TOKEN_OBJECT_START => exact ihO _ _ _ _ _ hp
      case TOKEN_ARRAY_START => exact ihA _ _ _ _ _ hp
      all_goals
        obtain ⟨rfl, _, rfl⟩ := hp
        exact none_ledger h
    · intro input h r rest h2 hp
      obtain ⟨m1, m2, m3⟩ := malloc_ledger h
      rw [parseObjectT] at hp
      split_ifs at hp
      · simp only [Option.some.injEq, Prod.mk.injEq] at hp
        obtain ⟨rfl, _, rfl⟩ := hp
        exact create_node_ledger h _ rfl
      · obtain ⟨l1, l2⟩ := ihOL _ _ _ _ _ _ _ _ _ _ hp
        simp only [create_objectT] at l1 l2 ⊢
        refine ⟨by omega, fun a => ?_⟩
        have e := l2 a
        have t := allocatedIn_trans h h.malloc.2 h2 a (by omega) l1
        have m := m3 a
        simp only [Node.owned, Option.toList, ownedPairs, List.append_nil] at e
        rw [m2] at e
        omega
    · intro addr keys values pairs tok input h r rest h2 hp
      obtain ⟨f1, f2⟩ := free_value_spec (.object addr keys values pairs) h
      obtain ⟨c1, c2⟩ := copy_stringT_ledger (tok.start.map List.tail) (tok.length - 2) h
      rw [parseObjectLoopT] at hp
      generalize copy_stringT (tok.start.map List.tail) (tok.length - 2) h = c at hp c1 c2
      split_ifs at hp with hs hc
      · simp only [Option.some.injEq, Prod.mk.injEq] at hp
        obtain ⟨rfl, _, rfl⟩ := hp
        refine ⟨by omega, fun a => ?_⟩
        have := allocatedIn_same h (free_json_valueT (.object addr keys values pairs) h) a f1
        rw [f2 a, this]
        simp [ownedBy]
      · simp only [Option.some.injEq, Prod.mk.injEq] at hp
        obtain ⟨rfl, _, rfl⟩ := hp
        obtain ⟨g1, g2⟩ := free_value_spec (.object addr keys values pairs)
          (c.2.free (c.1.map Prod.fst))
        have hn := free_next c.2 (c.1.map Prod.fst)
        refine ⟨by omega, fun a => ?_⟩
        have e := c2 a
        have t : allocatedIn h (free_json_valueT (.object addr keys values pairs)
            (c.2.free (c.1.map Prod.fst))) a = allocatedIn h c.2 a := by
          simp only [allocatedIn, g1, hn]
        rw [g2 a, free_count, t]
        simp only [ownedBy, Option.map_none', Option.getD_none, List.count_nil]
        omega
      · cases hv : parseValueT f (nextToken input).2 c.2 with
        | none => rw [hv] at hp; simp at hp
        | some p =>
          obtain ⟨rv, input3, h3⟩ := p
          obtain ⟨v1, v2⟩ := ihV _ _ _ _ _ hv
          rw [hv] at hp
          cases rv with
          | none =>
            simp only [Option.some.injEq, Prod.mk.injEq] at hp
            obtain ⟨rfl, _, rfl⟩ := hp
            obtain ⟨g1, g2⟩ := free_value_spec (.object addr keys values pairs)
              (h3.free (c.1.map Prod.fst))
            have hn := free_next h3 (c.1.map Prod.fst)
            refine ⟨by omega, fun a => ?_⟩
            have e := c2 a
            have ev := v2 a
            have t : allocatedIn h (free_json_valueT (.object addr keys values pairs)
                (h3.free (c.1.map Prod.fst))) a = allocatedIn h h3 a := by
              simp only [allocatedIn, g1, hn]
            have t2 := allocatedIn_trans h c.2 h3 a c1 v1
            rw [g2 a, free_count, t]
            simp only [ownedBy, Option.map_none', Option.getD_none, List.count_nil] at ev ⊢
            omega
          | some value =>
            obtain ⟨a1, a2⟩ := add_to_objectT_ledger addr keys values pairs c.1 value h3
            have hshape := add_to_objectT_shape addr keys values pairs c.1 value h3
            simp only at hp
            generalize hA : add_to_objectT (.object addr keys values pairs) c.1 value h3 = A
              at hp a1 a2 hshape
            split_ifs at hp with h4 h5
            · simp only [Option.some.injEq, Prod.mk.injEq] at hp
              obtain ⟨rfl, _, rfl⟩ := hp
              refine ⟨by omega, fun a => ?_⟩
              have e := c2 a
              have ev := v2 a
              have ea := a2 a
              have t2 := allocatedIn_trans h c.2 h3 a c1 v1
              have t3 := allocatedIn_trans h h3 A.2 a (by omega) a1
              simp only [ownedBy, Option.map_some', Option.getD_some] at ev ⊢
              omega
            · simp only [Option.some.injEq, Prod.mk.injEq] at hp
              obtain ⟨rfl, _, rfl⟩ := hp
              obtain ⟨g1, g2⟩ := free_value_spec A.1 A.2
              refine ⟨by omega, fun a => ?_⟩
              have e := c2 a
              have ev := v2 a
              have ea := a2 a
              have t2 := allocatedIn_trans h c.2 h3 a c1 v1
              have t3 := allocatedIn_trans h h3 A.2 a (by omega) a1
              have t : allocatedIn h (free_json_valueT A.1 A.2) a = allocatedIn h A.2 a := by
                simp only [allocatedIn, g1]
              rw [g2 a, t]
              simp only [ownedBy, Option.map_some', Option.getD_some, Option.map_none',
                Option.getD_none, List.count_nil] at ev ⊢
              omega
            · rw [hshape] at hp
              obtain ⟨l1, l2⟩ := ihOL _ _ _ _ _ _ _ _ _ _ hp
              rw [← hshape] at l2
              refine ⟨by omega, fun a => ?_⟩
              have e := c2 a
              have ev := v2 a
              have ea := a2 a
              have el := l2 a
              have t2 := allocatedIn_trans h c.2 h3 a c1 v1
              have t3 := allocatedIn_trans h h3 A.2 a (by omega) a1
              have t4 := allocatedIn_trans h A.2 h2 a (by omega) l1
              simp only [ownedBy, Option.map_some', Option.getD_some] at ev
              omega
    · intro input h r rest h2 hp
      obtain ⟨m1, m2, m3⟩ := malloc_ledger h
      rw [parseArrayT] at hp
      obtain ⟨l1, l2⟩ := ihAL _ _ _ _ _ _ _ _ hp
      simp only [create_arrayT] at l1 l2 ⊢
      refine ⟨by omega, fun a => ?_⟩
      have e := l2 a
      have t := allocatedIn_trans h h.malloc.2 h2 a (by omega) l1
      have m := m3 a
      simp only [Node.owned, Option.toList, ownedItems, List.append_nil] at e
      rw [m2] at e
      omega
    · intro addr items elems input h r rest h2 hp
      rw [parseArrayLoopT] at hp
      cases hv : parseValueT f input h with
      | none => rw [hv] at hp; simp at hp
      | some p =>
        obtain ⟨rv, input1, h1⟩ := p
        obtain ⟨v1, v2⟩ := ihV _ _ _ _ _ hv
        rw [hv] at hp
        cases rv with
        | none =>
          simp only [Option.some.injEq, Prod.mk.injEq] at hp
          obtain ⟨rfl, _, rfl⟩ := hp
          obtain ⟨g1, g2⟩ := free_value_spec (.array addr items elems) h1
          refine ⟨by omega, fun a => ?_⟩
          have ev := v2 a
          have t : allocatedIn h (free_json_valueT (.array addr items elems) h1) a =
              allocatedIn h h1 a := by
            simp only [allocatedIn, g1]
          rw [g2 a, t]
          simp only [ownedBy, Option.map_none', Option.getD_none, List.count_nil] at ev ⊢
          omega
        | some value =>
          obtain ⟨a1, a2⟩ := add_to_arrayT_ledger addr items elems value h1
          have hshape := add_to_arrayT_shape addr items elems value h1
          simp only at hp
          generalize hA : add_to_arrayT (.array addr items elems) value h1 = A
            at hp a1 a2 hshape
          split_ifs at hp with h4 h5
          · simp only [Option.some.injEq, Prod.mk.injEq] at hp
            obtain ⟨rfl, _, rfl⟩ := hp
            refine ⟨by omega, fun a => ?_⟩
            have ev := v2 a
            have ea := a2 a
            have t3 := allocatedIn_trans h h1 A.2 a v1 a1
            simp only [ownedBy, Option.map_some', Option.getD_some] at ev ⊢
            omega
          · simp only [Option.some.injEq, Prod.mk.injEq] at hp
            obtain ⟨rfl, _, rfl⟩ := hp
            obtain ⟨g1, g2⟩ := free_value_spec A.1 A.2
            refine ⟨by omega, fun a => ?_⟩
            have ev := v2 a
            have ea := a2 a
            have t3 := allocatedIn_trans h h1 A.2 a v1 a1
            have t : allocatedIn h (free_json_valueT A.1 A.2) a = allocatedIn h A.2 a := by
              simp only [allocatedIn, g1]
            rw [g2 a, t]
            simp only [ownedBy, Option.map_some', Option.getD_some, Option.map_none',
              Option.getD_none, List.count_nil] at ev ⊢
            omega
          · rw [hshape] at hp
            obtain ⟨l1, l2⟩ := ihAL _ _ _ _ _ _ _ _ hp
            rw [← hshape] at l2
            refine ⟨by omega, fun a => ?_⟩
            have ev := v2 a
            have ea := a2 a
            have el := l2 a
            have t3 := allocatedIn_trans h h1 A.2 a v1 a1
            have t4 := allocatedIn_trans h A.2 h2 a (by omega) l1
            simp only [ownedBy, Option.map_some', Option.getD_some] at ev
            omega

/-- An element in front of a token that is neither a comma nor the closing
bracket: the loop of `parseArray` fails. -/
theorem arrayLoop_bad_follower (acc : List JsonValue) (e : Element) (u : List Nat)
    (hok : e.okBefore u) (h1 : (nextToken u).1.type ≠ TOKEN_COMMA)
    (h2 : (nextToken u).1.type ≠ TOKEN_ARRAY_END) :
    ∃ g, ∀ k, parseArrayLoop (g + k) (.array acc) (e.source ++ u) =
      some (none, (nextToken u).2) := by
  obtain ⟨fe, he⟩ := element_step e u hok
  obtain ⟨t1, _, _, t4⟩ := nextToken_append_ws e.after u hok.2.1
  refine ⟨fe + 1, fun k => ?_⟩
  rw [show fe + 1 + k = (fe + k) + 1 by omega, parseArrayLoop, he k]
  simp only [t1, t4]
  rw [if_neg h2, if_pos h1]

/-- A member in front of a token that is neither a comma nor the closing
brace: the loop of `parseObject` fails. -/
theorem objectLoop_bad_follower (acc : List (Option (List Nat) × JsonValue)) (m : Member)
    (u : List Nat) (hok : m.okBefore u) (h1 : (nextToken u).1.type ≠ TOKEN_COMMA)
    (h2 : (nextToken u).1.type ≠ TOKEN_OBJECT_END) :
    (nextToken (m.source ++ u)).1.type = TOKEN_STRING ∧
    ∃ g, ∀ k, parseObjectLoop (g + k) (.object acc) (nextToken (m.source ++ u)).1
      (nextToken (m.source ++ u)).2 = some (none, (nextToken u).2) := by
  obtain ⟨hs, g, hg⟩ := member_step m u hok acc
  refine ⟨hs, g + 1, fun k => ?_⟩
  rw [show g + 1 + k = g + k + 1 by omega, hg k, if_neg h2, if_pos h1]

/-! ## Strings that are terminated -/

theorem scanString_close (s : List Nat) (n : Int) :
    hasClosingQuote s = true → (peek (scanString s n).1 == 34) = true := by
  induction s, n using scanString.induct with
  | case1 n => intro h; simp [hasClosingQuote] at h
  | case2 c rest n h =>
    intro hq
    rw [scanString.eq_def]; simp only [if_pos h]
    simp only [Bool.or_eq_true, beq_iff_eq] at h
    rcases h with h | h
    · subst h; rw [hasClosingQuote.eq_def] at hq; simp at hq
    · subst h; rfl
  | case3 c n h1 h2 =>
    intro hq
    simp only [Bool.or_eq_true, beq_iff_eq, not_or] at h1
    rw [hasClosingQuote.eq_def] at hq
    simp [h1.1, h1.2, h2] at hq
  | case4 c n h1 h2 d rest2 hd ih =>
    intro hq
    rw [scanString, if_neg h1, if_pos h2]
    simp only [hd, if_true]
    apply ih
    simp only [Bool.or_eq_true, beq_iff_eq, not_or] at h1
    simp only [bne_iff_ne, ne_eq] at hd
    rw [hasClosingQuote.eq_def] at hq
    simpa [h1.1, h1.2, h2, hd] using hq
  | case5 c n h1 h2 d rest2 hd =>
    intro hq
    simp only [Bool.or_eq_true, beq_iff_eq, not_or] at h1
    simp only [bne_iff_ne, ne_eq, not_not] at hd
    rw [hasClosingQuote.eq_def] at hq
    simp [h1.1, h1.2, h2, hd] at hq
  | case6 c rest n h1 h2 ih =>
    intro hq
    rw [scanString.eq_def]; simp only [if_neg h1, if_neg h2]
    apply ih
    simp only [Bool.or_eq_true, beq_iff_eq, not_or] at h1
    simp only [beq_iff_eq] at h2
    rw [hasClosingQuote.eq_def] at hq
    simpa [h1.1, h1.2, h2] using hq

/-- A terminated string whose text is not empty counts at least one character
between the quotes. -/
theorem scanString_counts_one (s : List Nat) (n : Int) (hq : hasClosingQuote s = true)
    (h1 : peek s ≠ 34) : n + 1 ≤ (scanString s n).2 := by
  cases s with
  | nil => simp [hasClosingQuote] at hq
  | cons c rest =>
    simp only [peek, List.headD_cons] at h1
    have h0 : c ≠ 0 := by
      intro h; subst h; rw [hasClosingQuote.eq_def] at hq; simp at hq
    have hc : ¬ ((c == 0 || c == 34) = true) := by simp [h0, h1]
    rw [scanString.eq_def]
    simp only [if_neg hc]
    by_cases h2 : (c == 92) = true
    · simp only [if_pos h2]
      cases rest with
      | nil => rw [hasClosingQuote.eq_def] at hq; simp [h0, h1, h2] at hq
      | cons d rest2 =>
        have hd : d ≠ 0 := by
          intro h; subst h; rw [hasClosingQuote.eq_def] at hq; simp [h0, h1, h2] at hq
        have hd2 : (d != 0) = true := by simpa using hd
        simp only [hd2, if_true]
        exact scanString_ge rest2 (n + 1)
    · simp only [if_neg h2]
      exact scanString_ge rest (n + 1)

/-! ## Nesting and the depth of the recursion -/

theorem parseValue_nested_short (n : Nat) :
    ∀ (f : Nat) (rest : List Nat), f ≤ 3 * n →
      parseValue f
        (List.replicate n 91 ++ (110 :: 117 :: 108 :: 108 :: (List.replicate n 93 ++ rest))) =
      none := by
  induction n with
  | zero =>
    intro f rest hf
    obtain rfl : f = 0 := by omega
    rfl
  | succ n ih =>
    intro f rest hf
    have hr : List.replicate (n + 1) 93 ++ rest = List.replicate n 93 ++ 93 :: rest := by
      rw [List.replicate_succ', List.append_assoc]; rfl
    rw [hr, List.replicate_succ, List.cons_append]
    match f, hf with
    | 0, _ => rfl
    | 1, _ =>
      rw [parseValue]
      simp only [nextToken_cons_lbracket]
      rfl
    | 2, _ =>
      rw [parseValue]
      simp only [nextToken_cons_lbracket]
      rw [parseArray]
      rfl
    | g + 3, hg =>
      rw [parseValue]
      simp only [nextToken_cons_lbracket]
      rw [parseArray, parseArrayLoop, ih g (93 :: rest) (by omega)]

/-! ## What follows a value does not change it: the general case -/

theorem stopsAt_append_left {p : Nat → Bool} {cur t : List Nat} (h : stopsAt p (cur ++ t)) :
    stopsAt p cur := by
  cases cur with
  | nil => trivial
  | cons c r => exact h

theorem stopsAt_append_nil {p : Nat → Bool} {cur t : List Nat} (h : stopsAt p (cur ++ t))
    (hc : cur = []) : stopsAt p t := by
  subst hc; exact h

theorem peek_frame_end {X t : List Nat} (ht : X = [] → stopsAt numberChar t) {c : Nat}
    (hc : numberChar c = true) : (peek (X ++ t) == c) = (peek X == c) := by
  cases X with
  | cons x r => rfl
  | nil => exact peek_frame (ht rfl) hc

theorem scanDigits_nil (n : Int) : scanDigits [] n = ([], n) := rfl

theorem scanFraction_nil (n : Int) : scanFraction [] n = ([], n) := rfl

theorem scanExponent_nil (n : Int) : scanExponent [] n = ([], n) := rfl

theorem scanDigits_frame_end (X t : List Nat) :
    ∀ n : Int, ((scanDigits X n).1 = [] → stopsAt isDigitC t) →
      scanDigits (X ++ t) n = ((scanDigits X n).1 ++ t, (scanDigits X n).2) := by
  induction X with
  | nil => intro n h; exact scanDigits_frame [] t (h rfl) n
  | cons c rest ih =>
    intro n h
    rw [scanDigits] at h
    rw [List.cons_append, scanDigits, scanDigits]
    split_ifs at h ⊢
    · exact ih _ h
    · rfl

theorem scanFraction_frame_end (X t : List Nat) (n : Int)
    (h : (scanFraction X n).1 = [] → stopsAt numberChar t) :
    scanFraction (X ++ t) n = ((scanFraction X n).1 ++ t, (scanFraction X n).2) := by
  have hX : X = [] → stopsAt numberChar t := by
    intro e; subst e; exact h rfl
  rw [scanFraction] at h
  rw [scanFraction, scanFraction, peek_frame_end hX (by decide)]
  split_ifs at h ⊢ with hp
  · rw [tail_frame _ _ (ne_nil_of_peek hp (by decide))]
    exact scanDigits_frame_end _ _ _ (fun e => stopsAt_mono numberChar_digit (h e))
  · rfl

theorem scanExponent_frame_end (X t : List Nat) (n : Int)
    (h : (scanExponent X n).1 = [] → stopsAt numberChar t) :
    scanExponent (X ++ t) n = ((scanExponent X n).1 ++ t, (scanExponent X n).2) := by
  have hX : X = [] → stopsAt numberChar t := by
    intro e; subst e; exact h rfl
  rw [scanExponent] at h
  rw [scanExponent, scanExponent, peek_frame_end hX (by decide : numberChar 101 = true),
    peek_frame_end hX (by decide : numberChar 69 = true)]
  by_cases hp : (peek X == 101 || peek X == 69) = true
  · have hne : X ≠ [] := by
      simp only [Bool.or_eq_true] at hp
      rcases hp with hp | hp
      · exact ne_nil_of_peek hp (by decide)
      · exact ne_nil_of_peek hp (by decide)
    rw [if_pos hp] at h
    rw [if_pos hp, if_pos hp, tail_frame _ _ hne]
    by_cases h2 : (peek X.tail == 43 || peek X.tail == 45) = true
    · have hne2 : X.tail ≠ [] := by
        simp only [Bool.or_eq_true] at h2
        rcases h2 with h2 | h2
        · exact ne_nil_of_peek h2 (by decide)
        · exact ne_nil_of_peek h2 (by decide)
      have hpk : (peek (X.tail ++ t) == 43 || peek (X.tail ++ t) == 45) = true := by
        cases hx : X.tail with
        | nil => exact absurd hx hne2
        | cons a b => rw [hx] at h2; exact h2
      rw [if_pos h2] at h
      rw [if_pos hpk, if_pos h2, tail_frame _ _ hne2]
      exact scanDigits_frame_end _ _ _ (fun e => stopsAt_mono numberChar_digit (h e))
    · rw [if_neg h2] at h
      have hT : X.tail = [] → stopsAt numberChar t := by
        intro e
        apply h
        rw [e]; rfl
      have hpk : ¬ (peek (X.tail ++ t) == 43 || peek (X.tail ++ t) == 45) = true := by
        rw [peek_frame_end hT (by decide : numberChar 43 = true),
          peek_frame_end hT (by decide : numberChar 45 = true)]
        exact h2
      rw [if_neg hpk, if_neg h2]
      exact scanDigits_frame_end _ _ _ (fun e => stopsAt_mono numberChar_digit (h e))
  · rw [if_neg hp, if_neg hp]

theorem scanNumberBody_frame_end (c : Nat) (X t : List Nat) (hX : X ≠ [])
    (h : (scanNumberBody c X).1 = [] → stopsAt numberChar t) :
    scanNumberBody c (X ++ t) = ((scanNumberBody c X).1 ++ t, (scanNumberBody c X).2) := by
  have h1 : (if (c == 45) = true then (X ++ t).tail else X ++ t) =
      (if (c == 45) = true then X.tail else X) ++ t := by
    split_ifs
    · exact tail_frame _ _ hX
    · rfl
  rw [scanNumberBody] at h
  rw [scanNumberBody, scanNumberBody, h1]
  generalize (if (c == 45) = true then X.tail else X) = X0 at h ⊢
  have hF : (scanFraction (scanDigits X0 0).1 (scanDigits X0 0).2).1 = [] →
      stopsAt numberChar t := by
    intro e
    apply h
    rw [e]; rfl
  have hD : (scanDigits X0 0).1 = [] → stopsAt numberChar t := by
    intro e
    apply hF
    rw [e]; rfl
  rw [scanDigits_frame_end _ _ _ (fun e => stopsAt_mono numberChar_digit (hD e))]
  simp only
  rw [scanFraction_frame_end _ _ _ hF]
  simp only
  rw [scanExponent_frame_end _ _ _ h]

theorem scanToken_frame_end (c : Nat) (X t : List Nat) (hX : X ≠ [])
    (h : (scanToken c X).1 ≠ TOKEN_ERROR)
    (ht : (scanToken c X).1 = TOKEN_NUMBER → (scanToken c X).2.2 = [] → stopsAt numberChar t) :
    scanToken c (X ++ t) = ((scanToken c X).1, (scanToken c X).2.1, (scanToken c X).2.2 ++ t) := by
  have htl := tail_frame X t hX
  rcases scanToken_cases c X with h1 | h1 | h1 | h1 | h1 | h1 | h1 | h1 | h1 | h1 | h1 | h1 | h1 |
    h1 | h1
  · obtain ⟨hc, he⟩ := h1; subst hc; rw [he]; simp only [scanToken]; simp [htl]
  · obtain ⟨hc, he⟩ := h1; subst hc; rw [he]; simp only [scanToken]; simp [htl]
  · obtain ⟨hc, he⟩ := h1; subst hc; rw [he]; simp only [scanToken]; simp [htl]
  · obtain ⟨hc, he⟩ := h1; subst hc; rw [he]; simp only [scanToken]; simp [htl]
  · obtain ⟨hc, he⟩ := h1; subst hc; rw [he]; simp only [scanToken]; simp [htl]
  · obtain ⟨hc, he⟩ := h1; subst hc; rw [he]; simp only [scanToken]; simp [htl]
  · obtain ⟨hc, he⟩ := h1; subst hc
    have e2 : scanToken 34 (X ++ t) = scanStringToken (X ++ t) := rfl
    rw [he] at h ⊢
    rw [e2]; exact scanStringToken_frame X t hX h
  · obtain ⟨hc, he⟩ := h1; subst hc
    have e2 : scanToken 116 (X ++ t) = scanKeyword TOKEN_TRUE [114, 117, 101] (X ++ t) := rfl
    rw [he] at h ⊢
    rw [e2]; exact scanKeyword_frame _ _ X t hX h
  · obtain ⟨hc, he⟩ := h1; subst hc
    have e2 : scanToken 84 (X ++ t) = scanKeyword TOKEN_TRUE [82, 85, 69] (X ++ t) := rfl
    rw [he] at h ⊢
    rw [e2]; exact scanKeyword_frame _ _ X t hX h
  · obtain ⟨hc, he⟩ := h1; subst hc
    have e2 : scanToken 102 (X ++ t) = scanKeyword TOKEN_FALSE [97, 108, 115, 101] (X ++ t) := rfl
    rw [he] at h ⊢
    rw [e2]; exact scanKeyword_frame _ _ X t hX h
  · obtain ⟨hc, he⟩ := h1; subst hc
    have e2 : scanToken 70 (X ++ t) = scanKeyword TOKEN_FALSE [65, 76, 83, 69] (X ++ t) := rfl
    rw [he] at h ⊢
    rw [e2]; exact scanKeyword_frame _ _ X t hX h
  · obtain ⟨hc, he⟩ := h1; subst hc
    have e2 : scanToken 110 (X ++ t) = scanKeyword TOKEN_NULL [117, 108, 108] (X ++ t) := rfl
    rw [he] at h ⊢
    rw [e2]; exact scanKeyword_frame _ _ X t hX h
  · obtain ⟨hc, he⟩ := h1; subst hc
    have e2 : scanToken 78 (X ++ t) = scanKeyword TOKEN_NULL [85, 76, 76] (X ++ t) := rfl
    rw [he] at h ⊢
    rw [e2]; exact scanKeyword_frame _ _ X t hX h
  · obtain ⟨hc, he⟩ := h1
    rw [he] at ht
    rw [he, scanToken_number c (X ++ t) (by tauto),
      scanNumberBody_frame_end c X t hX (fun e => ht rfl e)]
  · rw [h1] at h; exact absurd rfl h

/-- A token is read the same way when text follows the input, provided that a
Number token that reaches the end of the input is not followed by a character
that could continue it. -/
theorem nextToken_frame_end (s t : List Nat)
    (h1 : (nextToken s).1.type ≠ TOKEN_EOF) (h2 : (nextToken s).1.type ≠ TOKEN_ERROR)
    (ht : (nextToken s).1.type = TOKEN_NUMBER → (nextToken s).2 = [] → stopsAt numberChar t) :
    (nextToken (s ++ t)).1.type = (nextToken s).1.type ∧
    (nextToken (s ++ t)).1.start = (nextToken s).1.start.map (· ++ t) ∧
    (nextToken (s ++ t)).1.length = (nextToken s).1.length ∧
    (nextToken (s ++ t)).2 = (nextToken s).2 ++ t := by
  obtain ⟨ws, hs, hws, hnw⟩ := skipWhitespace_split s 1 1
  generalize hXdef : (skipWhitespace s 1 1).1 = X at hs hnw
  have a1 := nextToken_append_ws ws X hws
  have a2 := nextToken_append_ws ws (X ++ t) hws
  rw [← List.append_assoc, ← hs] at a2
  rw [← hs] at a1
  obtain ⟨b1, b2, b3, b4⟩ := a1
  obtain ⟨c1, c2, c3, c4⟩ := a2
  rw [b1] at h1 h2
  rw [b1, b4] at ht
  rw [b1, b2, b3, b4, c1, c2, c3, c4]
  have hsk : skipWhitespace X 1 1 = (X, 1, 1) := by
    cases X with
    | nil => rfl
    | cons x r =>
      simp only [peek, List.headD_cons] at hnw
      rw [skipWhitespace]; simp [hnw]
  have hX0 : ¬ (peek X == 0) = true := by
    intro h0
    apply h1
    rw [nextToken, hsk, tokenAt, if_pos h0]
  have hX : X ≠ [] := by
    intro hX; subst hX; exact hX0 rfl
  have hpk : peek (X ++ t) = peek X := by
    cases X with
    | nil => exact absurd rfl hX
    | cons x r => rfl
  have hsk2 : skipWhitespace (X ++ t) 1 1 = (X ++ t, 1, 1) := by
    cases X with
    | nil => exact absurd rfl hX
    | cons x r =>
      simp only [peek, List.headD_cons] at hnw
      rw [List.cons_append, skipWhitespace]; simp [hnw]
  rw [nextToken, hsk, tokenAt, if_neg hX0] at h2 ht
  simp only at h2 ht
  have hf := scanToken_frame_end (peek X) X t hX h2 ht
  rw [nextToken, hsk2, nextToken, hsk, tokenAt, tokenAt, hpk, if_neg hX0, if_neg hX0, hf]
  exact ⟨rfl, rfl, rfl, rfl⟩

/-- A Number token begins with a digit or a minus and has moved the cursor. -/
theorem number_token_span (input : List Nat) (h : (nextToken input).1.type = TOKEN_NUMBER) :
    ∃ N, N ≠ [] ∧ numberChar (peek N) = true ∧
      (nextToken input).1.start = some (N ++ (nextToken input).2) := by
  rw [nextToken, tokenAt] at h ⊢
  by_cases h0 : (peek (skipWhitespace input 1 1).1 == 0) = true
  · rw [if_pos h0] at h; simp at h
  · rw [if_neg h0] at h ⊢
    simp only at h ⊢
    have hp0 : peek (skipWhitespace input 1 1).1 ≠ 0 := by simpa using h0
    obtain ⟨N, hN, _⟩ := scanToken_advances (skipWhitespace input 1 1).1 hp0
    have hnum := scanToken_number_inv _ _ h
    generalize (skipWhitespace input 1 1).1 = X at h hp0 hN hnum ⊢
    cases X with
    | nil => exact absurd rfl hp0
    | cons c rest =>
      simp only [peek, List.headD_cons] at hN hnum ⊢
      have hlen := scanToken_length c rest
      have hne : N ≠ [] := by
        intro e
        rw [e, List.nil_append] at hN
        rw [← hN] at hlen
        simp only [List.length_cons] at hlen
        omega
      refine ⟨N, hne, ?_, by rw [← hN]⟩
      cases N with
      | nil => exact absurd rfl hne
      | cons a b =>
        rw [List.cons_append] at hN
        injection hN with e1 e2
        simp only [peek, List.headD_cons]
        rw [← e1]; exact hnum

theorem parseNumber_frame_end (s t : List Nat)
    (h : (nextToken s).1.type = TOKEN_NUMBER)
    (ht : stopsAt numberChar ((nextToken s).2 ++ t)) :
    parseNumber (nextToken (s ++ t)).1 = parseNumber (nextToken s).1 := by
  obtain ⟨f1, f2, _, _⟩ := nextToken_frame_end s t (by rw [h]; decide) (by rw [h]; decide)
    (fun _ e => stopsAt_append_nil ht e)
  obtain ⟨N, hN, hp, hX⟩ := number_token_span s h
  rw [parseNumber, parseNumber, f1, f2, hX]
  simp only [Option.map_some', Option.getD_some]
  rw [List.append_assoc, strtod_frame N _ ht hp,
    strtod_frame N _ (stopsAt_append_left ht) hp]

theorem token_copy_frame_end (s t : List Nat) (h : (nextToken s).1.type = TOKEN_STRING) :
    copy_string ((nextToken (s ++ t)).1.start.map List.tail) ((nextToken (s ++ t)).1.length - 2) =
      copy_string ((nextToken s).1.start.map List.tail) ((nextToken s).1.length - 2) := by
  obtain ⟨_, f2, f3, _⟩ := nextToken_frame_end s t (by rw [h]; decide) (by rw [h]; decide)
    (fun e => by rw [h] at e; exact absurd e (by decide))
  obtain ⟨b, hb, hl⟩ := string_token_form s h
  have hc := scanString_count b 1
  rw [f2, f3, hb, hl]
  simp only [Option.map_some', List.cons_append, List.tail_cons, copy_string]
  split_ifs
  · rfl
  · rfl
  · rw [List.take_append_of_le_length (by omega)]

theorem parseString_frame_end (s t : List Nat) (h : (nextToken s).1.type = TOKEN_STRING) :
    parseString (nextToken (s ++ t)).1 = parseString (nextToken s).1 := by
  have hc := token_copy_frame_end s t h
  obtain ⟨f1, _, f3, _⟩ := nextToken_frame_end s t (by rw [h]; decide) (by rw [h]; decide)
    (fun e => by rw [h] at e; exact absurd e (by decide))
  rw [parseString, parseString, create_string, create_string, hc, f1, f3]

theorem scanToken_closing_inv (c : Nat) (X : List Nat)
    (h : (scanToken c X).1 = TOKEN_COMMA ∨ (scanToken c X).1 = TOKEN_ARRAY_END ∨
      (scanToken c X).1 = TOKEN_OBJECT_END) : numberChar c = false := by
  have hk : ∀ ty tail, ty ≠ TOKEN_COMMA → ty ≠ TOKEN_ARRAY_END → ty ≠ TOKEN_OBJECT_END →
      ¬ ((scanKeyword ty tail X).1 = TOKEN_COMMA ∨ (scanKeyword ty tail X).1 = TOKEN_ARRAY_END ∨
        (scanKeyword ty tail X).1 = TOKEN_OBJECT_END) := by
    intro ty tail h1 h2 h3
    rcases scanKeyword_fst ty tail X with h4 | h4
    · rw [h4.1]; tauto
    · rw [h4]; simp
  rcases scanToken_cases c X with ⟨hc, he⟩ | ⟨hc, he⟩ | ⟨hc, he⟩ | ⟨hc, he⟩ | ⟨hc, he⟩ |
    ⟨hc, he⟩ | ⟨_, he⟩ | ⟨_, he⟩ | ⟨_, he⟩ | ⟨_, he⟩ | ⟨_, he⟩ | ⟨_, he⟩ | ⟨_, he⟩ | ⟨_, he⟩ | he
  · subst hc; rfl
  · subst hc; rfl
  · subst hc; rfl
  · subst hc; rfl
  · subst hc; rfl
  · subst hc; rfl
  · rw [he] at h
    rcases scanStringToken_fst X with h2 | h2 <;> rw [h2] at h <;> simp at h
  · rw [he] at h; exact absurd h (hk _ _ (by decide) (by decide) (by decide))
  · rw [he] at h; exact absurd h (hk _ _ (by decide) (by decide) (by decide))
  · rw [he] at h; exact absurd h (hk _ _ (by decide) (by decide) (by decide))
  · rw [he] at h; exact absurd h (hk _ _ (by decide) (by decide) (by decide))
  · rw [he] at h; exact absurd h (hk _ _ (by decide) (by decide) (by decide))
  · rw [he] at h; exact absurd h (hk _ _ (by decide) (by decide) (by decide))
  · rw [he] at h; simp at h
  · rw [he] at h; simp at h

/-- In front of a comma or a closing bracket or brace, after whitespace or not,
nothing can continue a number. -/
theorem stopsAt_closing (s t : List Nat)
    (h : (nextToken s).1.type = TOKEN_COMMA ∨ (nextToken s).1.type = TOKEN_ARRAY_END ∨
      (nextToken s).1.type = TOKEN_OBJECT_END) : stopsAt numberChar (s ++ t) := by
  obtain ⟨ws, hs, hws, hnw⟩ := skipWhitespace_split s 1 1
  rw [nextToken, tokenAt] at h
  by_cases h0 : (peek (skipWhitespace s 1 1).1 == 0) = true
  · rw [if_pos h0] at h; simp at h
  · rw [if_neg h0] at h
    simp only at h
    have hc := scanToken_closing_inv _ _ h
    rw [hs, List.append_assoc]
    apply stopsAt_ws_append _ _ hws
    cases hX : (skipWhitespace s 1 1).1 with
    | nil => rw [hX] at h0; exact absurd rfl h0
    | cons x r =>
      rw [hX] at hc
      exact hc

/-- A value that was parsed is parsed the same way when any text follows the
input; only a Number needs that what comes after it cannot continue it. -/
theorem parser_frame_end (fuel : Nat) :
    (∀ input x cur t,
      ((nextToken input).1.type = TOKEN_NUMBER → stopsAt numberChar (cur ++ t)) →
      parseValue fuel input = some (some x, cur) →
      parseValue fuel (input ++ t) = some (some x, cur ++ t)) ∧
    (∀ input x cur t, parseObject fuel input = some (some x, cur) →
      parseObject fuel (input ++ t) = some (some x, cur ++ t)) ∧
    (∀ obj tok tok2 input x cur t, tok2.type = tok.type →
      copy_string (tok2.start.map List.tail) (tok2.length - 2) =
        copy_string (tok.start.map List.tail) (tok.length - 2) →
      parseObjectLoop fuel obj tok input = some (some x, cur) →
      parseObjectLoop fuel obj tok2 (input ++ t) = some (some x, cur ++ t)) ∧
    (∀ input x cur t, parseArray fuel input = some (some x, cur) →
      parseArray fuel (input ++ t) = some (some x, cur ++ t)) ∧
    (∀ arr input x cur t, parseArrayLoop fuel arr input = some (some x, cur) →
      parseArrayLoop fuel arr (input ++ t) = some (some x, cur ++ t)) := by
  have nonum : ∀ {s : List Nat} {ty : JsonTokenType}, (nextToken s).1.type = ty →
      ty ≠ TOKEN_NUMBER → ∀ t : List Nat,
      (nextToken s).1.type = TOKEN_NUMBER → (nextToken s).2 = [] → stopsAt numberChar t := by
    intro s ty h1 h2 t e
    rw [h1] at e
    exact absurd e h2
  induction fuel with
  | zero =>
    refine ⟨?_, ?_, ?_, ?_, ?_⟩ <;> intros <;> simp_all [parseValue, parseObject,
      parseObjectLoop, parseArray, parseArrayLoop]
  | succ f ih =>
    obtain ⟨ihV, ihO, ihOL, ihA, ihAL⟩ := ih
    refine ⟨?_, ?_, ?_, ?_, ?_⟩
    · intro input x cur t ht h
      rw [parseValue] at h ⊢
      cases hty : (nextToken input).1.type
      case TOKEN_STRING =>
        obtain ⟨f1, _, _, f4⟩ := nextToken_frame_end input t (by rw [hty]; decide)
          (by rw [hty]; decide) (nonum hty (by decide) t)
        rw [hty] at h f1
        simp only [f1, f4, parseString_frame_end input t hty] at h ⊢
        simp only [Option.some.injEq, Prod.mk.injEq] at h ⊢
        exact ⟨h.1, by rw [h.2]⟩
      case TOKEN_NUMBER =>
        have hcur : (nextToken input).2 = cur := by
          rw [hty] at h
          simp only [Option.some.injEq, Prod.mk.injEq] at h
          exact h.2
        have hstop : stopsAt numberChar ((nextToken input).2 ++ t) := by
          rw [hcur]; exact ht hty
        obtain ⟨f1, _, _, f4⟩ := nextToken_frame_end input t (by rw [hty]; decide)
          (by rw [hty]; decide) (fun _ e => stopsAt_append_nil hstop e)
        rw [hty] at h f1
        simp only [f1, f4, parseNumber_frame_end input t hty hstop] at h ⊢
        simp only [Option.some.injEq, Prod.mk.injEq] at h ⊢
        exact ⟨h.1, by rw [h.2]⟩
      case TOKEN_TRUE =>
        obtain ⟨f1, _, _, f4⟩ := nextToken_frame_end input t (by rw [hty]; decide)
          (by rw [hty]; decide) (nonum hty (by decide) t)
        have hl := parseLiteral_congr f1
        rw [hty] at h f1
        simp only [f1, f4, hl] at h ⊢
        simp only [Option.some.injEq, Prod.mk.injEq] at h ⊢
        exact ⟨h.1, by rw [h.2]⟩
      case TOKEN_FALSE =>
        obtain ⟨f1, _, _, f4⟩ := nextToken_frame_end input t (by rw [hty]; decide)
          (by rw [hty]; decide) (nonum hty (by decide) t)
        have hl := parseLiteral_congr f1
        rw [hty] at h f1
        simp only [f1, f4, hl] at h ⊢
        simp only [Option.some.injEq, Prod.mk.injEq] at h ⊢
        exact ⟨h.1, by rw [h.2]⟩
      case TOKEN_NULL =>
        obtain ⟨f1, _, _, f4⟩ := nextToken_frame_end input t (by rw [hty]; decide)
          (by rw [hty]; decide) (nonum hty (by decide) t)
        have hl := parseLiteral_congr f1
        rw [hty] at h f1
        simp only [f1, f4, hl] at h ⊢
        simp only [Option.some.injEq, Prod.mk.injEq] at h ⊢
        exact ⟨h.1, by rw [h.2]⟩
      case TOKEN_OBJECT_START =>
        obtain ⟨f1, _, _, f4⟩ := nextToken_frame_end input t (by rw [hty]; decide)
          (by rw [hty]; decide) (nonum hty (by decide) t)
        rw [hty] at h f1
        simp only [f1, f4] at h ⊢
        exact ihO _ _ _ _ h
      case TOKEN_ARRAY_START =>
        obtain ⟨f1, _, _, f4⟩ := nextToken_frame_end input t (by rw [hty]; decide)
          (by rw [hty]; decide) (nonum hty (by decide) t)
        rw [hty] at h f1
        simp only [f1, f4] at h ⊢
        exact ihA _ _ _ _ h
      all_goals (rw [hty] at h; simp at h)
    · intro input x cur t h
      rw [parseObject] at h ⊢
      by_cases he : (nextToken input).1.type = TOKEN_OBJECT_END
      · obtain ⟨f1, _, _, f4⟩ := nextToken_frame_end input t (by rw [he]; decide)
          (by rw [he]; decide) (nonum he (by decide) t)
        rw [if_pos he] at h
        rw [if_pos (by rw [f1]; exact he), f4]
        simp only [Option.some.injEq, Prod.mk.injEq] at h ⊢
        exact ⟨h.1, by rw [h.2]⟩
      · rw [if_neg he] at h
        have hs := parseObjectLoop_string _ _ _ _ _ _ h
        obtain ⟨f1, _, _, f4⟩ := nextToken_frame_end input t (by rw [hs]; decide)
          (by rw [hs]; decide) (nonum hs (by decide) t)
        rw [if_neg (by rw [f1]; exact he), f4]
        exact ihOL _ _ _ _ _ _ _ f1 (token_copy_frame_end input t hs) h
    · intro obj tok tok2 input x cur t hty hcopy h
      obtain ⟨hs, hc, value, input3, hv, hrest⟩ := parseObjectLoop_inv f obj tok input x cur h
      obtain ⟨f1, _, _, f4⟩ := nextToken_frame_end input t (by rw [hc]; decide)
        (by rw [hc]; decide) (nonum hc (by decide) t)
      have hclose : (nextToken input3).1.type = TOKEN_COMMA ∨
          (nextToken input3).1.type = TOKEN_ARRAY_END ∨
          (nextToken input3).1.type = TOKEN_OBJECT_END := by
        rcases hrest with ⟨h4, _, _⟩ | ⟨h5, _⟩
        · exact Or.inr (Or.inr h4)
        · exact Or.inl h5
      have hv2 := ihV _ _ _ t (fun _ => stopsAt_closing input3 t hclose) hv
      rw [parseObjectLoop, if_neg (by rw [hty, hs]; simp), if_neg (by rw [f1, hc]; simp), f4,
        hv2, hcopy]
      simp only
      rcases hrest with ⟨h4, hx, hcur⟩ | ⟨h5, hrec⟩
      · obtain ⟨g1, _, _, g4⟩ := nextToken_frame_end input3 t (by rw [h4]; decide)
          (by rw [h4]; decide) (nonum h4 (by decide) t)
        rw [if_pos (by rw [g1]; exact h4), g4, hx, hcur]
      · obtain ⟨g1, _, _, g4⟩ := nextToken_frame_end input3 t (by rw [h5]; decide)
          (by rw [h5]; decide) (nonum h5 (by decide) t)
        have hs2 := parseObjectLoop_string _ _ _ _ _ _ hrec
        obtain ⟨k1, _, _, k4⟩ := nextToken_frame_end (nextToken input3).2 t
          (by rw [hs2]; decide) (by rw [hs2]; decide) (nonum hs2 (by decide) t)
        rw [if_neg (by rw [g1, h5]; decide), if_neg (by rw [g1, h5]; simp), g4, k4]
        exact ihOL _ _ _ _ _ _ _ k1 (token_copy_frame_end _ t hs2) hrec
    · intro input x cur t h
      rw [parseArray] at h ⊢
      exact ihAL _ _ _ _ _ h
    · intro arr input x cur t h
      obtain ⟨value, input1, hv, hrest⟩ := parseArrayLoop_inv f arr input x cur h
      have hclose : (nextToken input1).1.type = TOKEN_COMMA ∨
          (nextToken input1).1.type = TOKEN_ARRAY_END ∨
          (nextToken input1).1.type = TOKEN_OBJECT_END := by
        rcases hrest with ⟨h4, _, _⟩ | ⟨h5, _⟩
        · exact Or.inr (Or.inl h4)
        · exact Or.inl h5
      have hv2 := ihV _ _ _ t (fun _ => stopsAt_closing input1 t hclose) hv
      rw [parseArrayLoop, hv2]
      simp only
      rcases hrest with ⟨h4, hx, hcur⟩ | ⟨h5, hrec⟩
      · obtain ⟨g1, _, _, g4⟩ := nextToken_frame_end input1 t (by rw [h4]; decide)
          (by rw [h4]; decide) (nonum h4 (by decide) t)
        rw [if_pos (by rw [g1]; exact h4), g4, hx, hcur]
      · obtain ⟨g1, _, _, g4⟩ := nextToken_frame_end input1 t (by rw [h5]; decide)
          (by rw [h5]; decide) (nonum h5 (by decide) t)
        rw [if_neg (by rw [g1, h5]; decide), if_neg (by rw [g1, h5]; simp), g4]
        exact ihAL _ _ _ _ _ hrec

theorem number_of_number_token (fuel : Nat) (input cur : List Nat) (x : JsonValue)
    (h : parseValue fuel input = some (some x, cur))
    (hty : (nextToken input).1.type = TOKEN_NUMBER) : ∃ d, x = .number d := by
  cases fuel with
  | zero => simp [parseValue] at h
  | succ f =>
    rw [parseValue, hty] at h
    simp only [parseNumber, hty, ne_eq, not_true_eq_false, if_false, Option.some.injEq,
      Prod.mk.injEq, create_number] at h
    exact ⟨_, h.1.symm⟩

/-! ## The claims -/

/-- C1 (counterexample). The round trip fails on the accepted input `"a\"b"`:
it parses to the String `a\"`, which `print_json` writes as `"a\""`, and that
text parses to the different String `a\`. -/
theorem roundtrip_fails_on_escaped_quote :
    parse (bytes "\"a\\\"b\"") = some (some (.string [97, 92, 34] 3)) ∧
    print_json (.string [97, 92, 34] 3) 0 = some (bytes "\"a\\\"\"") ∧
    parse (bytes "\"a\\\"\"") = some (some (.string [97, 92] 2)) ∧
    JsonValue.string [97, 92] 2 ≠ JsonValue.string [97, 92, 34] 3 := by
  refine ⟨rfl, rfl, rfl, ?_⟩
  simp

/-- C1 (amended). Round trip for trees whose texts have no backslash and whose
numbers survive six decimals: for every input that `parseValue` accepts (with
whatever bound on the recursion, leaving whatever text behind), if `print_json`
at indent level 0 is defined on the resulting tree (no null key, fewer than 128
levels), no String or key of the tree contains a backslash, and every Number of
the tree is finite and is read back by `strtod` from the text `%lf` writes for
it, then parsing the text `print_json` writes succeeds and yields the same
tree. -/
theorem roundtrip_plain (fuel : Nat) (input rest text : List Nat) (v : JsonValue)
    (h1 : parseValue fuel input = some (some v, rest)) (h2 : print_json v 0 = some text)
    (h3 : NoBackslash v) (h4 : NumbersSurvive v) :
    parse text = some (some v) :=
  roundtrip_of_parsed fuel input rest text v h1 h2 h3 h4

/-- C1 (amended) at the input `{"a":1,"b":[true,false,null]}`. -/
theorem roundtrip_plain_witness :
    parse (bytes "\x7b\"a\":1,\"b\":[true,false,null]\x7d") =
      some (some (.object
        [(some (bytes "a"), .number (.finite false 1 0)),
         (some (bytes "b"), .array [.boolean 1, .boolean 0, .null])])) ∧
    print_json (.object
        [(some (bytes "a"), .number (.finite false 1 0)),
         (some (bytes "b"), .array [.boolean 1, .boolean 0, .null])]) 0 =
      some (bytes "\x7b\n\"a\": 1.000000,\n\"b\": [\n\ttrue,false,null\n\t]\n\x7d") ∧
    parse (bytes "\x7b\n\"a\": 1.000000,\n\"b\": [\n\ttrue,false,null\n\t]\n\x7d") =
      some (some (.object
        [(some (bytes "a"), .number (.finite false 1 0)),
         (some (bytes "b"), .array [.boolean 1, .boolean 0, .null])])) := by
  refine ⟨rfl, rfl,
    roundtrip_plain 90 (bytes "\x7b\"a\":1,\"b\":[true,false,null]\x7d") [] _ _ rfl rfl ?_ ?_⟩
  · simp [NoBackslash, JsonValue.All, AllPairs, AllItems, noBackslashNode, noBackslashKey,
      bytes]
  · simp only [NumbersSurvive, JsonValue.All, AllPairs, AllItems, survivesPrintNode,
      and_self, and_true]
    exact ⟨trivial, trivial, rfl⟩

/-- C2. Parsing `{"a":1,"b":[true,false,null]}` succeeds and yields the Object
with the two pairs `a` to Number 1.0 (`1 * 2^0`) and `b` to the Array of
Boolean true, Boolean false and Null, in this order. -/
theorem parse_sample_object :
    parse (bytes "\x7b\"a\":1,\"b\":[true,false,null]\x7d") =
      some (some (.object
        [(some (bytes "a"), .number (.finite false 1 0)),
         (some (bytes "b"), .array [.boolean 1, .boolean 0, .null])])) := by
  rfl

/-- C3 (the code at the failing input). `parseValue` returns null on `[]` and
on `[ ]`: `parseArray` asks for a value first and meets the closing bracket,
while `parseObject` returns the empty object on `{}`. -/
theorem parse_empty_array_fails :
    parse (bytes "[]") = some none ∧ parse (bytes "[ ]") = some none ∧
    parse (bytes "\x7b\x7d") = some (some (.object [])) := by
  exact ⟨rfl, rfl, rfl⟩

/-- C4. For every input made of an opening brace, any amount of whitespace and
a closing brace, `parseValue` succeeds and yields the Object with zero pairs. -/
theorem parse_empty_object (ws : List Nat) (h : ∀ c ∈ ws, isWhitespace c = true) :
    parse (123 :: (ws ++ [125])) = some (some (.object [])) := by
  rw [parse, fuelFor_eq, parseValue_empty_object _ ws [] h]
  rfl

/-- C4 at the input `{ \t\r\n}`. -/
theorem parse_empty_object_witness :
    (∀ c ∈ bytes " \t\r\n", isWhitespace c = true) ∧
    parse (123 :: (bytes " \t\r\n" ++ [125])) = some (some (.object [])) :=
  ⟨by decide, parse_empty_object (bytes " \t\r\n") (by decide)⟩

/-- C5 (counterexample). Parsing the six characters `"a\"b"` yields the String
of the three characters a, backslash, quote, not a, quote, b. -/
theorem escaped_quote_not_decoded :
    parse (bytes "\"a\\\"b\"") = some (some (.string [97, 92, 34] 3)) ∧
    parse (bytes "\"a\\\"b\"") ≠ some (some (.string [97, 34, 98] 3)) := by
  refine ⟨rfl, ?_⟩
  intro h
  have h2 : parse (bytes "\"a\\\"b\"") = some (some (.string [97, 92, 34] 3)) := rfl
  rw [h2] at h
  simp at h

/-- C5 (amended). String values are copied raw, not decoded.  For every
literal whose text between the quotes is not empty and has no quote, backslash
or NUL, whatever whitespace stands before it and whatever text after it, the
result is the String whose text is exactly the text between the quotes.  For
every terminated literal whose text is not empty, escapes or not, the result
is a String, not null, whose text is the first `token.length - 2` characters
after the opening quote exactly as they stand in the buffer, at least one
character and no more than there are, with their number as recorded length.
(Literals that fit the `int32_t` counters.) -/
theorem string_literal_raw_copy (ws : List Nat) (hws : ∀ c ∈ ws, isWhitespace c = true) :
    (∀ s rest, s ≠ [] → (∀ c ∈ s, c ≠ 34 ∧ c ≠ 92 ∧ c ≠ 0) →
      (s.length : Int) + 2 < 2147483648 →
      parse (ws ++ 34 :: (s ++ 34 :: rest)) = some (some (.string s s.length))) ∧
    (∀ body, hasClosingQuote body = true → peek body ≠ 34 →
      (body.length : Int) + 1 < 2147483648 →
      ∃ k : Nat, 1 ≤ k ∧ k ≤ body.length ∧
        (nextToken (ws ++ 34 :: body)).1.length = (k : Int) + 2 ∧
        parse (ws ++ 34 :: body) = some (some (.string (body.take k) k))) := by
  constructor
  · intro s rest hne hs hlen
    have hc : copiedText s :=
      ⟨hne, by omega, fun h => (hs 0 h).2.2 rfl, fun _ h => (hs 34 h).1 rfl⟩
    have hb : 92 ∉ s := fun h => (hs 92 h).2.1 rfl
    apply parse_of_parseValue 1 _ rest
    rw [parseValue_append_ws _ _ hws]
    exact parseValue_plain_string 0 s rest hc hb
  · intro body hq h1 hlen
    have hclose := scanString_close body 1 hq
    have hone := scanString_counts_one body 1 hq h1
    have hcount := scanString_count body 1
    have htok : scanStringToken (34 :: body) =
        (TOKEN_STRING, (scanString body 1).2 + 1, (scanString body 1).1.tail) := by
      rw [scanStringToken]; simp only [List.tail_cons, hclose, if_true]
    obtain ⟨k, hk⟩ : ∃ k : Nat, (scanString body 1).2 = (k : Int) + 1 :=
      ⟨((scanString body 1).2 - 1).toNat, by omega⟩
    refine ⟨k, by omega, by omega, ?_, ?_⟩
    · rw [(nextToken_append_ws ws _ hws).2.2.1, nextToken_cons_quote, htok]
      simp only
      omega
    · apply parse_of_parseValue 1 _ (scanString body 1).1.tail
      rw [parseValue_append_ws _ _ hws, parseValue]
      simp only [nextToken_cons_quote, htok, parseString, ne_eq, not_true_eq_false, if_false,
        Option.map_some', List.tail_cons, create_string, copy_string]
      have e : (scanString body 1).2 + 1 - 2 = (k : Int) := by omega
      rw [e]
      have c1 : ¬ ((k : Int) ≤ 0) := by omega
      have c2 : ¬ ((k : Int) > 2147483647 - 1) := by omega
      simp only [c1, c2, if_false, Int.toNat_ofNat]

/-- C5 (amended) at the literals `"ab"` (followed by ` x`) and `"a\"b"`. -/
theorem string_literal_raw_copy_witness :
    parse (bytes " \"ab\" x") = some (some (.string (bytes "ab") 2)) ∧
    (∃ k : Nat, 1 ≤ k ∧ k ≤ 5 ∧
      (nextToken (bytes " \"a\\\"b\"")).1.length = (k : Int) + 2 ∧
      parse (bytes " \"a\\\"b\"") = some (some (.string ((bytes "a\\\"b\"").take k) k))) ∧
    parse (bytes " \"a\\\"b\"") = some (some (.string [97, 92, 34] 3)) :=
  ⟨(string_literal_raw_copy [32] (by decide)).1 (bytes "ab") (bytes " x") (by decide)
      (by decide) (by decide),
    (string_literal_raw_copy [32] (by decide)).2 (bytes "a\\\"b\"") rfl (by decide)
      (by decide),
    rfl⟩

/-- C6. For every input whose first character after whitespace is a quote and
whose text after that quote has no closing (unescaped) quote, `nextToken`
returns an Error token and `parseValue` returns null. -/
theorem unterminated_string_rejected (ws s : List Nat)
    (hws : ∀ c ∈ ws, isWhitespace c = true) (h : hasClosingQuote s = false) :
    (nextToken (ws ++ 34 :: s)).1.type = TOKEN_ERROR ∧ parse (ws ++ 34 :: s) = some none := by
  have ht : (nextToken (ws ++ 34 :: s)).1.type = TOKEN_ERROR := by
    rw [(nextToken_append_ws ws _ hws).1]; exact nextToken_unterminated s h
  refine ⟨ht, ?_⟩
  rw [parse, fuelFor_eq, parseValue]
  simp only [ht]
  rfl

/-- C6 at the input ` "abc`. -/
theorem unterminated_string_rejected_witness :
    (∀ c ∈ bytes " ", isWhitespace c = true) ∧ hasClosingQuote (bytes "abc") = false ∧
    (nextToken (bytes " " ++ 34 :: bytes "abc")).1.type = TOKEN_ERROR ∧
    parse (bytes " " ++ 34 :: bytes "abc") = some none :=
  ⟨by decide, by decide,
    unterminated_string_rejected (bytes " ") (bytes "abc") (by decide) (by decide)⟩

/-- C7 (counterexample). On the lone minus `nextToken` returns a Number token,
not an Error token, and `parseValue` returns the Number zero. -/
theorem lone_minus_is_number :
    (nextToken (bytes "-")).1.type ≠ TOKEN_ERROR ∧
    parse (bytes "-") = some (some (.number (.finite false 0 0))) := by
  exact ⟨by decide, rfl⟩

/-- C7 (amended). Malformed numeric text is not rejected: on each of `-`, `1.`
and `1e`, `nextToken` returns a Number token and `parseValue` returns a Number
value, namely what `strtod` makes of the text: 0, 1 and 1. -/
theorem malformed_numbers_accepted :
    (nextToken (bytes "-")).1.type = TOKEN_NUMBER ∧
    (nextToken (bytes "1.")).1.type = TOKEN_NUMBER ∧
    (nextToken (bytes "1e")).1.type = TOKEN_NUMBER ∧
    parse (bytes "-") = some (some (.number (.finite false 0 0))) ∧
    parse (bytes "1.") = some (some (.number (.finite false 1 0))) ∧
    parse (bytes "1e") = some (some (.number (.finite false 1 0))) := by
  exact ⟨rfl, rfl, rfl, rfl, rfl, rfl⟩

/-- C8. Parsing `{"a":1,"a":2}` yields the Object with two pairs keyed `a`,
with the values 1 (`1 * 2^0`) then 2 (`1 * 2^1`), and `find_value` with the key
`a` on that object returns the first pair's value, Number 1. -/
theorem duplicate_keys_first_match :
    parse (bytes "\x7b\"a\":1,\"a\":2\x7d") =
      some (some (.object
        [(some (bytes "a"), .number (.finite false 1 0)),
         (some (bytes "a"), .number (.finite false 1 1))])) ∧
    find_value (.object
        [(some (bytes "a"), .number (.finite false 1 0)),
         (some (bytes "a"), .number (.finite false 1 1))]) (bytes "a") =
      some (some (.number (.finite false 1 0))) := by
  exact ⟨rfl, rfl⟩

/-- C9 (the code at the failing input). The objects parsed from `{"":1}` and
`{"":1,"a":2}` have a null first key, `copy_string` returning null for the
length 0 and `parseObject` storing it unchecked (`create_string` checks the
same null and gives up).  `find_value` on them with the key `a` hands that null
key to `strcmp`: the behaviour is undefined, where the claim says null is
returned for the first object and the Number 2 for the second. -/
theorem find_value_null_key_undefined :
    parse (bytes "\x7b\"\":1\x7d") =
      some (some (.object [(none, .number (.finite false 1 0))])) ∧
    find_value (.object [(none, .number (.finite false 1 0))]) (bytes "a") = none ∧
    parse (bytes "\x7b\"\":1,\"a\":2\x7d") =
      some (some (.object [(none, .number (.finite false 1 0)),
        (some (bytes "a"), .number (.finite false 1 1))])) ∧
    find_value (.object [(none, .number (.finite false 1 0)),
        (some (bytes "a"), .number (.finite false 1 1))]) (bytes "a") = none ∧
    copy_string (some (bytes "\":1\x7d")) 0 = none ∧
    create_string (some (bytes "\":1\x7d")) 0 = none := by
  exact ⟨rfl, rfl, rfl, rfl, rfl, rfl⟩

/-- `find_value` where no key is the null pointer.  For every value whose
object keys are all present and every key: `find_value` returns null when the
value is not an Object; on an Object it returns null exactly when no pair's
key equals the key, and it returns the value of the pair with the smallest
index whose key equals it. -/
theorem find_value_spec (v : JsonValue) (key : List Nat)
    (hk : ∀ pairs, v = .object pairs → ∀ p ∈ pairs, p.1 ≠ none) :
    ((∀ pairs, v ≠ .object pairs) → find_value v key = some none) ∧
    (∀ pairs, v = .object pairs →
      (find_value v key = some none ↔ ∀ p ∈ pairs, ¬ keyMatches p key) ∧
      (∀ (i : Nat) (hi : i < pairs.length),
        keyMatches (pairs.get ⟨i, hi⟩) key →
        (∀ (j : Nat) (hj : j < i), ¬ keyMatches (pairs.get ⟨j, Nat.lt_trans hj hi⟩) key) →
        find_value v key = some (some (pairs.get ⟨i, hi⟩).2))) := by
  constructor
  · intro hno
    cases v with
    | object pairs => exact absurd rfl (hno pairs)
    | _ => rfl
  · intro pairs hv
    subst hv
    exact ⟨find_loop_none_iff pairs key (hk pairs rfl),
      fun i hi hm hf => find_loop_first pairs key i hi hm hf (hk pairs rfl)⟩

/-- `find_value_spec` at the object parsed from `{"a":1,"a":2}` and the key
`a`: the keys are present and the first pair's value is returned. -/
theorem find_value_spec_witness :
    (∀ pairs, JsonValue.object
        [(some (bytes "a"), .number (.finite false 1 0)),
         (some (bytes "a"), .number (.finite false 1 1))] = .object pairs →
      ∀ p ∈ pairs, p.1 ≠ none) ∧
    find_value (.object
        [(some (bytes "a"), .number (.finite false 1 0)),
         (some (bytes "a"), .number (.finite false 1 1))]) (bytes "a") =
      some (some (.number (.finite false 1 0))) := by
  have hk : ∀ pairs, JsonValue.object
        [(some (bytes "a"), .number (.finite false 1 0)),
         (some (bytes "a"), .number (.finite false 1 1))] = .object pairs →
      ∀ p ∈ pairs, p.1 ≠ none := by
    intro pairs h p hp
    injection h with h
    subst h
    simp only [List.mem_cons, List.mem_singleton, List.not_mem_nil, or_false] at hp
    rcases hp with hp | hp <;> subst hp <;> simp
  exact ⟨hk, ((find_value_spec _ (bytes "a") hk).2 _ rfl).2 0 (by decide)
    ⟨bytes "a", rfl, rfl⟩ (fun j hj => absurd hj (Nat.not_lt_zero j))⟩

/-- C10 (counterexample). The well-formed array nested 513 deep, more than the
suggested bound of 512, is parsed, not rejected. -/
theorem depth_513_accepted :
    parse (List.replicate 513 91 ++ (bytes "null" ++ List.replicate 513 93)) =
      some (some (nestArray 513 .null)) :=
  parse_nested 513

/-- C10 (amended). The parser keeps no count of the nesting depth and recurses
once per level: for every `n`, the well-formed array nested `n` deep around
`null` is accepted, and yields the tree of `n` nested one-element arrays,
whenever the nested calls and loop rounds may go `3 * n + 1` deep (the first
argument of `parseValue`, which stands for the room on the call stack); with
less room than that the call does not return a result.  No depth, 512 or
other, is a limit of the parser itself: at every depth up to 513, one more
than the suggested 512, the top-level parse returns the tree. -/
theorem nesting_takes_recursion (n fuel : Nat) (rest : List Nat) :
    (3 * n + 1 ≤ fuel →
      parseValue fuel
        (List.replicate n 91 ++ (bytes "null" ++ (List.replicate n 93 ++ rest))) =
      some (some (nestArray n .null), rest)) ∧
    (fuel ≤ 3 * n →
      parseValue fuel
        (List.replicate n 91 ++ (bytes "null" ++ (List.replicate n 93 ++ rest))) = none) ∧
    (n ≤ 513 →
      parse (List.replicate n 91 ++ (bytes "null" ++ List.replicate n 93)) =
        some (some (nestArray n .null))) := by
  refine ⟨?_, ?_, ?_⟩
  · intro hf
    obtain ⟨f, rfl⟩ : ∃ f, fuel = f + (3 * n + 1) := ⟨fuel - (3 * n + 1), by omega⟩
    exact parseValue_nested n f rest
  · intro hf
    exact parseValue_nested_short n fuel rest hf
  · intro _
    exact parse_nested n

/-- C10 (amended) at the array nested 513 deep: accepted with room for 1540
nested calls and loop rounds, no result with room for 1539; and the top-level
parse at the depth 512. -/
theorem nesting_takes_recursion_witness :
    parseValue 1540 (List.replicate 513 91 ++ (bytes "null" ++ (List.replicate 513 93 ++ []))) =
      some (some (nestArray 513 .null), []) ∧
    parseValue 1539 (List.replicate 513 91 ++ (bytes "null" ++ (List.replicate 513 93 ++ []))) =
      none ∧
    parse (List.replicate 512 91 ++ (bytes "null" ++ List.replicate 512 93)) =
      some (some (nestArray 512 .null)) :=
  ⟨(nesting_takes_recursion 513 1540 []).1 (by decide),
    (nesting_takes_recursion 513 1539 []).2.1 (by decide),
    (nesting_takes_recursion 512 0 []).2.2 (by decide)⟩

/-- C11 (counterexample). On the uppercase spellings `TRUE`, `FALSE` and
`NULL`, `nextToken` returns the True, False and Null tokens, not Error tokens,
and `parseValue` returns Boolean 1, Boolean 0 and Null. -/
theorem uppercase_keywords_accepted :
    (nextToken (bytes "TRUE")).1.type = TOKEN_TRUE ∧
    (nextToken (bytes "FALSE")).1.type = TOKEN_FALSE ∧
    (nextToken (bytes "NULL")).1.type = TOKEN_NULL ∧
    (nextToken (bytes "TRUE")).1.type ≠ TOKEN_ERROR ∧
    parse (bytes "TRUE") = some (some (.boolean 1)) ∧
    parse (bytes "FALSE") = some (some (.boolean 0)) ∧
    parse (bytes "NULL") = some (some .null) := by
  exact ⟨rfl, rfl, rfl, by decide, rfl, rfl, rfl⟩

/-- C11 (amended). Keyword literals are all lowercase or all uppercase:
`nextToken` returns a True, False or Null token exactly when the text at the
cursor, after the whitespace, begins with `true` or `TRUE`, with `false` or
`FALSE`, with `null` or `NULL`; a mixed spelling such as `True` gives an Error
token. -/
theorem keyword_spellings (input : List Nat) :
    ((nextToken input).1.type = TOKEN_TRUE ↔
      (bytes "true" <+: (skipWhitespace input 1 1).1 ∨
        bytes "TRUE" <+: (skipWhitespace input 1 1).1)) ∧
    ((nextToken input).1.type = TOKEN_FALSE ↔
      (bytes "false" <+: (skipWhitespace input 1 1).1 ∨
        bytes "FALSE" <+: (skipWhitespace input 1 1).1)) ∧
    ((nextToken input).1.type = TOKEN_NULL ↔
      (bytes "null" <+: (skipWhitespace input 1 1).1 ∨
        bytes "NULL" <+: (skipWhitespace input 1 1).1)) ∧
    (nextToken (bytes "True")).1.type = TOKEN_ERROR ∧
    parse (bytes "True") = some none :=
  ⟨keyword_type_iff input _ _ _ (Or.inl ⟨rfl, rfl, rfl⟩),
    keyword_type_iff input _ _ _ (Or.inr (Or.inl ⟨rfl, rfl, rfl⟩)),
    keyword_type_iff input _ _ _ (Or.inr (Or.inr ⟨rfl, rfl, rfl⟩)), rfl, rfl⟩

/-- C12 (the code at the failing inputs). On `-1` the Number token has length
1 while the cursor has moved over both characters, and on `"a\"b"` the String
token has length 5 while the cursor has moved over all six: in both, the
cursor is not `token.start + token.length`.  On `12` and `"ab"` it is. -/
theorem token_length_miscounts :
    nextToken (bytes "-1") = (⟨TOKEN_NUMBER, some (bytes "-1"), 1, 1, 1⟩, []) ∧
    (bytes "-1").drop 1 = bytes "1" ∧
    nextToken (bytes "\"a\\\"b\"") =
      (⟨TOKEN_STRING, some (bytes "\"a\\\"b\""), 5, 1, 1⟩, []) ∧
    (bytes "\"a\\\"b\"").drop 5 = bytes "\"" ∧
    nextToken (bytes "12") = (⟨TOKEN_NUMBER, some (bytes "12"), 2, 1, 1⟩, []) ∧
    nextToken (bytes "\"ab\"") = (⟨TOKEN_STRING, some (bytes "\"ab\""), 4, 1, 1⟩, []) := by
  exact ⟨rfl, rfl, rfl, rfl, rfl, rfl⟩

/-- C13 (counterexample). On `{} x` and on `true false` the top-level parse
returns the leading value, the empty Object and Boolean 1. -/
theorem trailing_data_accepted :
    parse (bytes "\x7b\x7d x") = some (some (.object [])) ∧
    parse (bytes "true false") = some (some (.boolean 1)) ∧
    parse (bytes "\x7b\x7d x") ≠ some none := by
  refine ⟨rfl, rfl, ?_⟩
  intro h
  have h2 : parse (bytes "\x7b\x7d x") = some (some (.object [])) := rfl
  rw [h2] at h
  simp at h

/-- C13 (amended). Trailing data is ignored: for every text `v` that
`parseValue` accepts entirely, with the value `x`, and every text `t` written
after it, the top-level parse of `v` followed by `t` returns `x`, the leading
value, instead of failing, and `parseValue` leaves the cursor in front of `t`.
When `x` is a Number this needs that `t` does not begin with a character that
could continue the number (a digit, a letter, a point or a sign): such a
character is read as part of the number. -/
theorem trailing_data_ignored (v t : List Nat) (x : JsonValue) (hv : accepts v x)
    (ht : (∃ d, x = .number d) → stopsAt numberChar t) :
    parse (v ++ t) = some (some x) ∧ ∃ fuel, parseValue fuel (v ++ t) = some (some x, t) := by
  obtain ⟨fuel, hf⟩ := hv
  have h := (parser_frame_end fuel).1 v x [] t
    (fun hty => ht (number_of_number_token fuel v [] x hf hty)) hf
  rw [List.nil_append] at h
  exact ⟨parse_of_parseValue fuel _ t (some x) h, fuel, h⟩

/-- C13 (amended) at the inputs `{} x`, `true false`, `truefalse` and `1 2`. -/
theorem trailing_data_ignored_witness :
    parse (bytes "\x7b\x7d x") = some (some (.object [])) ∧
    parse (bytes "true false") = some (some (.boolean 1)) ∧
    parse (bytes "truefalse") = some (some (.boolean 1)) ∧
    parse (bytes "1 2") = some (some (.number (.finite false 1 0))) :=
  ⟨(trailing_data_ignored (bytes "\x7b\x7d") (bytes " x") (.object []) ⟨2, rfl⟩
      (fun h => by obtain ⟨d, hd⟩ := h; cases hd)).1,
    (trailing_data_ignored (bytes "true") (bytes " false") (.boolean 1) ⟨1, rfl⟩
      (fun h => by obtain ⟨d, hd⟩ := h; cases hd)).1,
    (trailing_data_ignored (bytes "true") (bytes "false") (.boolean 1) ⟨1, rfl⟩
      (fun h => by obtain ⟨d, hd⟩ := h; cases hd)).1,
    (trailing_data_ignored (bytes "1") (bytes " 2") (.number (.finite false 1 0)) ⟨1, rfl⟩
      (fun _ => rfl)).1⟩

/-- C14 (counterexample). In `[1` the second token, `1`, is the second
character of the first line, so its column is 2; `nextToken`, called at the
cursor the first call left, gives it column 1. -/
theorem second_token_column :
    (nextToken (bytes "[1")).2 = bytes "1" ∧
    (nextToken (nextToken (bytes "[1")).2).1.column = 1 ∧
    sourceColumn (bytes "[") = 2 ∧
    (nextToken (bytes "a\n1")).2 = bytes "\n1" ∧
    (nextToken (nextToken (bytes "a\n1")).2).1.line = 2 ∧
    (nextToken (nextToken (nextToken (bytes "[\n[1")).2).2).1.line = 1 ∧
    sourceLine (bytes "[\n[") = 2 := by
  exact ⟨rfl, rfl, rfl, rfl, rfl, rfl, rfl⟩

/-- C14 (amended). A token carries the position of its first character
counted from the cursor at the call: when `nextToken` is called with the
whitespace `ws` in front of the first character that is not whitespace,
`token.line` is 1 plus the number of newlines in `ws` and `token.column` is 1
plus the number of characters of `ws` after its last newline (after the
cursor when it has none).  For the first token of an input this is its source
position. -/
theorem token_position_from_cursor (ws X : List Nat)
    (hws : ∀ c ∈ ws, isWhitespace c = true) (hX : isWhitespace (peek X) = false) :
    (nextToken (ws ++ X)).1.line = sourceLine ws ∧
    (nextToken (ws ++ X)).1.column = sourceColumn ws ∧
    (peek X ≠ 0 → (nextToken (ws ++ X)).1.start = some X) := by
  obtain ⟨h1, h2⟩ := nextToken_position ws X hws hX
  refine ⟨h1, h2, ?_⟩
  intro h0
  have h := skipWhitespace_position ws X hws hX 1 1
  have hb : (peek X == 0) = false := by simpa using h0
  rw [nextToken, h, tokenAt]
  simp only [hb, Bool.false_eq_true, if_false]

/-- C14 (amended) at the input ` \n\t 7`: line 2, column 3. -/
theorem token_position_from_cursor_witness :
    (∀ c ∈ bytes " \n\t ", isWhitespace c = true) ∧ isWhitespace (peek (bytes "7")) = false ∧
    (nextToken (bytes " \n\t " ++ bytes "7")).1.line = 2 ∧
    (nextToken (bytes " \n\t " ++ bytes "7")).1.column = 3 := by
  have h := token_position_from_cursor (bytes " \n\t ") (bytes "7") (by decide) (by decide)
  exact ⟨by decide, by decide, h.1, h.2.1⟩

/-- C18. For every non-empty text `s` without a quote, a backslash or a NUL,
in a literal that fits the `int32_t` counters (shorter than `2^31`), parsing
`s` between two quotes yields the String whose text is `s` and whose recorded
length is the length of `s`. -/
theorem plain_string_parses (s : List Nat) (hne : s ≠ [])
    (hs : ∀ c ∈ s, c ≠ 34 ∧ c ≠ 92 ∧ c ≠ 0)
    (hlen : ((34 :: (s ++ [34])).length : Int) < 2147483648) :
    parse (34 :: (s ++ [34])) = some (some (.string s s.length)) := by
  have hc : copiedText s := by
    refine ⟨hne, ?_, fun h => (hs 0 h).2.2 rfl, fun _ h => (hs 34 h).1 rfl⟩
    simp only [List.length_cons, List.length_append, List.length_nil] at hlen
    push_cast at hlen
    omega
  have hb : 92 ∉ s := fun h => (hs 92 h).2.1 rfl
  rw [parse, fuelFor_eq, parseValue_plain_string _ s [] hc hb]
  rfl

/-- C18 at the text `abc`. -/
theorem plain_string_parses_witness :
    bytes "abc" ≠ [] ∧ (∀ c ∈ bytes "abc", c ≠ 34 ∧ c ≠ 92 ∧ c ≠ 0) ∧
    parse (34 :: (bytes "abc" ++ [34])) = some (some (.string (bytes "abc") 3)) :=
  ⟨by decide, by decide, plain_string_parses (bytes "abc") (by decide) (by decide) (by decide)⟩

/-- C19. For every input: `nextToken` leaves the cursor at a place reached
over characters none of which is the terminating NUL; it returns the end of
input exactly when only whitespace remains before the terminator; every other
token moves the cursor by at least one character; and so `parseValue`,
`parseObject` and `parseArray` return, with the bound of three rounds per
character and three more, without reaching it. -/
theorem tokenizer_progress (input : List Nat) :
    advancesTo input (nextToken input).2 ∧
    ((nextToken input).1.type = TOKEN_EOF ↔ ∀ c ∈ cstr input, isWhitespace c = true) ∧
    ((nextToken input).1.type ≠ TOKEN_EOF → (nextToken input).2.length < input.length) ∧
    (∀ fuel, 3 * input.length + 3 ≤ fuel →
      (∃ r, parseValue fuel input = some r) ∧ (∃ r, parseObject fuel input = some r) ∧
      (∃ r, parseArray fuel input = some r)) := by
  refine ⟨nextToken_advances input, nextToken_eof_iff_ws input,
    (nextToken_length input).2, ?_⟩
  · intro fuel hf
    have h := parser_fuel fuel
    refine ⟨?_, ?_, ?_⟩
    · cases hp : parseValue fuel input with
      | none => exact absurd hp (h.1 input (by omega))
      | some r => exact ⟨r, rfl⟩
    · cases hp : parseObject fuel input with
      | none => exact absurd hp (h.2.1 input (by omega))
      | some r => exact ⟨r, rfl⟩
    · cases hp : parseArray fuel input with
      | none => exact absurd hp (h.2.2.2.1 input (by omega))
      | some r => exact ⟨r, rfl⟩

/-- C20. On the two characters `""`, `nextToken` returns a String token of
length 2 and `parseValue` returns null, `copy_string` returning null for the
length 0; and parsing `{"":1}` succeeds with one pair whose key is the null
pointer, not an empty text. -/
theorem empty_string_literal :
    (nextToken (bytes "\"\"")).1.type = TOKEN_STRING ∧
    (nextToken (bytes "\"\"")).1.length = 2 ∧
    copy_string (some (bytes "\"")) 0 = none ∧
    parse (bytes "\"\"") = some none ∧
    parse (bytes "\x7b\"\":1\x7d") =
      some (some (.object [(none, .number (.finite false 1 0))])) ∧
    parse (bytes "\x7b\"\":1\x7d") ≠
      some (some (.object [(some [], .number (.finite false 1 0))])) := by
  refine ⟨rfl, rfl, rfl, rfl, rfl, ?_⟩
  intro h
  have h2 : parse (bytes "\x7b\"\":1\x7d") =
      some (some (.object [(none, .number (.finite false 1 0))])) := rfl
  rw [h2] at h
  simp at h

/-- C16. For every non-empty list of elements, each a text that `parseValue`
accepts entirely with whitespace at will before and after it, written between
brackets with commas between them (whitespace at will before the opening
bracket, anything after the closing one): `parse` returns the Array of the
values of the elements, in order.  With a comma before the closing bracket the
parse fails.  It fails when the elements are followed by a text that cannot
continue a number and whose first token is neither a comma nor a closing
bracket; and, whatever the characters are, when the last element is read in
front of a text (`Element.okBefore`) whose first token is neither a comma nor
a closing bracket. -/
theorem array_elementwise (ws rest : List Nat) (elems : List Element)
    (hws : ∀ c ∈ ws, isWhitespace c = true) (hok : ∀ e ∈ elems, e.ok) (hne : elems ≠ []) :
    parse (ws ++ 91 :: (arrayBody elems ++ 93 :: rest)) =
      some (some (.array (elems.map Element.value))) ∧
    (∀ gap, (∀ c ∈ gap, isWhitespace c = true) →
      parse (ws ++ 91 :: (arrayBody elems ++ 44 :: (gap ++ 93 :: rest))) = some none) ∧
    (∀ u, stopsAt numberChar u → (nextToken u).1.type ≠ TOKEN_COMMA →
      (nextToken u).1.type ≠ TOKEN_ARRAY_END →
      parse (ws ++ 91 :: (arrayBody elems ++ u)) = some none) ∧
    (∀ (e : Element) u, e.okBefore u → (nextToken u).1.type ≠ TOKEN_COMMA →
      (nextToken u).1.type ≠ TOKEN_ARRAY_END →
      parse (ws ++ 91 :: (e.source ++ u)) = some none ∧
      parse (ws ++ 91 :: (arrayBody elems ++ 44 :: (e.source ++ u))) = some none) := by
  refine ⟨?_, ?_, ?_, ?_⟩
  · obtain ⟨g, hg⟩ := arrayLoop_elements elems hok hne (93 :: rest) rfl []
    have := hg 0 (some (.array (elems.map Element.value)), rest)
      (by simp only [nextToken_cons_rbracket, if_true, List.nil_append])
    exact parse_of_arrayLoop _ ws _ hws _ _ this
  · intro gap hgap
    obtain ⟨g, hg⟩ := arrayLoop_elements elems hok hne (44 :: (gap ++ 93 :: rest)) rfl []
    have hv : parseValue 1 (gap ++ 93 :: rest) = some (none, rest) := by
      rw [parseValue_append_ws _ _ hgap, parseValue]
      simp only [nextToken_cons_rbracket]
    have := hg 2 (none, rest)
      (by
        simp only [nextToken_cons_comma, reduceCtorEq, if_false, ne_eq, not_true_eq_false]
        rw [parseArrayLoop, hv])
    exact parse_of_arrayLoop _ ws _ hws _ _ this
  · intro u hu h1 h2
    obtain ⟨g, hg⟩ := arrayLoop_elements elems hok hne u hu []
    have := hg 0 (none, (nextToken u).2) (by rw [if_neg h2, if_pos h1])
    exact parse_of_arrayLoop _ ws _ hws _ _ this
  · intro e u he h1 h2
    constructor
    · obtain ⟨g, hg⟩ := arrayLoop_bad_follower [] e u he h1 h2
      exact parse_of_arrayLoop _ ws _ hws _ _ (hg 0)
    · obtain ⟨g, hg⟩ := arrayLoop_elements elems hok hne (44 :: (e.source ++ u)) rfl []
      obtain ⟨g2, hg2⟩ := arrayLoop_bad_follower ([] ++ elems.map Element.value) e u he h1 h2
      have := hg (g2 + 0) (none, (nextToken u).2)
        (by
          simp only [nextToken_cons_comma, reduceCtorEq, if_false, ne_eq, not_true_eq_false]
          exact hg2 0)
      exact parse_of_arrayLoop _ ws _ hws _ _ this

/-- C16 at the texts `[1 , true]`, `[1 , true,]`, `[1 , true 2]` and
`[1 , true,"a"2]`. -/
theorem array_elementwise_witness :
    parse (bytes "[1 , true]") =
      some (some (.array [.number (.finite false 1 0), .boolean 1])) ∧
    parse (bytes "[1 , true,]") = some none ∧
    parse (bytes "[1 , true 2]") = some none ∧
    parse (bytes "[1 , true,\"a\"2]") = some none := by
  have h := array_elementwise [] []
    [⟨[], bytes "1", .number (.finite false 1 0), [32]⟩, ⟨[32], bytes "true", .boolean 1, []⟩]
    (by decide)
    (by
      intro e he
      simp only [List.mem_cons, List.mem_singleton, List.not_mem_nil, or_false] at he
      rcases he with he | he
      · subst he; exact ⟨by decide, by decide, 1, rfl⟩
      · subst he; exact ⟨by decide, by decide, 1, rfl⟩)
    (by simp)
  exact ⟨h.1, h.2.1 [] (by decide), h.2.2.1 (bytes " 2]") rfl (by decide) (by decide),
    (h.2.2.2 ⟨[], bytes "\"a\"", .string (bytes "a") 1, []⟩ (bytes "2]")
      ⟨by decide, by decide, 1, rfl⟩ (by decide) (by decide)).2⟩

/-- C17. For every non-empty list of members, each a key that is not empty and
has no quote, backslash or NUL, written between quotes, a colon and a text that
`parseValue` accepts entirely (whitespace at will around them), written between
braces with commas between them: `parse` returns the Object whose pairs are the
keys with the values of the texts, in order, equal keys included.  The parse
fails with a comma before the closing brace; when the first token of a member
is not a String (after the opening brace: neither a String nor the closing
brace); when the token after a key is not a colon; when the members are
followed by a text that cannot continue a number and whose first token is
neither a comma nor a closing brace; and, whatever the characters are, when
the last member is read in front of a text (`Member.okBefore`) whose first
token is neither a comma nor a closing brace. -/
theorem object_memberwise (ws rest : List Nat) (members : List Member)
    (hws : ∀ c ∈ ws, isWhitespace c = true) (hok : ∀ m ∈ members, m.ok) (hne : members ≠ []) :
    parse (ws ++ 123 :: (objectBody members ++ 125 :: rest)) =
      some (some (.object (members.map Member.pair))) ∧
    (∀ gap, (∀ c ∈ gap, isWhitespace c = true) →
      parse (ws ++ 123 :: (objectBody members ++ 44 :: (gap ++ 125 :: rest))) = some none) ∧
    (∀ u, (nextToken u).1.type ≠ TOKEN_STRING →
      parse (ws ++ 123 :: (objectBody members ++ 44 :: u)) = some none) ∧
    (∀ u, (nextToken u).1.type ≠ TOKEN_STRING → (nextToken u).1.type ≠ TOKEN_OBJECT_END →
      parse (ws ++ 123 :: u) = some none) ∧
    (∀ u, (nextToken u).1.type = TOKEN_STRING →
      (nextToken (nextToken u).2).1.type ≠ TOKEN_COLON →
      parse (ws ++ 123 :: (objectBody members ++ 44 :: u)) = some none ∧
      parse (ws ++ 123 :: u) = some none) ∧
    (∀ u, stopsAt numberChar u → (nextToken u).1.type ≠ TOKEN_COMMA →
      (nextToken u).1.type ≠ TOKEN_OBJECT_END →
      parse (ws ++ 123 :: (objectBody members ++ u)) = some none) ∧
    (∀ (m : Member) u, m.okBefore u → (nextToken u).1.type ≠ TOKEN_COMMA →
      (nextToken u).1.type ≠ TOKEN_OBJECT_END →
      parse (ws ++ 123 :: (m.source ++ u)) = some none ∧
      parse (ws ++ 123 :: (objectBody members ++ 44 :: (m.source ++ u))) = some none) := by
  have hafter : ∀ u, (nextToken u).1.type ≠ TOKEN_STRING →
      parse (ws ++ 123 :: (objectBody members ++ 44 :: u)) = some none := by
    intro u hu
    obtain ⟨hs, hl⟩ := objectLoop_members members hok hne (44 :: u) rfl
    obtain ⟨g, hg⟩ := hl []
    have := hg 1 (none, (nextToken u).2)
      (by
        simp only [nextToken_cons_comma, reduceCtorEq, if_false, ne_eq, not_true_eq_false]
        exact objectLoop_no_key _ u hu)
    exact parse_of_objectLoop _ ws _ hws _ _ (by rw [hs]; decide) this
  refine ⟨?_, ?_, hafter, ?_, ?_, ?_, ?_⟩
  · obtain ⟨hs, hl⟩ := objectLoop_members members hok hne (125 :: rest) rfl
    obtain ⟨g, hg⟩ := hl []
    have := hg 0 (some (.object (members.map Member.pair)), rest)
      (by simp only [nextToken_cons_rbrace, if_true, List.nil_append])
    exact parse_of_objectLoop _ ws _ hws _ _ (by rw [hs]; decide) this
  · intro gap hgap
    apply hafter
    rw [(nextToken_append_ws gap (125 :: rest) hgap).1, nextToken_cons_rbrace]
    simp
  · intro u h1 h2
    exact parse_of_objectLoop 1 ws u hws _ _ h2 (objectLoop_no_key _ u h1)
  · intro u h1 h2
    constructor
    · obtain ⟨hs, hl⟩ := objectLoop_members members hok hne (44 :: u) rfl
      obtain ⟨g, hg⟩ := hl []
      have := hg 1 (none, (nextToken (nextToken u).2).2)
        (by
          simp only [nextToken_cons_comma, reduceCtorEq, if_false, ne_eq, not_true_eq_false]
          exact objectLoop_no_colon _ u h1 h2)
      exact parse_of_objectLoop _ ws _ hws _ _ (by rw [hs]; decide) this
    · exact parse_of_objectLoop 1 ws u hws _ _ (by rw [h1]; decide)
        (objectLoop_no_colon _ u h1 h2)
  · intro u hu h1 h2
    obtain ⟨hs, hl⟩ := objectLoop_members members hok hne u hu
    obtain ⟨g, hg⟩ := hl []
    have := hg 0 (none, (nextToken u).2) (by rw [if_neg h2, if_pos h1])
    exact parse_of_objectLoop _ ws _ hws _ _ (by rw [hs]; decide) this
  · intro m u hm h1 h2
    constructor
    · obtain ⟨hs, g, hg⟩ := objectLoop_bad_follower [] m u hm h1 h2
      exact parse_of_objectLoop _ ws _ hws _ _ (by rw [hs]; decide) (hg 0)
    · obtain ⟨hs, hl⟩ := objectLoop_members members hok hne (44 :: (m.source ++ u)) rfl
      obtain ⟨g, hg⟩ := hl []
      obtain ⟨_, g2, hg2⟩ := objectLoop_bad_follower ([] ++ members.map Member.pair) m u hm h1 h2
      have := hg (g2 + 0) (none, (nextToken u).2)
        (by
          simp only [nextToken_cons_comma, reduceCtorEq, if_false, ne_eq, not_true_eq_false]
          exact hg2 0)
      exact parse_of_objectLoop _ ws _ hws _ _ (by rw [hs]; decide) this

/-- C17 at the object `{"a":1, "a" : true}` and at five texts that fail. -/
theorem object_memberwise_witness :
    parse (bytes "\x7b\"a\":1, \"a\" : true\x7d") =
      some (some (.object [(some (bytes "a"), .number (.finite false 1 0)),
        (some (bytes "a"), .boolean 1)])) ∧
    parse (bytes "\x7b\"a\":1, \"a\" : true, \x7d") = some none ∧
    parse (bytes "\x7b\"a\":1, \"a\" : true,7:2\x7d") = some none ∧
    parse (bytes "\x7b\"a\":1, \"a\" : true,\"b\" 2\x7d") = some none ∧
    parse (bytes "\x7b\"a\":1, \"a\" : true \"b\":2\x7d") = some none ∧
    parse (bytes "\x7b\"a\":1, \"a\" : true,\"b\":\"c\"2\x7d") = some none := by
  have h := object_memberwise [] []
    [⟨[], bytes "a", [], ⟨[], bytes "1", .number (.finite false 1 0), []⟩⟩,
      ⟨[32], bytes "a", [32], ⟨[32], bytes "true", .boolean 1, []⟩⟩]
    (by decide)
    (by
      intro e he
      simp only [List.mem_cons, List.mem_singleton, List.not_mem_nil, or_false] at he
      rcases he with he | he
      · subst he
        exact ⟨by decide, by decide, by decide, by decide, by decide, by decide, by decide, 1, rfl⟩
      · subst he
        exact ⟨by decide, by decide, by decide, by decide, by decide, by decide, by decide, 1, rfl⟩)
    (by simp)
  exact ⟨h.1, h.2.1 [32] (by decide), h.2.2.1 (bytes "7:2\x7d") (by decide),
    (h.2.2.2.2.1 (bytes "\"b\" 2\x7d") (by decide) (by decide)).1,
    h.2.2.2.2.2.1 (bytes " \"b\":2\x7d") rfl (by decide) (by decide),
    (h.2.2.2.2.2.2 ⟨[], bytes "b", [], ⟨[], bytes "\"c\"", .string (bytes "c") 1, []⟩⟩
      (bytes "2\x7d")
      ⟨by decide, by decide, by decide, by decide, by decide, by decide, by decide, 1, rfl⟩
      (by decide) (by decide)).2⟩

/-- C15. For every input on which `parseValue` fails, from whatever heap the
call starts: the parser with its allocations tracked fails at the same cursor,
and on return every block handed out during the call (by `malloc` or
`realloc`: nodes, string and key buffers, the `keys`, `values` and `items`
arrays) has been released exactly once, and no other block has been released:
the number of releases of a block is what it was before the call, plus one
for the blocks handed out during the call. -/
theorem no_leak_no_double_release (fuel : Nat) (input rest : List Nat) (h : Heap)
    (hfail : parseValue fuel input = some (none, rest)) :
    ∃ h2, parseValueT fuel input h = some (none, rest, h2) ∧ h.next ≤ h2.next ∧
      ∀ a, h2.freed.count a = h.freed.count a + allocatedIn h h2 a := by
  have href := (tracked_refines fuel).1 input h
  rw [hfail] at href
  cases hp : parseValueT fuel input h with
  | none => rw [hp] at href; simp at href
  | some p =>
    obtain ⟨r, rest2, h2⟩ := p
    rw [hp] at href
    simp only [Option.map_some', Option.some.injEq, Prod.mk.injEq, Option.map_eq_none'] at href
    obtain ⟨hr, hrest⟩ := href
    subst hr hrest
    obtain ⟨l1, l2⟩ := (tracked_ledger fuel).1 input h _ _ _ hp
    refine ⟨h2, rfl, l1, fun a => ?_⟩
    have := l2 a
    simp only [ownedBy, Option.map_none', Option.getD_none, List.count_nil] at this
    omega

/-- C15 at the text `{"a":[1,"b"],"c" 2}`, which fails after the second key
was copied, from the empty heap: the eleven blocks handed out are each
released once. -/
theorem no_leak_no_double_release_witness :
    (∃ h2, parseValueT 20 (bytes "\x7b\"a\":[1,\"b\"],\"c\" 2\x7d") ⟨0, []⟩ =
        some (none, bytes "\x7d", h2) ∧ 0 ≤ h2.next ∧
      ∀ a, h2.freed.count a = 0 + allocatedIn ⟨0, []⟩ h2 a) ∧
    parseValueT 20 (bytes "\x7b\"a\":[1,\"b\"],\"c\" 2\x7d") ⟨0, []⟩ =
      some (none, bytes "\x7d", ⟨11, [0, 9, 8, 2, 7, 5, 6, 3, 1, 10, 4]⟩) :=
  ⟨no_leak_no_double_release 20 (bytes "\x7b\"a\":[1,\"b\"],\"c\" 2\x7d") (bytes "\x7d")
    ⟨0, []⟩ rfl, rfl⟩

end JsonC
